import Mathlib

/-!
# Verification of the finite-automaton engine

A shallow embedding of the JavaScript `Automaton` class (subset construction,
partition-refinement minimization, DFA/NFA simulation, serialization) and of
`AutomatonSimulator.isDeterministic`, together with proofs and refutations of
the specification's claims.

Modelling conventions:
* JS `Set` objects are insertion-ordered and duplicate-free; they are modelled
  as `List String` manipulated only through `setAdd` / `setDel`.
* JS plain objects used as maps are modelled as insertion-ordered association
  lists (`objGet` / `objSet` / `objDel`).
* JS strings compare with `<` on UTF-16 code units; `Array.prototype.sort()`
  on a string array is modelled by a stable insertion sort over that order
  (`sortJS`).  Equal strings are identical, so any correct sort agrees.
* JS truthiness matters in several guards: an empty string is falsy, any
  `Set` object is truthy.  `Tgt.truthy` models this for stored transition
  targets, and the embedding uses it exactly where the source tests
  `if (obj[k])` on a stored value.
* Input strings are lists of symbols (the source reads one character per
  step; a symbol is a one-character string there).
-/

namespace Automata

/-- State labels (opaque strings in the source). -/
abbrev St := String

/-- Input symbols.  The reserved symbol ε is `eps`. -/
abbrev Sym := String

/-- The reserved epsilon symbol, `'ε'` in the source. -/
def eps : Sym := "ε"

/-! ## JS ordered-set and object primitives -/

/-- `Set.prototype.add`: append if absent, keep position if present. -/
def setAdd (l : List String) (x : String) : List String :=
  if x ∈ l then l else l ++ [x]

/-- `Set.prototype.delete`: remove the (unique) occurrence. -/
def setDel (l : List String) (x : String) : List String :=
  l.erase x

/-- Object property read: first (unique) binding of the key. -/
def objGet {β : Type} (r : List (String × β)) (k : String) : Option β :=
  (r.find? (fun p => p.1 == k)).map (·.2)

/-- Object property write: update in place if the key exists, else append. -/
def objSet {β : Type} (r : List (String × β)) (k : String) (v : β) :
    List (String × β) :=
  if (r.find? (fun p => p.1 == k)).isSome then
    r.map (fun p => if p.1 == k then (k, v) else p)
  else r ++ [(k, v)]

/-- `delete obj[k]`: drop the binding, keeping the order of the others. -/
def objDel {β : Type} (r : List (String × β)) (k : String) : List (String × β) :=
  r.filter (fun p => p.1 ≠ k)

/-! ## JS string ordering and `Array.prototype.sort()` -/

/-- Lexicographic order on the character lists of two strings (the default JS
string `<`, which compares code units; on the labels used here the two orders
agree). -/
def lexLe : List Char → List Char → Bool
  | [], _ => true
  | _ :: _, [] => false
  | a :: as, b :: bs => if a = b then lexLe as bs else decide (a.val < b.val)

/-- JS string `≤`. -/
def jsLe (a b : String) : Bool := lexLe a.data b.data

/-- Insert into a `jsLe`-sorted list. -/
def insertLe (x : String) : List String → List String
  | [] => [x]
  | y :: ys => if jsLe x y then x :: y :: ys else y :: insertLe x ys

/-- `Array.prototype.sort()` on an array of strings (stable; duplicates kept). -/
def sortJS : List String → List String
  | [] => []
  | x :: xs => insertLe x (sortJS xs)

/-! ## The automaton data model -/

/-- The `kind` tag (`this.type` in the source). -/
inductive Kind
  | DFA
  | NFA
deriving DecidableEq, Repr

/-- A stored transition target: a single state for a DFA table, a `Set` of
states for an NFA table.  The source stores these dynamically in one field. -/
inductive Tgt
  | dfa (t : St)
  | nfa (ts : List St)
deriving DecidableEq, Repr

/-- JS truthiness of a stored target: an empty string is falsy, a `Set`
object is always truthy. -/
def Tgt.truthy : Tgt → Bool
  | .dfa t => t ≠ ""
  | .nfa _ => true

/-- One source state's row: symbol ↦ stored target. -/
abbrev Row := List (Sym × Tgt)

/-- The transition table: source state ↦ row. -/
abbrev Table := List (St × Row)

/-- The `Automaton` aggregate (fields exactly as in the source; `null` is
`none`). -/
structure Automaton where
  type : Kind
  states : List St
  alphabet : List Sym
  transitions : Table
  initialState : Option St
  finalStates : List St
deriving DecidableEq, Repr

/-- `new Automaton(type)`. -/
def Automaton.new (k : Kind) : Automaton :=
  { type := k, states := [], alphabet := [], transitions := [],
    initialState := none, finalStates := [] }

/-- Raw table lookup `this.transitions[q][a]` (no truthiness applied). -/
def lookup2 (A : Automaton) (q : St) (a : Sym) : Option Tgt :=
  (objGet A.transitions q).bind (fun row => objGet row a)

/-- Truthy table lookup, modelling
`this.transitions[q] && this.transitions[q][a]`. -/
def tlookup (A : Automaton) (q : St) (a : Sym) : Option Tgt :=
  match lookup2 A q a with
  | some t => if t.truthy then some t else none
  | none => none

/-! ## The mutation API (`addState` … `removeTransition`) -/

/-- `addState(state)`. -/
def addState (A : Automaton) (s : St) : Automaton :=
  { A with states := setAdd A.states s }

/-- `removeState(state)`: delete the state and cascade through initial/final
membership and the transition table.  A `Tgt.dfa` value met in an NFA-typed
table is kind-inconsistent (the API never produces it): the source would fault
there; the embedding keeps the entry. -/
def removeState (A : Automaton) (s : St) : Automaton :=
  { A with
    states := setDel A.states s
    initialState := if A.initialState = some s then none else A.initialState
    finalStates := setDel A.finalStates s
    transitions := A.transitions.filterMap (fun p =>
      if p.1 = s then none
      else some (p.1, match A.type with
        | .DFA => p.2.filter (fun e => e.2 ≠ .dfa s)
        | .NFA => p.2.filterMap (fun e =>
            match e.2 with
            | .nfa ts =>
              let ts' := setDel ts s
              if ts' = [] then none else some (e.1, Tgt.nfa ts')
            | .dfa t => some (e.1, Tgt.dfa t)))) }

/-- `setAlphabet(alphabet)`: `new Set(array)` (dedup, first occurrence wins). -/
def setAlphabet (A : Automaton) (xs : List Sym) : Automaton :=
  { A with alphabet := xs.foldl setAdd [] }

/-- `setInitialState(state)`: no-op when the state is not a member. -/
def setInitialState (A : Automaton) (s : St) : Automaton :=
  if s ∈ A.states then { A with initialState := some s } else A

/-- `toggleFinalState(state, isFinal)`: no-op when the state is not a member. -/
def toggleFinalState (A : Automaton) (s : St) (isFinal : Bool) : Automaton :=
  if s ∈ A.states then
    { A with finalStates :=
        if isFinal then setAdd A.finalStates s else setDel A.finalStates s }
  else A

/-- `addTransition(from, symbol, to)`: no-op unless both endpoints are known
states; a non-ε symbol is auto-registered in the alphabet; a DFA row stores a
single target, an NFA row a set of targets.  In the NFA branch a stored
`Tgt.dfa` value is falsy only as `""` (then the source makes a fresh set, as
modelled); a truthy one is kind-inconsistent and unreachable via the API. -/
def addTransition (A : Automaton) (frm : St) (sym : Sym) (dst : St) : Automaton :=
  if frm ∈ A.states ∧ dst ∈ A.states then
    let alphabet := if sym ≠ eps then setAdd A.alphabet sym else A.alphabet
    let row := (objGet A.transitions frm).getD []
    let row' := match A.type with
      | .DFA => objSet row sym (Tgt.dfa dst)
      | .NFA =>
        match objGet row sym with
        | some (.nfa ts) => objSet row sym (Tgt.nfa (setAdd ts dst))
        | _ => objSet row sym (Tgt.nfa [dst])
    { A with alphabet := alphabet, transitions := objSet A.transitions frm row' }
  else A

/-- `removeTransition(from, symbol, to)`: guarded by truthiness of the stored
value; prunes an NFA set that becomes empty; drops the symbol from the
alphabet when no transition still uses it (ε is never tracked). -/
def removeTransition (A : Automaton) (frm : St) (sym : Sym) (dst : St) : Automaton :=
  match objGet A.transitions frm with
  | none => A
  | some row =>
    match objGet row sym with
    | none => A
    | some t =>
      if ¬ t.truthy then A
      else
        let row' := match A.type with
          | .DFA => objDel row sym
          | .NFA =>
            match t with
            | .nfa ts =>
              let ts' := setDel ts dst
              if ts' = [] then objDel row sym else objSet row sym (Tgt.nfa ts')
            | .dfa _ => row
        let table' := objSet A.transitions frm row'
        let inUse := table'.any (fun p =>
          match objGet p.2 sym with
          | some t' => t'.truthy
          | none => false)
        let alphabet :=
          if ¬ inUse ∧ sym ≠ eps then setDel A.alphabet sym else A.alphabet
        { A with alphabet := alphabet, transitions := table' }

/-! ## Epsilon-closure and move engine -/

/-- The ε-targets of one state, as read by
`this.transitions[state] && this.transitions[state]['ε']` followed by
iteration over the set.  A `Tgt.dfa` value here is kind-inconsistent (the
closure is only invoked on NFA-typed tables); modelled as no targets. -/
def epsTargets (A : Automaton) (q : St) : List St :=
  match tlookup A q eps with
  | some (.nfa ts) => ts
  | _ => []

/-- One pass of the inner `for (const nextState of …)` body of
`_epsilonClosure`: push every target not yet in the closure onto both the
closure and the stack. -/
def closPush (cs : List St × List St) (ts : List St) : List St × List St :=
  ts.foldl (fun cs t => if t ∈ cs.1 then cs else (cs.1 ++ [t], cs.2 ++ [t])) cs

/-- Total length of the ε-target lists stored in the table: an upper bound on
the number of pushes `_epsilonClosure` can ever perform (each pushed state is
new to the closure and is some stored ε-target). -/
def epsBound (A : Automaton) : Nat :=
  A.transitions.foldl (fun acc p =>
    acc + p.2.foldl (fun acc2 e =>
      match e.2 with
      | .nfa ts => acc2 + ts.length
      | .dfa _ => acc2 + 1) 0) 0

/-- The `while (stack.length > 0)` loop of `_epsilonClosure`, with an explicit
fuel that the wrapper instantiates above the loop's iteration count
(`stack.pop()` takes the last element). -/
def closLoop (A : Automaton) : Nat → List St → List St → List St
  | 0, closure, _ => closure
  | fuel+1, closure, stack =>
    match stack.getLast? with
    | none => closure
    | some q =>
      let cs := closPush (closure, stack.dropLast) (epsTargets A q)
      closLoop A fuel cs.1 cs.2

/-- `_epsilonClosure(stateSet)`: worklist reachability over ε-transitions,
seeds kept verbatim (duplicates in the seed list are NOT removed), result
sorted by `Array.prototype.sort()`.  The fuel covers every possible pop:
one per seed plus at most one per stored ε-target. -/
def epsilonClosure (A : Automaton) (seeds : List St) : List St :=
  sortJS (closLoop A (seeds.length + epsBound A + 1) seeds seeds)

/-- The symbol-targets gathered by `_getNextStates` / the simulation loops:
`nextStates.concat([...this.transitions[state][symbol]])` over the source set,
guarded by truthiness.  A `Tgt.dfa` value is kind-inconsistent here and
contributes nothing. -/
def moveTargets (A : Automaton) (set : List St) (a : Sym) : List St :=
  set.foldl (fun acc q =>
    match tlookup A q a with
    | some (.nfa ts) => acc ++ ts
    | _ => acc) []

/-- `_getNextStates(stateSet, symbol)`: move then ε-closure. -/
def getNextStates (A : Automaton) (set : List St) (a : Sym) : List St :=
  epsilonClosure A (moveTargets A set a)

/-- `Array.prototype.join(',')`. -/
def joinComma : List St → St
  | [] => ""
  | [x] => x
  | x :: xs => x ++ "," ++ joinComma xs

/-- `_getSetName(stateSet)`: `Ø` for the empty set, otherwise the brace-wrapped
comma-join. -/
def getSetName (set : List St) : St :=
  if set = [] then "Ø" else "\x7b" ++ joinComma set ++ "\x7d"

/-! ## Simulation -/

/-- Simulation errors.  The source reports them as message strings; one
constructor per message template:
`unknownSymbol a`    ~ "Symbol a is not in the alphabet",
`missingTransition q a` ~ "No transition from state q on symbol a",
`noReachableStates a`   ~ "No transitions from current states on symbol a". -/
inductive SimErr
  | unknownSymbol (a : Sym)
  | missingTransition (q : St) (a : Sym)
  | noReachableStates (a : Sym)
deriving DecidableEq, Repr

/-- One entry of the `path` array: `{state, input}` for a DFA run,
`{states, input}` for an NFA run. -/
inductive PathEntry
  | d (state : St) (input : List Sym)
  | n (states : List St) (input : List Sym)
deriving DecidableEq, Repr

/-- The result object of `simulate`. -/
structure SimOut where
  accepted : Bool
  path : List PathEntry
  error : Option SimErr := none
deriving DecidableEq, Repr

/-- The loop of `_simulateDFA`: alphabet check, truthy transition lookup,
follow, push `{state, input after this symbol}`.  A truthy `Tgt.nfa` value is
kind-inconsistent (never produced for a DFA-typed table by the API) and is
treated as a missing transition. -/
def simDFAGo (A : Automaton) (cur : St) (rest : List Sym)
    (path : List PathEntry) : SimOut :=
  match rest with
  | [] => { accepted := cur ∈ A.finalStates, path := path }
  | a :: rest' =>
    if a ∉ A.alphabet then
      { accepted := false, path := path, error := some (.unknownSymbol a) }
    else
      match tlookup A cur a with
      | some (.dfa t) => simDFAGo A t rest' (path ++ [.d t rest'])
      | _ =>
        { accepted := false, path := path,
          error := some (.missingTransition cur a) }

/-- `_simulateDFA(input)`.  `if (!this.initialState)` is a truthiness test, so
an empty-string initial state is treated as unset. -/
def simulateDFA (A : Automaton) (input : List Sym) : SimOut :=
  match A.initialState with
  | none => { accepted := false, path := [] }
  | some q0 =>
    if q0 = "" then { accepted := false, path := [] }
    else simDFAGo A q0 input [.d q0 input]

/-- The loop of `_simulateNFA`: alphabet check, move + ε-closure, empty-set
check, push `{states, input after this symbol}`. -/
def simNFAGo (A : Automaton) (cur : List St) (rest : List Sym)
    (path : List PathEntry) : SimOut :=
  match rest with
  | [] => { accepted := cur.any (· ∈ A.finalStates), path := path }
  | a :: rest' =>
    if a ∉ A.alphabet then
      { accepted := false, path := path, error := some (.unknownSymbol a) }
    else
      let next := epsilonClosure A (moveTargets A cur a)
      if next = [] then
        { accepted := false, path := path,
          error := some (.noReachableStates a) }
      else simNFAGo A next rest' (path ++ [.n next rest'])

/-- `_simulateNFA(input)` (truthiness test on the initial state as in
`_simulateDFA`). -/
def simulateNFA (A : Automaton) (input : List Sym) : SimOut :=
  match A.initialState with
  | none => { accepted := false, path := [] }
  | some q0 =>
    if q0 = "" then { accepted := false, path := [] }
    else
      let c0 := epsilonClosure A [q0]
      simNFAGo A c0 input [.n c0 input]

/-- `simulate(input)`: dispatch on the kind. -/
def simulate (A : Automaton) (input : List Sym) : SimOut :=
  match A.type with
  | .DFA => simulateDFA A input
  | .NFA => simulateNFA A input

/-- The result object of `simulateStep` (`null` fields are `none`). -/
structure StepState where
  state : Option St
  states : Option (List St)
  remainingInput : List Sym
  accepted : Bool
  complete : Bool
  error : Option SimErr := none
deriving DecidableEq, Repr

/-- The replay loop of `simulateStep` for a DFA: follow truthy transitions
through the processed prefix; stop at the first missing one.  Returns the end
state or the state/symbol at the failure. -/
def stepDFAGo (A : Automaton) (cur : St) : List Sym → St ⊕ (St × Sym)
  | [] => Sum.inl cur
  | a :: rest =>
    match tlookup A cur a with
    | some (.dfa t) => stepDFAGo A t rest
    | _ => Sum.inr (cur, a)

/-- The replay loop of `simulateStep` for an NFA: move + ε-closure per symbol;
stop when the set empties.  Returns the end set or the failing symbol. -/
def stepNFAGo (A : Automaton) (cur : List St) : List Sym → (List St) ⊕ Sym
  | [] => Sum.inl cur
  | a :: rest =>
    let next := epsilonClosure A (moveTargets A cur a)
    if next = [] then Sum.inr a else stepNFAGo A next rest

/-- `simulateStep(input, step)`: a pure recomputation replaying the first
`step` symbols from the initial state / initial ε-closure.  Note: unlike
`simulate`, no alphabet membership test and no truthiness test on the initial
state is performed.  A `null` initial state would make the source fault on
the first lookup (DFA) or seed the closure with `null` (NFA); the claims all
assume an initial state, so that branch is modelled schematically with an
empty seed. -/
def simulateStep (A : Automaton) (input : List Sym) (step : Nat) : StepState :=
  if step = 0 then
    match A.type with
    | .DFA =>
      { state := A.initialState, states := none, remainingInput := input,
        accepted := match A.initialState with
          | some q => q ∈ A.finalStates
          | none => false,
        complete := input.length = 0 }
    | .NFA =>
      let initialStates := epsilonClosure A
        (match A.initialState with | some q => [q] | none => [])
      { state := none, states := some initialStates, remainingInput := input,
        accepted := initialStates.any (· ∈ A.finalStates),
        complete := input.length = 0 }
  else
    let processed := input.take step
    let remaining := input.drop step
    match A.type with
    | .DFA =>
      match A.initialState with
      | none =>
        { state := none, states := none, remainingInput := remaining,
          accepted := false, complete := remaining = [] }
      | some q0 =>
        match stepDFAGo A q0 processed with
        | Sum.inl cur =>
          { state := some cur, states := none, remainingInput := remaining,
            accepted := cur ∈ A.finalStates, complete := remaining = [] }
        | Sum.inr (cur, a) =>
          { state := some cur, states := none, remainingInput := remaining,
            accepted := false, complete := true,
            error := some (.missingTransition cur a) }
    | .NFA =>
      let c0 := epsilonClosure A
        (match A.initialState with | some q => [q] | none => [])
      match stepNFAGo A c0 processed with
      | Sum.inl cur =>
        { state := none, states := some cur, remainingInput := remaining,
          accepted := cur.any (· ∈ A.finalStates), complete := remaining = [] }
      | Sum.inr a =>
        { state := none, states := some [], remainingInput := remaining,
          accepted := false, complete := true,
          error := some (.noReachableStates a) }

/-! ## Validation, clone, normalize, serialization -/

/-- The result object of `validate`. -/
structure ValOut where
  valid : Bool
  errors : List String
deriving DecidableEq, Repr

/-- `validate()`: missing (falsy) initial state; zero final states; for a DFA,
every `(state, symbol)` pair lacking a truthy transition, in state-major
order. -/
def validate (A : Automaton) : ValOut :=
  let e1 : List String :=
    match A.initialState with
    | some q => if q = "" then ["Initial state is not set"] else []
    | none => ["Initial state is not set"]
  let e2 : List String :=
    if A.finalStates.length = 0 then ["No final states defined"] else []
  let e3 : List String :=
    match A.type with
    | .DFA =>
      A.states.foldl (fun acc q =>
        acc ++ A.alphabet.foldl (fun acc2 a =>
          match tlookup A q a with
          | some _ => acc2
          | none =>
            acc2 ++ ["State " ++ q ++ " has no transition for symbol " ++ a])
          []) []
    | .NFA => []
  let errors := e1 ++ e2 ++ e3
  { valid := errors.length = 0, errors := errors }

/-- `clone()`: rebuild a fresh automaton through the mutation API (the
initial state is copied directly, without a membership check).  Kind-mixed
stored values are no-ops in the source (a `Set` target fails the membership
check; string iteration yields unknown chars) and are skipped. -/
def clone (A : Automaton) : Automaton :=
  let c := Automaton.new A.type
  let c := A.states.foldl addState c
  let c := setAlphabet c A.alphabet
  let c := { c with initialState := A.initialState }
  let c := A.finalStates.foldl (fun acc s => toggleFinalState acc s true) c
  A.transitions.foldl (fun acc p =>
    p.2.foldl (fun acc2 e =>
      match A.type, e.2 with
      | .DFA, .dfa t => addTransition acc2 p.1 e.1 t
      | .NFA, .nfa ts => ts.foldl (fun acc3 t => addTransition acc3 p.1 e.1 t) acc2
      | _, _ => acc2) acc) c

/-- The three renaming passes of `normalize()`: initial state first, then
final states, then all remaining states, numbered `q0, q1, …`.  A `null`
initial state becomes the object key `"null"` in the source; the claims never
exercise that case. -/
def normalizeMap (A : Automaton) : List (St × St) :=
  let seed : St := match A.initialState with | some q => q | none => "null"
  let m0 : List (St × St) × Nat := ([(seed, "q0")], 1)
  let m1 := A.finalStates.foldl (fun (st : List (St × St) × Nat) q =>
    if A.initialState ≠ some q ∧ (objGet st.1 q).isNone then
      (st.1 ++ [(q, "q" ++ toString st.2)], st.2 + 1)
    else st) m0
  let m2 := A.states.foldl (fun (st : List (St × St) × Nat) q =>
    if (objGet st.1 q).isNone then
      (st.1 ++ [(q, "q" ++ toString st.2)], st.2 + 1)
    else st) m1
  m2.1

/-- `normalize()`: rename states canonically and rebuild through the API. -/
def normalize (A : Automaton) : Automaton :=
  let m := normalizeMap A
  let n := Automaton.new A.type
  let n := m.foldl (fun acc p =>
    let acc := addState acc p.2
    let acc := if A.initialState = some p.1 then setInitialState acc p.2 else acc
    if p.1 ∈ A.finalStates then toggleFinalState acc p.2 true else acc) n
  let n := A.transitions.foldl (fun acc p =>
    p.2.foldl (fun acc2 e =>
      match A.type, e.2 with
      | .DFA, .dfa t =>
        match objGet m p.1, objGet m t with
        | some f', some t' => addTransition acc2 f' e.1 t'
        | _, _ => acc2
      | .NFA, .nfa ts => ts.foldl (fun acc3 t =>
          match objGet m p.1, objGet m t with
          | some f', some t' => addTransition acc3 f' e.1 t'
          | _, _ => acc3) acc2
      | _, _ => acc2) acc) n
  setAlphabet n A.alphabet

/-- The JSON object produced by `toJSON`: same fields, sets written as arrays
in insertion order, the transition map keyed by source state then symbol (an
NFA target set becomes an array). -/
structure AutJson where
  type : Kind
  states : List St
  alphabet : List Sym
  initialState : Option St
  finalStates : List St
  transitions : List (St × List (Sym × Tgt))
deriving DecidableEq, Repr

/-- `toJSON()`: a structural copy (an NFA `Set` of targets is written as an
array; `Tgt` plays both roles here, so the per-entry copy is the identity). -/
def toJSON (A : Automaton) : AutJson :=
  { type := A.type, states := A.states, alphabet := A.alphabet,
    initialState := A.initialState, finalStates := A.finalStates,
    transitions := A.transitions.map (fun p => (p.1, p.2.map (fun e => e))) }

/-- One transition entry of the `fromJSON` replay: a DFA target is one
`addTransition`, an NFA target set is one `addTransition` per member,
kind-mixed entries are no-ops (as in `clone`). -/
def fromJSONEntry (ty : Kind) (k : St) (acc2 : Automaton) (e : Sym × Tgt) :
    Automaton :=
  match ty, e.2 with
  | .DFA, .dfa t => addTransition acc2 k e.1 t
  | .NFA, .nfa ts => ts.foldl (fun acc3 t => addTransition acc3 k e.1 t) acc2
  | _, _ => acc2

/-- `fromJSON(json)`: rebuild through the mutation API; the initial state is
assigned directly (no membership check). -/
def fromJSON (j : AutJson) : Automaton :=
  let a := Automaton.new j.type
  let a := j.states.foldl addState a
  let a := setAlphabet a j.alphabet
  let a := { a with initialState := j.initialState }
  let a := j.finalStates.foldl (fun acc s => toggleFinalState acc s true) a
  j.transitions.foldl (fun acc p =>
    p.2.foldl (fromJSONEntry j.type p.1) acc) a

/-! ## Subset construction (`convertToDFA`) -/

/-- `nextStateSet` intersects the NFA's final states (the source loop with
`break`). -/
def containsFinal (A : Automaton) (set : List St) : Bool :=
  set.any (· ∈ A.finalStates)

/-- The body of the subset-construction worklist for one alphabet symbol
(ε skipped): compute the next set, register / enqueue it when its canonical
name is new, and add the DFA transition when the set is nonempty. -/
def convertSymbolStep (A : Automaton) (cur : List St)
    (processed : List (List St)) (st : Automaton × List (List St)) (a : Sym) :
    Automaton × List (List St) :=
  if a = eps then st
  else
    let nextSet := getNextStates A cur a
    let nextName := getSetName nextSet
    if nextSet ≠ [] then
      let curName := getSetName cur
      let st2 :=
        if nextName ∉ st.1.states then
          let d := addState st.1 nextName
          let d := if containsFinal A nextSet then
                     toggleFinalState d nextName true else d
          let alreadyProcessed := processed.any (fun s => getSetName s = nextName)
          let alreadyQueued := st.2.any (fun s => getSetName s = nextName)
          (d, if ¬ alreadyProcessed ∧ ¬ alreadyQueued then st.2 ++ [nextSet]
              else st.2)
        else st
      (addTransition st2.1 curName a nextName, st2.2)
    else st

/-- The `while (unprocessed.length > 0)` worklist of `convertToDFA`, with an
explicit fuel.  The source loop does NOT always terminate (see the theorem on
`convertDiverges` below), so the fuel is essential: `none` means the fuel ran
out, i.e. the source would still be looping. -/
def convertLoop (A : Automaton) : Nat → Automaton → List (List St) →
    List (List St) → Option Automaton
  | 0, _, _, _ => none
  | fuel+1, dfa, unprocessed, processed =>
    match unprocessed with
    | [] => some dfa
    | cur :: rest =>
      let processed' := processed ++ [cur]
      let st := A.alphabet.foldl (convertSymbolStep A cur processed') (dfa, rest)
      convertLoop A fuel st.1 st.2 processed'

/-- `convertToDFA()`: identity (a clone) on a DFA; otherwise the subset
construction seeded with the ε-closure of the initial state.  The table of
per-state ε-closures the source computes first is dead code and is omitted.
A `null` initial state (excluded by every claim, and by §7 of the spec) is
modelled as an empty seed. -/
def convertToDFA (A : Automaton) (fuel : Nat) : Option Automaton :=
  match A.type with
  | .DFA => some (clone A)
  | .NFA =>
    let initialClosure := epsilonClosure A
      (match A.initialState with | some q => [q] | none => [])
    let n0 := getSetName initialClosure
    let dfa := Automaton.new .DFA
    let dfa := addState dfa n0
    let dfa := setInitialState dfa n0
    let dfa := if containsFinal A initialClosure then
                 toggleFinalState dfa n0 true else dfa
    (convertLoop A fuel dfa [initialClosure] []).map
      (fun d => setAlphabet d (A.alphabet.filter (· ≠ eps)))

/-! ## Minimization (`minimize`) -/

/-- All raw target values stored in the table, in table order (used only as a
finite universe bounding the worklist fuels). -/
def allTargets (A : Automaton) : List St :=
  A.transitions.foldl (fun acc p =>
    acc ++ p.2.foldl (fun acc2 e =>
      match e.2 with
      | .dfa q => acc2 ++ [q]
      | .nfa ts => acc2 ++ ts) []) []

/-- The raw DFA targets of one state's row, in row order, as enumerated by
`for (const symbol in this.transitions[state])` in `_getReachableStates`
(no truthiness filter; a `Tgt.nfa` value is kind-inconsistent there and is
skipped). -/
def rowTargets (A : Automaton) (q : St) : List St :=
  match objGet A.transitions q with
  | none => []
  | some row => row.foldl (fun acc e =>
      match e.2 with
      | .dfa x => acc ++ [x]
      | .nfa _ => acc) []

/-- The breadth-first `while (queue.length > 0)` loop of
`_getReachableStates`, with fuel (`queue.shift()` is FIFO). -/
def reachLoop (A : Automaton) : Nat → List St → List St → List St
  | 0, reach, _ => reach
  | fuel+1, reach, queue =>
    match queue with
    | [] => reach
    | q :: queue' =>
      let rs := (rowTargets A q).foldl
        (fun (rs : List St × List St) t =>
          if t ∈ rs.1 then rs else (rs.1 ++ [t], rs.2 ++ [t]))
        (reach, queue')
      reachLoop A fuel rs.1 rs.2

/-- `_getReachableStates()`: forward traversal from the initial state.  The
fuel covers every possible shift: the seed plus at most one push per stored
target. -/
def getReachableStates (A : Automaton) : List St :=
  let seed : List St := match A.initialState with | some q => [q] | none => []
  reachLoop A (seed.length + (allTargets A).length + 1) seed seed

/-- The partition index of the truthy transition target of `q` on `a`, or
`-1` when there is no truthy transition or the target lies in no partition
(`_splitPartition`'s inner search; a `Tgt.nfa` value is never a member of a
partition `Set`, hence also `-1`). -/
def targetIdx (A : Automaton) (parts : List (List St)) (q : St) (a : Sym) : Int :=
  match tlookup A q a with
  | some (.dfa t) =>
    match parts.findIdx? (fun p => t ∈ p) with
    | some i => (i : Int)
    | none => -1
  | _ => -1

/-- Insertion-ordered `Map.prototype.set`-style accumulation of the groups. -/
def groupAdd (gs : List (Int × List St)) (i : Int) (q : St) :
    List (Int × List St) :=
  match gs.find? (fun p => p.1 == i) with
  | some _ => gs.map (fun p => if p.1 == i then (p.1, p.2 ++ [q]) else p)
  | none => gs ++ [(i, [q])]

/-- Group a block's members by the partition index their `a`-transition lands
in. -/
def splitOnSymbol (A : Automaton) (parts : List (List St)) (part : List St)
    (a : Sym) : List (Int × List St) :=
  part.foldl (fun gs q => groupAdd gs (targetIdx A parts q a) q) []

/-- `_splitPartition(partition, partitions)`: the first alphabet symbol whose
grouping has more than one group splits the block; otherwise the block is
returned unchanged. -/
def splitPartition (A : Automaton) (part : List St) (parts : List (List St)) :
    List (List St) :=
  if part.length ≤ 1 then [part]
  else
    match A.alphabet.findSome? (fun a =>
      let gs := splitOnSymbol A parts part a
      if gs.length > 1 then some (gs.map (·.2)) else none) with
    | some groups => groups
    | none => [part]

/-- One `while (changed)` round of step 3 of `minimize`: split every block
against the current partition list. -/
def refineRound (A : Automaton) (parts : List (List St)) :
    List (List St) × Bool :=
  parts.foldl (fun (st : List (List St) × Bool) p =>
    let splits := splitPartition A p parts
    if splits.length > 1 then (st.1 ++ splits, true) else (st.1 ++ [p], st.2))
    ([], false)

/-- The refinement fixpoint loop, with fuel.  Each changed round strictly
increases the number of (nonempty, disjoint) blocks, so the wrapper's fuel is
always sufficient; this is proved where claim C2 needs it. -/
def refineLoop (A : Automaton) : Nat → List (List St) → List (List St)
  | 0, parts => parts
  | fuel+1, parts =>
    let st := refineRound A parts
    if st.2 then refineLoop A fuel st.1 else st.1

/-- Steps 1–3 of `minimize`: reachable states, initial final/non-final
partition (empty blocks omitted; note the final block keeps ALL final states,
reachable or not), refinement to fixpoint. -/
def minimizePartitions (A : Automaton) : List (List St) :=
  let reach := getReachableStates A
  let finalsSet := A.finalStates.foldl setAdd []
  let nonFinal := reach.filter (fun q => q ∉ A.finalStates)
  let parts0 := (if finalsSet ≠ [] then [finalsSet] else []) ++
                (if nonFinal ≠ [] then [nonFinal] else [])
  refineLoop A (A.finalStates.length + reach.length + 1) parts0

/-- Step 4 of `minimize`: one new state `q‹i›` per block; initial if the block
holds the original initial state, final if it holds any original final state;
transitions from each block's first member as representative (a target whose
state was dropped has no `stateMap` entry, and the `addTransition` call is a
no-op in the source, as modelled). -/
def minimizeDFA (A : Automaton) : Automaton :=
  let parts := minimizePartitions A
  let st1 := parts.enum.foldl
    (fun (st : Automaton × List (St × St)) ip =>
      let pname := "q" ++ toString ip.1
      let m := addState st.1 pname
      let smap := ip.2.foldl (fun mp q => objSet mp q pname) st.2
      let hasInit : Bool := match A.initialState with
        | some q0 => q0 ∈ ip.2
        | none => false
      let m := if hasInit then setInitialState m pname else m
      let m := if containsFinal A ip.2 then toggleFinalState m pname true else m
      (m, smap)) (Automaton.new .DFA, [])
  let m2 := parts.foldl (fun m part =>
    match part.head? with
    | none => m
    | some rep =>
      match objGet st1.2 rep with
      | none => m
      | some pname =>
        match objGet A.transitions rep with
        | none => m
        | some row =>
          A.alphabet.foldl (fun mm a =>
            match objGet row a with
            | some (.dfa t) =>
              if t ≠ "" then
                match objGet st1.2 t with
                | some tname => addTransition mm pname a tname
                | none => mm
              else mm
            | _ => mm) m) st1.1
  setAlphabet m2 A.alphabet

/-- `minimize()`: partition refinement on a DFA; an NFA is first converted
(the conversion may not terminate, hence the fuel). -/
def minimize (A : Automaton) (fuel : Nat) : Option Automaton :=
  match A.type with
  | .DFA => some (minimizeDFA A)
  | .NFA => (convertToDFA A fuel).map minimizeDFA

/-! ## `AutomatonSimulator.isDeterministic` -/

/-- `isDeterministic()` from `simulator.js`: empty state set or empty alphabet
⇒ deterministic; any truthy ε-entry ⇒ non-deterministic; otherwise, only for
an NFA-typed automaton with at least two states, an alphabet symbol with a
target set of size > 1 ⇒ non-deterministic.  (`.size` of a string target is
`undefined` in the source, so a kind-mixed entry never triggers the check.) -/
def isDeterministic (A : Automaton) : Bool :=
  if A.states.length = 0 ∨ A.alphabet.length = 0 then true
  else if A.transitions.any (fun p =>
      match objGet p.2 eps with
      | some t => t.truthy
      | none => false) then false
  else if A.states.any (fun q =>
      let row := (objGet A.transitions q).getD []
      A.alphabet.any (fun a =>
        if A.states.length ≤ 1 then false
        else match A.type with
          | .NFA =>
            (match objGet row a with
             | some (.nfa ts) => ts.length > 1
             | _ => false)
          | .DFA => false)) then false
  else true

/-! ## Query operations with an explicit receiver thread

The source methods below read `this` but never assign to any of its fields
(every write in their bodies targets a locally constructed automaton or a
local array).  To state the frame claims, each is paired with a variant that
threads the receiver explicitly and returns it alongside the result; the
returned receiver is the input, unchanged, precisely because the transcribed
bodies contain no receiver write. -/

/-- `simulate` with the receiver threaded. -/
def simulateM (A : Automaton) (input : List Sym) : SimOut × Automaton :=
  (simulate A input, A)

/-- `simulateStep` with the receiver threaded. -/
def simulateStepM (A : Automaton) (input : List Sym) (k : Nat) :
    StepState × Automaton :=
  (simulateStep A input k, A)

/-- `validate` with the receiver threaded. -/
def validateM (A : Automaton) : ValOut × Automaton :=
  (validate A, A)

/-- `clone` with the receiver threaded. -/
def cloneM (A : Automaton) : Automaton × Automaton :=
  (clone A, A)

/-- `convertToDFA` with the receiver threaded. -/
def convertToDFAM (A : Automaton) (fuel : Nat) : Option Automaton × Automaton :=
  (convertToDFA A fuel, A)

/-- `minimize` with the receiver threaded. -/
def minimizeM (A : Automaton) (fuel : Nat) : Option Automaton × Automaton :=
  (minimize A fuel, A)

/-- `normalize` with the receiver threaded. -/
def normalizeM (A : Automaton) : Automaton × Automaton :=
  (normalize A, A)

/-- `isDeterministic` with the receiver threaded (for claim C9's
"never mutates" part). -/
def isDeterministicM (A : Automaton) : Bool × Automaton :=
  (isDeterministic A, A)

/-! ## Toolkit: basic lemmas about the JS primitives and the mutation API -/

theorem setAdd_of_mem {l : List String} {x : String} (h : x ∈ l) :
    setAdd l x = l := by simp [setAdd, h]

theorem setAdd_of_not_mem {l : List String} {x : String} (h : x ∉ l) :
    setAdd l x = l ++ [x] := by simp [setAdd, h]

theorem mem_setAdd {y x : String} {l : List String} :
    y ∈ setAdd l x ↔ y ∈ l ∨ y = x := by
  unfold setAdd
  split
  · next h => exact ⟨Or.inl, fun h' => h'.elim id (fun e => e ▸ h)⟩
  · simp

theorem setAdd_nodup {l : List String} {x : String} (h : l.Nodup) :
    (setAdd l x).Nodup := by
  unfold setAdd
  split
  · exact h
  · next hx => simp [List.nodup_append, h, hx]

theorem mem_of_mem_setDel {y x : String} {l : List String}
    (h : y ∈ setDel l x) : y ∈ l :=
  List.mem_of_mem_erase h

theorem setDel_nodup {l : List String} {x : String} (h : l.Nodup) :
    (setDel l x).Nodup := h.erase x

theorem not_mem_setDel_self {l : List String} {x : String} (h : l.Nodup) :
    x ∉ setDel l x := h.not_mem_erase

theorem objGet_nil {β : Type} (k : String) :
    objGet ([] : List (String × β)) k = none := rfl

theorem objGet_cons {β : Type} (p : String × β) (r : List (String × β))
    (k : String) :
    objGet (p :: r) k = if p.1 = k then some p.2 else objGet r k := by
  unfold objGet
  by_cases h : p.1 = k <;> simp [List.find?_cons, h]

/-! Field-effect lemmas: which fields each API operation can touch. -/

@[simp] theorem addState_type (A : Automaton) (s : St) :
    (addState A s).type = A.type := rfl

@[simp] theorem addState_alphabet (A : Automaton) (s : St) :
    (addState A s).alphabet = A.alphabet := rfl

@[simp] theorem addState_transitions (A : Automaton) (s : St) :
    (addState A s).transitions = A.transitions := rfl

@[simp] theorem addState_initialState (A : Automaton) (s : St) :
    (addState A s).initialState = A.initialState := rfl

@[simp] theorem addState_finalStates (A : Automaton) (s : St) :
    (addState A s).finalStates = A.finalStates := rfl

@[simp] theorem setInitialState_type (A : Automaton) (s : St) :
    (setInitialState A s).type = A.type := by
  unfold setInitialState; split <;> rfl

@[simp] theorem setInitialState_states (A : Automaton) (s : St) :
    (setInitialState A s).states = A.states := by
  unfold setInitialState; split <;> rfl

@[simp] theorem setInitialState_alphabet (A : Automaton) (s : St) :
    (setInitialState A s).alphabet = A.alphabet := by
  unfold setInitialState; split <;> rfl

@[simp] theorem setInitialState_transitions (A : Automaton) (s : St) :
    (setInitialState A s).transitions = A.transitions := by
  unfold setInitialState; split <;> rfl

@[simp] theorem setInitialState_finalStates (A : Automaton) (s : St) :
    (setInitialState A s).finalStates = A.finalStates := by
  unfold setInitialState; split <;> rfl

@[simp] theorem toggleFinalState_type (A : Automaton) (s : St) (b : Bool) :
    (toggleFinalState A s b).type = A.type := by
  unfold toggleFinalState; split <;> rfl

@[simp] theorem toggleFinalState_states (A : Automaton) (s : St) (b : Bool) :
    (toggleFinalState A s b).states = A.states := by
  unfold toggleFinalState; split <;> rfl

@[simp] theorem toggleFinalState_alphabet (A : Automaton) (s : St) (b : Bool) :
    (toggleFinalState A s b).alphabet = A.alphabet := by
  unfold toggleFinalState; split <;> rfl

@[simp] theorem toggleFinalState_transitions (A : Automaton) (s : St) (b : Bool) :
    (toggleFinalState A s b).transitions = A.transitions := by
  unfold toggleFinalState; split <;> rfl

@[simp] theorem toggleFinalState_initialState (A : Automaton) (s : St) (b : Bool) :
    (toggleFinalState A s b).initialState = A.initialState := by
  unfold toggleFinalState; split <;> rfl

@[simp] theorem addTransition_type (A : Automaton) (f s t : St) :
    (addTransition A f s t).type = A.type := by
  unfold addTransition; split <;> rfl

@[simp] theorem addTransition_states (A : Automaton) (f s t : St) :
    (addTransition A f s t).states = A.states := by
  unfold addTransition; split <;> rfl

@[simp] theorem addTransition_initialState (A : Automaton) (f s t : St) :
    (addTransition A f s t).initialState = A.initialState := by
  unfold addTransition; split <;> rfl

@[simp] theorem addTransition_finalStates (A : Automaton) (f s t : St) :
    (addTransition A f s t).finalStates = A.finalStates := by
  unfold addTransition; split <;> rfl

@[simp] theorem setAlphabet_type (A : Automaton) (xs : List Sym) :
    (setAlphabet A xs).type = A.type := rfl

@[simp] theorem setAlphabet_states (A : Automaton) (xs : List Sym) :
    (setAlphabet A xs).states = A.states := rfl

@[simp] theorem setAlphabet_transitions (A : Automaton) (xs : List Sym) :
    (setAlphabet A xs).transitions = A.transitions := rfl

@[simp] theorem setAlphabet_initialState (A : Automaton) (xs : List Sym) :
    (setAlphabet A xs).initialState = A.initialState := rfl

@[simp] theorem setAlphabet_finalStates (A : Automaton) (xs : List Sym) :
    (setAlphabet A xs).finalStates = A.finalStates := rfl

/-! ## Claim C10: queries and transformations do not mutate the receiver -/

/-- C10: for every automaton `A`, input string and step count, the query and
transformation operations `simulate`, `simulateStep`, `validate`, `clone`,
`convertToDFA`, `minimize` and `normalize` return their results alongside an
unchanged receiver: the source methods assign only to locally constructed
automata, never to `this`, which the receiver-threaded embedding makes
explicit. -/
theorem c10_queries_pure (A : Automaton) (input : List Sym) (k fuel : Nat) :
    (simulateM A input).2 = A ∧ (simulateStepM A input k).2 = A ∧
    (validateM A).2 = A ∧ (cloneM A).2 = A ∧
    (convertToDFAM A fuel).2 = A ∧ (minimizeM A fuel).2 = A ∧
    (normalizeM A).2 = A :=
  ⟨rfl, rfl, rfl, rfl, rfl, rfl, rfl⟩

/-! ## Claim C1: subset construction on a textbook NFA

The NFA below (built through the mutation API) is the two-state automaton
`q0 -x-> {q0,q1}`, `q1 -x-> {q1}`, initial `q0`, final `q1`.  Because
`_epsilonClosure` copies its seed array verbatim — it deduplicates only the
ε-successors it discovers, never the seeds — `_getNextStates` on the set
`[q0,q1]` produces the list `[q0,q1,q1]`, whose canonical name `{q0,q1,q1}`
differs from `{q0,q1}`.  The worklist therefore keeps minting new "states"
`{q0}`, `{q0,q1}`, `{q0,q1,q1}`, … and the `while (unprocessed.length > 0)`
loop never terminates. -/

/-- The NFA on which `convertToDFA` diverges. -/
def c1N : Automaton :=
  let a := Automaton.new .NFA
  let a := addState a "q0"
  let a := addState a "q1"
  let a := setInitialState a "q0"
  let a := toggleFinalState a "q1" true
  let a := addTransition a "q0" "x" "q0"
  let a := addTransition a "q0" "x" "q1"
  addTransition a "q1" "x" "q1"

theorem c1N_eq : c1N =
    { type := .NFA, states := ["q0", "q1"], alphabet := ["x"],
      transitions := [("q0", [("x", Tgt.nfa ["q0", "q1"])]),
                      ("q1", [("x", Tgt.nfa ["q1"])])],
      initialState := some "q0", finalStates := ["q1"] } := by decide

/-- The state list the worklist holds after `k` iterations:
`[q0, q1, q1, …]` with `k` copies of `q1`. -/
def c1L (k : Nat) : List St := "q0" :: List.replicate k "q1"

/-- Its canonical name `{q0,q1,…,q1}`. -/
def c1nm (k : Nat) : St := getSetName (c1L k)

/-- The DFA states registered after `k` iterations. -/
def c1names (k : Nat) : List St := (List.range (k + 1)).map c1nm

/-- The processed list after `k` iterations. -/
def c1procs (k : Nat) : List (List St) := (List.range k).map c1L

theorem c1_epsTargets (q : St) : epsTargets c1N q = [] := by
  by_cases h0 : q = "q0"
  · subst h0; rfl
  · by_cases h1 : q = "q1"
    · subst h1; rfl
    · unfold epsTargets tlookup lookup2
      rw [c1N_eq]
      simp only [objGet_cons]
      rw [if_neg (by simpa using Ne.symm h0), if_neg (by simpa using Ne.symm h1),
          objGet_nil]
      rfl

theorem closLoop_no_eps (A : Automaton) (h : ∀ q, epsTargets A q = []) :
    ∀ (fuel : Nat) (c s : List St), closLoop A fuel c s = c := by
  intro fuel
  induction fuel with
  | zero => intro c s; rfl
  | succ n ih =>
    intro c s
    unfold closLoop
    cases hs : s.getLast? with
    | none => rfl
    | some q =>
      dsimp only
      rw [h q]
      exact ih c s.dropLast

theorem epsilonClosure_no_eps (A : Automaton) (h : ∀ q, epsTargets A q = [])
    (seeds : List St) : epsilonClosure A seeds = sortJS seeds := by
  unfold epsilonClosure
  rw [closLoop_no_eps A h]

theorem c1_jsLe_q1q1 : jsLe "q1" "q1" = true := by decide

theorem insertLe_q1_replicate (m : Nat) :
    insertLe "q1" (List.replicate m "q1") = List.replicate (m + 1) "q1" := by
  cases m with
  | zero => rfl
  | succ n =>
    rw [List.replicate_succ]
    unfold insertLe
    rw [if_pos c1_jsLe_q1q1, ← List.replicate_succ, ← List.replicate_succ]

theorem sortJS_replicate_q1 (m : Nat) :
    sortJS (List.replicate m "q1") = List.replicate m "q1" := by
  induction m with
  | zero => rfl
  | succ n ih =>
    rw [List.replicate_succ]
    unfold sortJS
    rw [ih, insertLe_q1_replicate, List.replicate_succ]

theorem sortJS_c1L (k : Nat) : sortJS (c1L k) = c1L k := by
  unfold c1L
  unfold sortJS
  rw [sortJS_replicate_q1]
  cases k with
  | zero => rfl
  | succ n =>
    rw [List.replicate_succ]
    unfold insertLe
    rw [if_pos (by decide : jsLe "q0" "q1" = true)]

theorem c1_tlookup_q0 : tlookup c1N "q0" "x" = some (Tgt.nfa ["q0", "q1"]) := by
  decide

theorem c1_tlookup_q1 : tlookup c1N "q1" "x" = some (Tgt.nfa ["q1"]) := by
  decide

theorem c1_fold_q1 (m : Nat) (acc : List St) :
    (List.replicate m "q1").foldl (fun acc q =>
      match tlookup c1N q "x" with
      | some (.nfa ts) => acc ++ ts
      | _ => acc) acc = acc ++ List.replicate m "q1" := by
  induction m generalizing acc with
  | zero => simp
  | succ n ih =>
    rw [List.replicate_succ, List.foldl_cons, ih]
    show (match tlookup c1N "q1" "x" with
      | some (.nfa ts) => acc ++ ts
      | _ => acc) ++ List.replicate n "q1" = _
    rw [c1_tlookup_q1]
    rw [List.append_assoc]
    simp

theorem c1_moveTargets (k : Nat) :
    moveTargets c1N (c1L k) "x" = c1L (k + 1) := by
  unfold moveTargets c1L
  rw [List.foldl_cons]
  show (List.replicate k "q1").foldl _
    (match tlookup c1N "q0" "x" with
     | some (.nfa ts) => [] ++ ts
     | _ => []) = _
  rw [c1_tlookup_q0]
  rw [c1_fold_q1]
  rw [List.replicate_succ]
  rfl

theorem c1_next (k : Nat) : getNextStates c1N (c1L k) "x" = c1L (k + 1) := by
  unfold getNextStates
  rw [epsilonClosure_no_eps c1N c1_epsTargets, c1_moveTargets, sortJS_c1L]

theorem joinComma_rep_length (m : Nat) :
    (joinComma (List.replicate (m + 1) "q1")).length = 2 + 3 * m := by
  induction m with
  | zero => rfl
  | succ n ih =>
    rw [List.replicate_succ]
    have hne : List.replicate (n + 1) "q1" = "q1" :: List.replicate n "q1" :=
      List.replicate_succ ..
    rw [show joinComma ("q1" :: List.replicate (n + 1) "q1") =
        "q1" ++ "," ++ joinComma (List.replicate (n + 1) "q1") by
      rw [hne]; rfl]
    rw [String.length_append, String.length_append, ih]
    have h1 : ("q1" : String).length = 2 := rfl
    have h2 : ("," : String).length = 1 := rfl
    rw [h1, h2]
    omega

theorem c1nm_length (k : Nat) : (c1nm k).length = 4 + 3 * k := by
  unfold c1nm getSetName c1L
  rw [if_neg (by simp)]
  cases k with
  | zero => rfl
  | succ n =>
    have hne : List.replicate (n + 1) "q1" = "q1" :: List.replicate n "q1" :=
      List.replicate_succ ..
    rw [show joinComma ("q0" :: List.replicate (n + 1) "q1") =
        "q0" ++ "," ++ joinComma (List.replicate (n + 1) "q1") by
      rw [hne]; rfl]
    simp only [String.length_append, joinComma_rep_length]
    have h1 : ("\x7b" : String).length = 1 := rfl
    have h2 : ("\x7d" : String).length = 1 := rfl
    have h3 : ("q0" : String).length = 2 := rfl
    have h4 : ("," : String).length = 1 := rfl
    rw [h1, h2, h3, h4]
    omega

theorem c1nm_inj {i j : Nat} (h : c1nm i = c1nm j) : i = j := by
  have := congrArg String.length h
  rw [c1nm_length, c1nm_length] at this
  omega

theorem c1nm_not_mem (k : Nat) : c1nm (k + 1) ∉ c1names k := by
  unfold c1names
  intro h
  rcases List.mem_map.mp h with ⟨m, hm, he⟩
  have := c1nm_inj he
  rw [List.mem_range] at hm
  omega

theorem c1_containsFinal (k : Nat) : containsFinal c1N (c1L (k + 1)) = true := by
  unfold containsFinal c1L
  rw [List.replicate_succ]
  simp [c1N_eq]

theorem c1_procs_no_name (k : Nat) :
    ∀ x ∈ c1procs (k + 1), ¬ getSetName x = getSetName (c1L (k + 1)) := by
  intro s hs he
  rcases List.mem_map.mp hs with ⟨m, hm, rfl⟩
  have := c1nm_inj (show c1nm m = c1nm (k + 1) from he)
  rw [List.mem_range] at hm
  omega

theorem c1_step (k : Nat) (D : Automaton) (hD : D.states = c1names k) :
    c1N.alphabet.foldl (convertSymbolStep c1N (c1L k) (c1procs (k + 1))) (D, []) =
      (addTransition (toggleFinalState (addState D (c1nm (k + 1))) (c1nm (k + 1)) true)
         (c1nm k) "x" (c1nm (k + 1)), [c1L (k + 1)]) := by
  have ha : c1N.alphabet = ["x"] := by decide
  have hmem : c1nm (k + 1) ∉ D.states := hD ▸ c1nm_not_mem k
  have hne : c1L (k + 1) ≠ [] := by simp [c1L]
  rw [ha, List.foldl_cons, List.foldl_nil]
  simp only [convertSymbolStep, c1_next, c1_containsFinal,
    (show ¬ (("x" : Sym) = eps) from by decide), if_false, if_true, not_false_iff,
    ite_true, ite_false]
  have hq : ¬((c1procs (k + 1)).any fun s =>
        decide (getSetName s = getSetName (c1L (k + 1)))) = true ∧
      ¬(([] : List (List St)).any fun s =>
        decide (getSetName s = getSetName (c1L (k + 1)))) = true := by
    constructor
    · intro h
      rcases List.any_eq_true.mp h with ⟨s, hs, hd⟩
      exact c1_procs_no_name k s hs (of_decide_eq_true hd)
    · simp
  rw [if_pos hne, if_pos (show getSetName (c1L (k + 1)) ∉ D.states from hmem),
      if_pos hq]
  rfl

theorem c1_states_after (k : Nat) (D : Automaton) (hD : D.states = c1names k) :
    (addTransition (toggleFinalState (addState D (c1nm (k + 1))) (c1nm (k + 1)) true)
       (c1nm k) "x" (c1nm (k + 1))).states = c1names (k + 1) := by
  rw [addTransition_states, toggleFinalState_states]
  show setAdd D.states (c1nm (k + 1)) = _
  rw [setAdd_of_not_mem (hD ▸ c1nm_not_mem k), hD]
  unfold c1names
  rw [show List.range (k + 1 + 1) = List.range (k + 1) ++ [k + 1] from
    List.range_succ (k + 1), List.map_append]
  rfl

theorem c1_loop_diverges : ∀ (fuel k : Nat) (D : Automaton),
    D.states = c1names k →
    convertLoop c1N fuel D [c1L k] (c1procs k) = none := by
  intro fuel
  induction fuel with
  | zero => intros; rfl
  | succ n ih =>
    intro k D hD
    unfold convertLoop
    dsimp only
    have hp : c1procs k ++ [c1L k] = c1procs (k + 1) := by
      unfold c1procs
      rw [List.range_succ, List.map_append]
      rfl
    rw [hp, c1_step k D hD]
    exact ih (k + 1) _ (c1_states_after k D hD)

/-- C1 (code bug): on the NFA `c1N` — states `q0, q1`, alphabet `x`,
transitions `q0 -x-> {q0,q1}` and `q1 -x-> {q1}`, initial `q0` — the
`convertToDFA` worklist never empties, whatever fuel it is given: the claimed
equivalent DFA is never produced, because `_epsilonClosure` keeps the
duplicates of its seed array and every round mints the fresh canonical name
`{q0,q1,…,q1}` with one more `q1`. -/
theorem c1_convert_diverges (fuel : Nat) : convertToDFA c1N fuel = none := by
  have h := c1_loop_diverges fuel 0
    { type := .DFA, states := ["{q0}"], alphabet := [], transitions := [],
      initialState := some "{q0}", finalStates := [] } (by decide)
  show (convertLoop c1N fuel
    { type := .DFA, states := ["{q0}"], alphabet := [], transitions := [],
      initialState := some "{q0}", finalStates := [] } [c1L 0] (c1procs 0)).map _ = none
  rw [h]
  rfl

/-! ## Structural validity (the hypothesis named by claim C3) -/

/-- Claim C3's notion of structural validity, as an executable check: every
state referenced by `initialState`, `finalStates` or a transition is a member
of `states`, and every non-ε transition symbol is in the alphabet. -/
def structValidB (A : Automaton) : Bool :=
  (match A.initialState with
   | some q => q ∈ A.states
   | none => true) &&
  A.finalStates.all (· ∈ A.states) &&
  A.transitions.all (fun p => p.1 ∈ A.states &&
    p.2.all (fun e => (e.1 == eps || e.1 ∈ A.alphabet) &&
      (match e.2 with
       | Tgt.dfa t => t ∈ A.states
       | Tgt.nfa ts => ts.all (· ∈ A.states))))

/-- Claim C3's validity hypothesis. -/
abbrev StructValid (A : Automaton) : Prop := structValidB A = true

/-! ## Claim C3, counterexample -/

/-- A structurally valid NFA whose transition table holds an empty row: the
mutation API itself produces it (`removeState` deletes the last symbol entry
of `q0`'s row but keeps the row object). -/
def c3A : Automaton :=
  let a := Automaton.new .NFA
  let a := addState a "q0"
  let a := addState a "q1"
  let a := setInitialState a "q0"
  let a := addTransition a "q0" "x" "q1"
  removeState a "q1"

/-- C3 fails as stated: `c3A` meets the claim's validity hypothesis, yet the
round-trip drops the empty row `q0 ↦ {}` (`fromJSON` only replays
`addTransition` per stored target, and there is none). -/
theorem c3_cex_roundtrip :
    StructValid c3A ∧ c3A.transitions = [("q0", [])] ∧
    (fromJSON (toJSON c3A)).transitions = [] ∧
    fromJSON (toJSON c3A) ≠ c3A := by decide

/-! ## Claim C4, counterexample -/

/-- A DFA (API-built) with a transition on `a` but alphabet reset to `{b}`:
`simulate` and `simulateStep` disagree on the first symbol. -/
def c4A : Automaton :=
  let a := Automaton.new .DFA
  let a := addState a "q0"
  let a := addState a "q1"
  let a := setInitialState a "q0"
  let a := addTransition a "q0" "a" "q1"
  setAlphabet a ["b"]

/-- C4 fails as stated: on input `"a"` (one symbol, `k = 1 ≤ length`),
`simulate` halts with `UnknownSymbol` while `simulateStep` — which never
consults the alphabet — follows the stored transition and reports no error
and state `q1`. -/
theorem c4_cex_step :
    c4A.initialState = some "q0" ∧
    (simulate c4A ["a"]).error = some (SimErr.unknownSymbol "a") ∧
    (simulateStep c4A ["a"] 1).error = none ∧
    (simulateStep c4A ["a"] 1).state = some "q1" := by decide

/-! ## Claim C6, counterexample -/

/-- A DFA with an unreachable final state `q2` (self-loop on `a`). -/
def c6A : Automaton :=
  let a := Automaton.new .DFA
  let a := addState a "q0"
  let a := addState a "q2"
  let a := setInitialState a "q0"
  let a := toggleFinalState a "q0" true
  let a := toggleFinalState a "q2" true
  addTransition a "q2" "a" "q2"

/-- C6 fails as stated: the unreachable final state `q2` is NOT discarded —
it survives the initial partition (which keeps every final state), ends in a
block of its own, and contributes a second state to the minimized output. -/
theorem c6_cex_partitions :
    c6A.type = Kind.DFA ∧ c6A.initialState = some "q0" ∧
    ["q2"] ∈ minimizePartitions c6A ∧ "q2" ∉ getReachableStates c6A ∧
    (minimizeDFA c6A).states.length = 2 := by decide

/-! ## Claim C8, counterexample -/

/-- A DFA-kind automaton with two states (API-built). -/
def c8A : Automaton :=
  let a := Automaton.new .DFA
  let a := addState a "q0"
  addState a "q1"

/-- C8 fails as stated: `addTransition(q0, 'ε', q1)` on a DFA-kind automaton
DOES add an ε-transition (only the alphabet registration is skipped for ε). -/
theorem c8_cex_eps :
    (addTransition c8A "q0" eps "q1").transitions =
      [("q0", [(eps, Tgt.dfa "q1")])] ∧
    (addTransition c8A "q0" eps "q1").alphabet = [] := by decide

/-! ## Claim C9, counterexample -/

/-- An NFA-typed automaton with a two-target transition on `a`, whose alphabet
was afterwards reset to `{b}` through the model API. -/
def c9A : Automaton :=
  let a := Automaton.new .NFA
  let a := addState a "q0"
  let a := addState a "q1"
  let a := addTransition a "q0" "a" "q0"
  let a := addTransition a "q0" "a" "q1"
  setAlphabet a ["b"]

/-- C9 fails as stated: `c9A` has states and a nonempty alphabet, no
ε-transition, and the pair `(q0, a)` has TWO registered targets, yet
`isDeterministic` returns `true` — the multi-target check only inspects
symbols currently in the alphabet. -/
theorem c9_cex_multi :
    c9A.states ≠ [] ∧ c9A.alphabet ≠ [] ∧
    (∀ p ∈ c9A.transitions, objGet p.2 eps = none) ∧
    lookup2 c9A "q0" "a" = some (Tgt.nfa ["q0", "q1"]) ∧
    isDeterministic c9A = true := by decide

/-! ## Kind-consistency (a representation invariant of the source's tables) -/

/-- Kind-consistency of the stored targets, as maintained by the API: a
DFA-typed table stores single states, an NFA-typed table stores sets. -/
def kindOkB (A : Automaton) : Bool :=
  A.transitions.all (fun p => p.2.all (fun e =>
    match A.type, e.2 with
    | Kind.DFA, Tgt.dfa _ => true
    | Kind.NFA, Tgt.nfa _ => true
    | _, _ => false))

/-- Propositional form of `kindOkB`. -/
abbrev KindOk (A : Automaton) : Prop := kindOkB A = true

theorem objGet_mem {β : Type} {r : List (String × β)} {k : String} {v : β}
    (h : objGet r k = some v) : ∃ p ∈ r, p.1 = k ∧ p.2 = v := by
  unfold objGet at h
  cases hf : r.find? (fun p => p.1 == k) with
  | none => rw [hf] at h; cases h
  | some p =>
    rw [hf] at h
    refine ⟨p, List.mem_of_find?_eq_some hf, ?_, by injection h⟩
    have := List.find?_some hf
    exact beq_iff_eq.mp this

theorem lookup2_mem {A : Automaton} {q : St} {a : Sym} {t : Tgt}
    (h : lookup2 A q a = some t) :
    ∃ p ∈ A.transitions, p.1 = q ∧ ∃ e ∈ p.2, e.1 = a ∧ e.2 = t := by
  unfold lookup2 at h
  cases hr : objGet A.transitions q with
  | none => rw [hr] at h; cases h
  | some row =>
    rw [hr] at h
    rcases objGet_mem hr with ⟨p, hp, hpk, hpv⟩
    rcases objGet_mem h with ⟨e, he, hek, hev⟩
    exact ⟨p, hp, hpk, e, hpv ▸ he, hek, hev⟩

theorem tlookup_no_nfa_of_kindOk {A : Automaton} {q : St} {a : Sym}
    {ts : List St} (hk : KindOk A) (ht : A.type = Kind.DFA) :
    tlookup A q a ≠ some (Tgt.nfa ts) := by
  intro h
  unfold tlookup at h
  cases hl : lookup2 A q a with
  | none => rw [hl] at h; cases h
  | some t =>
    rw [hl] at h
    have htv : t = Tgt.nfa ts := by
      by_cases htr : t.truthy <;> simp [htr] at h
      exact h
    subst htv
    rcases lookup2_mem hl with ⟨p, hp, _, e, he, _, hev⟩
    have := (List.all_eq_true.mp hk) p hp
    have := (List.all_eq_true.mp this) e he
    rw [ht, hev] at this
    cases this

/-! ## Claim C5: first-failure analysis of `simulate`

The scaffolding functions below restate, in the claim's own terms, what the
simulation loops do on the way to a result: the position and kind of the
first failure (alphabet miss / missing transition / emptied state set), the
path entries accumulated before it, and the state (set) reached. -/

/-- First failure of a DFA run from `cur`: `UnknownSymbol` when the symbol is
outside the alphabet, else `MissingTransition` when the current state has no
truthy single-state transition; `none` when the whole input is consumed. -/
def dfaFail (A : Automaton) (cur : St) : List Sym → Option (Nat × SimErr)
  | [] => none
  | a :: rest =>
    if a ∉ A.alphabet then some (0, .unknownSymbol a)
    else match tlookup A cur a with
      | some (.dfa t) => (dfaFail A t rest).map (fun p => (p.1 + 1, p.2))
      | _ => some (0, .missingTransition cur a)

/-- The path entries a DFA run pushes after the initial one (truncated at the
first failure). -/
def dfaPath (A : Automaton) (cur : St) : List Sym → List PathEntry
  | [] => []
  | a :: rest =>
    if a ∉ A.alphabet then []
    else match tlookup A cur a with
      | some (.dfa t) => PathEntry.d t rest :: dfaPath A t rest
      | _ => []

/-- The state a DFA run holds when it stops (end of input or first failure). -/
def dfaEnd (A : Automaton) (cur : St) : List Sym → St
  | [] => cur
  | a :: rest =>
    if a ∉ A.alphabet then cur
    else match tlookup A cur a with
      | some (.dfa t) => dfaEnd A t rest
      | _ => cur

/-- First failure of an NFA run: `UnknownSymbol` outside the alphabet, else
`NoReachableStates` when move + ε-closure empties the active set. -/
def nfaFail (A : Automaton) (cur : List St) : List Sym → Option (Nat × SimErr)
  | [] => none
  | a :: rest =>
    if a ∉ A.alphabet then some (0, .unknownSymbol a)
    else
      let next := epsilonClosure A (moveTargets A cur a)
      if next = [] then some (0, .noReachableStates a)
      else (nfaFail A next rest).map (fun p => (p.1 + 1, p.2))

/-- The path entries an NFA run pushes after the initial one. -/
def nfaPath (A : Automaton) (cur : List St) : List Sym → List PathEntry
  | [] => []
  | a :: rest =>
    if a ∉ A.alphabet then []
    else
      let next := epsilonClosure A (moveTargets A cur a)
      if next = [] then []
      else PathEntry.n next rest :: nfaPath A next rest

/-- The active state set an NFA run holds when it stops. -/
def nfaEnd (A : Automaton) (cur : List St) : List Sym → List St
  | [] => cur
  | a :: rest =>
    if a ∉ A.alphabet then cur
    else
      let next := epsilonClosure A (moveTargets A cur a)
      if next = [] then cur
      else nfaEnd A next rest

theorem simDFAGo_cons (A : Automaton) (cur : St) (a : Sym) (rest : List Sym)
    (path : List PathEntry) :
    simDFAGo A cur (a :: rest) path =
      (if a ∉ A.alphabet then
        { accepted := false, path := path, error := some (.unknownSymbol a) }
       else match tlookup A cur a with
        | some (.dfa t) => simDFAGo A t rest (path ++ [.d t rest])
        | _ => { accepted := false, path := path,
                 error := some (.missingTransition cur a) }) := rfl

theorem dfaFail_cons (A : Automaton) (cur : St) (a : Sym) (rest : List Sym) :
    dfaFail A cur (a :: rest) =
      (if a ∉ A.alphabet then some (0, .unknownSymbol a)
       else match tlookup A cur a with
        | some (.dfa t) => (dfaFail A t rest).map (fun p => (p.1 + 1, p.2))
        | _ => some (0, .missingTransition cur a)) := rfl

theorem dfaPath_cons (A : Automaton) (cur : St) (a : Sym) (rest : List Sym) :
    dfaPath A cur (a :: rest) =
      (if a ∉ A.alphabet then []
       else match tlookup A cur a with
        | some (.dfa t) => PathEntry.d t rest :: dfaPath A t rest
        | _ => []) := rfl

theorem dfaEnd_cons (A : Automaton) (cur : St) (a : Sym) (rest : List Sym) :
    dfaEnd A cur (a :: rest) =
      (if a ∉ A.alphabet then cur
       else match tlookup A cur a with
        | some (.dfa t) => dfaEnd A t rest
        | _ => cur) := rfl

theorem simDFAGo_eq (A : Automaton) : ∀ (input : List Sym) (cur : St)
    (path : List PathEntry),
    simDFAGo A cur input path =
      { accepted := (dfaFail A cur input).isNone &&
          decide (dfaEnd A cur input ∈ A.finalStates),
        path := path ++ dfaPath A cur input,
        error := (dfaFail A cur input).map (·.2) } := by
  intro input
  induction input with
  | nil =>
    intro cur path
    simp [simDFAGo, dfaFail, dfaPath, dfaEnd]
  | cons a rest ih =>
    intro cur path
    rw [simDFAGo_cons, dfaFail_cons, dfaPath_cons, dfaEnd_cons]
    by_cases ha : a ∈ A.alphabet
    · have hna : ¬ (a ∉ A.alphabet) := not_not_intro ha
      rw [if_neg hna, if_neg hna, if_neg hna, if_neg hna]
      cases htl : tlookup A cur a with
      | none => simp
      | some t =>
        cases t with
        | dfa t =>
          dsimp only
          rw [ih]
          simp [Option.map_map, Function.comp]
          cases dfaFail A t rest <;> rfl
        | nfa ts => simp
    · rw [if_pos ha, if_pos ha, if_pos ha, if_pos ha]
      simp

theorem simNFAGo_cons (A : Automaton) (cur : List St) (a : Sym)
    (rest : List Sym) (path : List PathEntry) :
    simNFAGo A cur (a :: rest) path =
      (if a ∉ A.alphabet then
        { accepted := false, path := path, error := some (.unknownSymbol a) }
       else if epsilonClosure A (moveTargets A cur a) = [] then
        { accepted := false, path := path, error := some (.noReachableStates a) }
       else
        simNFAGo A (epsilonClosure A (moveTargets A cur a)) rest
          (path ++ [.n (epsilonClosure A (moveTargets A cur a)) rest])) := rfl

theorem nfaFail_cons (A : Automaton) (cur : List St) (a : Sym)
    (rest : List Sym) :
    nfaFail A cur (a :: rest) =
      (if a ∉ A.alphabet then some (0, .unknownSymbol a)
       else if epsilonClosure A (moveTargets A cur a) = [] then
        some (0, .noReachableStates a)
       else (nfaFail A (epsilonClosure A (moveTargets A cur a)) rest).map
        (fun p => (p.1 + 1, p.2))) := rfl

theorem nfaPath_cons (A : Automaton) (cur : List St) (a : Sym)
    (rest : List Sym) :
    nfaPath A cur (a :: rest) =
      (if a ∉ A.alphabet then []
       else if epsilonClosure A (moveTargets A cur a) = [] then []
       else PathEntry.n (epsilonClosure A (moveTargets A cur a)) rest ::
        nfaPath A (epsilonClosure A (moveTargets A cur a)) rest) := rfl

theorem nfaEnd_cons (A : Automaton) (cur : List St) (a : Sym)
    (rest : List Sym) :
    nfaEnd A cur (a :: rest) =
      (if a ∉ A.alphabet then cur
       else if epsilonClosure A (moveTargets A cur a) = [] then cur
       else nfaEnd A (epsilonClosure A (moveTargets A cur a)) rest) := rfl

theorem simNFAGo_eq (A : Automaton) : ∀ (input : List Sym) (cur : List St)
    (path : List PathEntry),
    simNFAGo A cur input path =
      { accepted := (nfaFail A cur input).isNone &&
          (nfaEnd A cur input).any (· ∈ A.finalStates),
        path := path ++ nfaPath A cur input,
        error := (nfaFail A cur input).map (·.2) } := by
  intro input
  induction input with
  | nil =>
    intro cur path
    simp [simNFAGo, nfaFail, nfaPath, nfaEnd]
  | cons a rest ih =>
    intro cur path
    rw [simNFAGo_cons, nfaFail_cons, nfaPath_cons, nfaEnd_cons]
    by_cases ha : a ∈ A.alphabet
    · have hna : ¬ (a ∉ A.alphabet) := not_not_intro ha
      rw [if_neg hna, if_neg hna, if_neg hna, if_neg hna]
      by_cases hn : epsilonClosure A (moveTargets A cur a) = []
      · rw [if_pos hn, if_pos hn, if_pos hn, if_pos hn]
        simp
      · rw [if_neg hn, if_neg hn, if_neg hn, if_neg hn]
        rw [ih]
        simp [Option.map_map, Function.comp]
        cases nfaFail A (epsilonClosure A (moveTargets A cur a)) rest <;> rfl
    · rw [if_pos ha, if_pos ha, if_pos ha, if_pos ha]
      simp

theorem dfaFail_unknown (A : Automaton) : ∀ (input : List Sym) (cur : St)
    (k : Nat) (a : Sym),
    dfaFail A cur input = some (k, SimErr.unknownSymbol a) → a ∉ A.alphabet := by
  intro input
  induction input with
  | nil => intro cur k a h; cases h
  | cons b rest ih =>
    intro cur k a h
    rw [dfaFail_cons] at h
    by_cases hb : b ∈ A.alphabet
    · rw [if_neg (not_not_intro hb)] at h
      cases htl : tlookup A cur b with
      | none => rw [htl] at h; simp at h
      | some t =>
        cases t with
        | dfa t =>
          rw [htl] at h
          dsimp only at h
          rcases Option.map_eq_some'.mp h with ⟨p, hp, hpe⟩
          have hsnd : p.2 = SimErr.unknownSymbol a := congrArg Prod.snd hpe
          exact ih t p.1 a (by rw [hp, ← hsnd])
        | nfa ts => rw [htl] at h; simp at h
    · rw [if_pos hb] at h
      simp only [Option.some.injEq, Prod.mk.injEq] at h
      obtain ⟨-, h2⟩ := h
      injection h2 with h3
      subst h3
      exact hb

theorem dfaFail_missing (A : Automaton) : ∀ (input : List Sym) (cur : St)
    (k : Nat) (q : St) (a : Sym),
    dfaFail A cur input = some (k, SimErr.missingTransition q a) →
      a ∈ A.alphabet ∧ (¬ ∃ t, tlookup A q a = some (Tgt.dfa t)) := by
  intro input
  induction input with
  | nil => intro cur k q a h; cases h
  | cons b rest ih =>
    intro cur k q a h
    rw [dfaFail_cons] at h
    by_cases hb : b ∈ A.alphabet
    · rw [if_neg (not_not_intro hb)] at h
      cases htl : tlookup A cur b with
      | none =>
        rw [htl] at h
        simp only [Option.some.injEq, Prod.mk.injEq] at h
        obtain ⟨-, h2⟩ := h
        injection h2 with h3 h4
        subst h3
        subst h4
        refine ⟨hb, ?_⟩
        rintro ⟨t, ht⟩
        rw [htl] at ht
        cases ht
      | some t =>
        cases t with
        | dfa t =>
          rw [htl] at h
          dsimp only at h
          rcases Option.map_eq_some'.mp h with ⟨p, hp, hpe⟩
          have hsnd : p.2 = SimErr.missingTransition q a := congrArg Prod.snd hpe
          exact ih t p.1 q a (by rw [hp, ← hsnd])
        | nfa ts =>
          rw [htl] at h
          simp only [Option.some.injEq, Prod.mk.injEq] at h
          obtain ⟨-, h2⟩ := h
          injection h2 with h3 h4
          subst h3
          subst h4
          refine ⟨hb, ?_⟩
          rintro ⟨t, ht⟩
          rw [htl] at ht
          simp at ht
    · rw [if_pos hb] at h
      simp at h

theorem nfaFail_kinds (A : Automaton) : ∀ (input : List Sym) (cur : List St)
    (k : Nat) (e : SimErr), nfaFail A cur input = some (k, e) →
      (∃ a, e = SimErr.unknownSymbol a ∧ a ∉ A.alphabet) ∨
      (∃ a, e = SimErr.noReachableStates a) := by
  intro input
  induction input with
  | nil => intro cur k e h; cases h
  | cons b rest ih =>
    intro cur k e h
    rw [nfaFail_cons] at h
    by_cases hb : b ∈ A.alphabet
    · rw [if_neg (not_not_intro hb)] at h
      by_cases hn : epsilonClosure A (moveTargets A cur b) = []
      · rw [if_pos hn] at h
        simp only [Option.some.injEq, Prod.mk.injEq] at h
        exact Or.inr ⟨b, h.2.symm⟩
      · rw [if_neg hn] at h
        rcases Option.map_eq_some'.mp h with ⟨p, hp, hpe⟩
        have hsnd : p.2 = e := congrArg Prod.snd hpe
        rw [← hsnd]
        exact ih _ p.1 p.2 hp
    · rw [if_pos hb] at h
      simp only [Option.some.injEq, Prod.mk.injEq] at h
      exact Or.inl ⟨b, h.2.symm, hb⟩

/-- C5: `simulate` returns errors as data and never throws: an error always
forces `accepted = false`; an `UnknownSymbol a` error means `a` is outside the
alphabet; a `MissingTransition q a` error means `a` is in the alphabet but `q`
has no (truthy) transition on it; and the whole result — for a DFA and for an
NFA — is exactly the first-failure analysis: the path accumulated up to the
failure point (simulation halts immediately), the reported error of the
claimed kind, and acceptance decided by final-state membership only when no
failure occurred.  For an NFA the only mid-run failure on symbols in the
alphabet is `NoReachableStates`, raised when move + ε-closure empties the
active set. -/
theorem c5_simulate_errors (A : Automaton) (q0 : St) (input : List Sym)
    (h0 : A.initialState = some q0) (hq : q0 ≠ "") (hk : KindOk A) :
    ((simulate A input).error.isSome → (simulate A input).accepted = false) ∧
    (∀ a, (simulate A input).error = some (SimErr.unknownSymbol a) →
      a ∉ A.alphabet) ∧
    (∀ q a, (simulate A input).error = some (SimErr.missingTransition q a) →
      a ∈ A.alphabet ∧ tlookup A q a = none) ∧
    (A.type = Kind.DFA → simulate A input =
      { accepted := (dfaFail A q0 input).isNone &&
          decide (dfaEnd A q0 input ∈ A.finalStates),
        path := PathEntry.d q0 input :: dfaPath A q0 input,
        error := (dfaFail A q0 input).map (·.2) }) ∧
    (A.type = Kind.NFA → simulate A input =
      { accepted := (nfaFail A (epsilonClosure A [q0]) input).isNone &&
          (nfaEnd A (epsilonClosure A [q0]) input).any (· ∈ A.finalStates),
        path := PathEntry.n (epsilonClosure A [q0]) input ::
          nfaPath A (epsilonClosure A [q0]) input,
        error := (nfaFail A (epsilonClosure A [q0]) input).map (·.2) }) := by
  cases htype : A.type with
  | DFA =>
    have hsim : simulate A input =
        { accepted := (dfaFail A q0 input).isNone &&
            decide (dfaEnd A q0 input ∈ A.finalStates),
          path := PathEntry.d q0 input :: dfaPath A q0 input,
          error := (dfaFail A q0 input).map (·.2) } := by
      unfold simulate
      rw [htype]
      unfold simulateDFA
      rw [h0]
      dsimp only
      rw [if_neg hq, simDFAGo_eq]
      rfl
    refine ⟨?_, ?_, ?_, fun _ => hsim, fun h => absurd h (by decide)⟩
    · intro h
      rw [hsim] at h
      rw [hsim]
      cases hf : dfaFail A q0 input with
      | none => rw [hf] at h; simp at h
      | some p => simp [hf]
    · intro a ha
      rw [hsim] at ha
      rcases Option.map_eq_some'.mp ha with ⟨p, hp, hpe⟩
      exact dfaFail_unknown A input q0 p.1 a (by rw [hp, ← hpe])
    · intro q a ha
      rw [hsim] at ha
      rcases Option.map_eq_some'.mp ha with ⟨p, hp, hpe⟩
      have hm := dfaFail_missing A input q0 p.1 q a (by rw [hp, ← hpe])
      refine ⟨hm.1, ?_⟩
      cases htl : tlookup A q a with
      | none => rfl
      | some t =>
        cases t with
        | dfa t => exact absurd ⟨t, htl⟩ hm.2
        | nfa ts => exact absurd htl (tlookup_no_nfa_of_kindOk hk htype)
  | NFA =>
    have hsim : simulate A input =
        { accepted := (nfaFail A (epsilonClosure A [q0]) input).isNone &&
            (nfaEnd A (epsilonClosure A [q0]) input).any (· ∈ A.finalStates),
          path := PathEntry.n (epsilonClosure A [q0]) input ::
            nfaPath A (epsilonClosure A [q0]) input,
          error := (nfaFail A (epsilonClosure A [q0]) input).map (·.2) } := by
      unfold simulate
      rw [htype]
      unfold simulateNFA
      rw [h0]
      dsimp only
      rw [if_neg hq, simNFAGo_eq]
      rfl
    refine ⟨?_, ?_, ?_, fun h => absurd h (by decide), fun _ => hsim⟩
    · intro h
      rw [hsim] at h
      rw [hsim]
      cases hf : nfaFail A (epsilonClosure A [q0]) input with
      | none => rw [hf] at h; simp at h
      | some p => simp [hf]
    · intro a ha
      rw [hsim] at ha
      rcases Option.map_eq_some'.mp ha with ⟨p, hp, hpe⟩
      rcases nfaFail_kinds A input _ p.1 p.2 hp with ⟨b, hbe, hb⟩ | ⟨b, hbe⟩
      · rw [hbe] at hpe
        injection hpe with h2
        subst h2
        exact hb
      · rw [hbe] at hpe
        simp at hpe
    · intro q a ha
      rw [hsim] at ha
      rcases Option.map_eq_some'.mp ha with ⟨p, hp, hpe⟩
      rcases nfaFail_kinds A input _ p.1 p.2 hp with ⟨b, hbe, -⟩ | ⟨b, hbe⟩ <;>
        rw [hbe] at hpe <;> simp at hpe

/-- A small DFA used to instantiate C5. -/
def c5A : Automaton :=
  let a := Automaton.new .DFA
  let a := addState a "q0"
  let a := setInitialState a "q0"
  addTransition a "q0" "a" "q0"

theorem c5_simulate_errors_witness :
    (simulate c5A ["b"]).error.isSome = true ∧
      (simulate c5A ["b"]).accepted = false :=
  ⟨by decide,
    (c5_simulate_errors c5A "q0" ["b"] rfl (by decide) (by decide)).1
      (by decide)⟩

/-! ## Claim C4: helper lemmas relating prefix runs, paths and the stepper -/

theorem dfaFail_append_some (A : Automaton) : ∀ (l r : List Sym) (cur : St)
    (p : Nat × SimErr), dfaFail A cur l = some p →
    dfaFail A cur (l ++ r) = some p := by
  intro l
  induction l with
  | nil => intro r cur p h; cases h
  | cons b rest ih =>
    intro r cur p h
    rw [dfaFail_cons] at h
    rw [List.cons_append, dfaFail_cons]
    by_cases hb : b ∈ A.alphabet
    · rw [if_neg (not_not_intro hb)] at h ⊢
      cases htl : tlookup A cur b with
      | none => rw [htl] at h; dsimp only at h ⊢; exact h
      | some t =>
        cases t with
        | dfa t =>
          rw [htl] at h
          dsimp only at h ⊢
          rcases Option.map_eq_some'.mp h with ⟨q, hq2, hqe⟩
          rw [ih r t q hq2]
          simpa using hqe
        | nfa ts => rw [htl] at h; dsimp only at h ⊢; exact h
    · rw [if_pos hb] at h ⊢
      exact h

theorem dfaEnd_append_none (A : Automaton) : ∀ (l r : List Sym) (cur : St),
    dfaFail A cur l = none →
    dfaEnd A cur (l ++ r) = dfaEnd A (dfaEnd A cur l) r := by
  intro l
  induction l with
  | nil => intro r cur _; rfl
  | cons b rest ih =>
    intro r cur h
    rw [dfaFail_cons] at h
    rw [List.cons_append]
    simp only [dfaEnd_cons]
    by_cases hb : b ∈ A.alphabet
    · rw [if_neg (not_not_intro hb)] at h ⊢
      rw [if_neg (not_not_intro hb)]
      cases htl : tlookup A cur b with
      | none => rw [htl] at h; dsimp only at h; cases h
      | some t =>
        cases t with
        | dfa t =>
          rw [htl] at h
          dsimp only at h ⊢
          exact ih r t (Option.map_eq_none'.mp h)
        | nfa ts => rw [htl] at h; dsimp only at h; cases h
    · rw [if_pos hb] at h
      cases h

theorem dfaPath_get (A : Automaton) : ∀ (s : List Sym) (k : Nat) (cur : St),
    k ≤ s.length → dfaFail A cur (s.take k) = none →
    (PathEntry.d cur s :: dfaPath A cur s).get? k =
      some (PathEntry.d (dfaEnd A cur (s.take k)) (s.drop k)) := by
  intro s
  induction s with
  | nil =>
    intro k cur hk _
    have hk0 : k = 0 := by simpa using hk
    subst hk0
    rfl
  | cons a rest ih =>
    intro k cur hk hf
    cases k with
    | zero => rfl
    | succ j =>
      rw [List.take_succ_cons, dfaFail_cons] at hf
      by_cases ha : a ∈ A.alphabet
      · rw [if_neg (not_not_intro ha)] at hf
        cases htl : tlookup A cur a with
        | none => rw [htl] at hf; cases hf
        | some t =>
          cases t with
          | dfa t =>
            rw [htl] at hf
            dsimp only at hf
            have hf2 := Option.map_eq_none'.mp hf
            rw [List.get?_cons_succ]
            rw [show dfaPath A cur (a :: rest) =
                PathEntry.d t rest :: dfaPath A t rest by
              rw [dfaPath_cons, if_neg (not_not_intro ha), htl]]
            rw [show dfaEnd A cur ((a :: rest).take (j + 1)) =
                dfaEnd A t (rest.take j) by
              rw [List.take_succ_cons, dfaEnd_cons,
                  if_neg (not_not_intro ha), htl]]
            rw [show (a :: rest).drop (j + 1) = rest.drop j from rfl]
            exact ih j t (by simpa using hk) hf2
          | nfa ts => rw [htl] at hf; cases hf
      · rw [if_pos ha] at hf
        cases hf

theorem stepDFAGo_cases (A : Automaton) : ∀ (input : List Sym) (cur : St),
    (∀ a ∈ input, a ∈ A.alphabet) →
    (dfaFail A cur input = none ∧
      stepDFAGo A cur input = Sum.inl (dfaEnd A cur input)) ∨
    (∃ j a, dfaFail A cur input =
        some (j, SimErr.missingTransition (dfaEnd A cur input) a) ∧
      stepDFAGo A cur input = Sum.inr (dfaEnd A cur input, a)) := by
  intro input
  induction input with
  | nil => intro cur _; exact Or.inl ⟨rfl, rfl⟩
  | cons b rest ih =>
    intro cur hin
    have hb : b ∈ A.alphabet := hin b (List.mem_cons_self b rest)
    rw [dfaFail_cons, dfaEnd_cons,
        show stepDFAGo A cur (b :: rest) =
          (match tlookup A cur b with
           | some (.dfa t) => stepDFAGo A t rest
           | _ => Sum.inr (cur, b)) from rfl]
    rw [if_neg (not_not_intro hb), if_neg (not_not_intro hb)]
    cases htl : tlookup A cur b with
    | none =>
      dsimp only
      exact Or.inr ⟨0, b, rfl, rfl⟩
    | some t =>
      cases t with
      | dfa t =>
        dsimp only
        rcases ih t (fun a ha => hin a (List.mem_cons_of_mem b ha)) with
          ⟨h1, h2⟩ | ⟨j, a, h1, h2⟩
        · exact Or.inl ⟨by rw [h1]; rfl, h2⟩
        · exact Or.inr ⟨j + 1, a, by rw [h1]; rfl, h2⟩
      | nfa ts =>
        dsimp only
        exact Or.inr ⟨0, b, rfl, rfl⟩

theorem nfaFail_append_some (A : Automaton) : ∀ (l r : List Sym)
    (cur : List St) (p : Nat × SimErr), nfaFail A cur l = some p →
    nfaFail A cur (l ++ r) = some p := by
  intro l
  induction l with
  | nil => intro r cur p h; cases h
  | cons b rest ih =>
    intro r cur p h
    rw [nfaFail_cons] at h
    rw [List.cons_append, nfaFail_cons]
    by_cases hb : b ∈ A.alphabet
    · rw [if_neg (not_not_intro hb)] at h ⊢
      by_cases hn : epsilonClosure A (moveTargets A cur b) = []
      · rw [if_pos hn] at h ⊢
        exact h
      · rw [if_neg hn] at h ⊢
        rcases Option.map_eq_some'.mp h with ⟨q, hq2, hqe⟩
        rw [ih r _ q hq2]
        simpa using hqe
    · rw [if_pos hb] at h ⊢
      exact h

theorem nfaPath_get (A : Automaton) : ∀ (s : List Sym) (k : Nat)
    (cur : List St), k ≤ s.length → nfaFail A cur (s.take k) = none →
    (PathEntry.n cur s :: nfaPath A cur s).get? k =
      some (PathEntry.n (nfaEnd A cur (s.take k)) (s.drop k)) := by
  intro s
  induction s with
  | nil =>
    intro k cur hk _
    have hk0 : k = 0 := by simpa using hk
    subst hk0
    rfl
  | cons a rest ih =>
    intro k cur hk hf
    cases k with
    | zero => rfl
    | succ j =>
      rw [List.take_succ_cons, nfaFail_cons] at hf
      by_cases ha : a ∈ A.alphabet
      · rw [if_neg (not_not_intro ha)] at hf
        by_cases hn : epsilonClosure A (moveTargets A cur a) = []
        · rw [if_pos hn] at hf
          cases hf
        · rw [if_neg hn] at hf
          have hf2 := Option.map_eq_none'.mp hf
          rw [List.get?_cons_succ]
          rw [show nfaPath A cur (a :: rest) =
              PathEntry.n (epsilonClosure A (moveTargets A cur a)) rest ::
                nfaPath A (epsilonClosure A (moveTargets A cur a)) rest by
            rw [nfaPath_cons, if_neg (not_not_intro ha), if_neg hn]]
          rw [show nfaEnd A cur ((a :: rest).take (j + 1)) =
              nfaEnd A (epsilonClosure A (moveTargets A cur a)) (rest.take j) by
            rw [List.take_succ_cons, nfaEnd_cons,
                if_neg (not_not_intro ha), if_neg hn]]
          rw [show (a :: rest).drop (j + 1) = rest.drop j from rfl]
          exact ih j _ (by simpa using hk) hf2
      · rw [if_pos ha] at hf
        cases hf

theorem stepNFAGo_cases (A : Automaton) : ∀ (input : List Sym)
    (cur : List St), (∀ a ∈ input, a ∈ A.alphabet) →
    (nfaFail A cur input = none ∧
      stepNFAGo A cur input = Sum.inl (nfaEnd A cur input)) ∨
    (∃ j a, nfaFail A cur input = some (j, SimErr.noReachableStates a) ∧
      stepNFAGo A cur input = Sum.inr a) := by
  intro input
  induction input with
  | nil => intro cur _; exact Or.inl ⟨rfl, rfl⟩
  | cons b rest ih =>
    intro cur hin
    have hb : b ∈ A.alphabet := hin b (List.mem_cons_self b rest)
    rw [nfaFail_cons, nfaEnd_cons,
        show stepNFAGo A cur (b :: rest) =
          (if epsilonClosure A (moveTargets A cur b) = [] then Sum.inr b
           else stepNFAGo A (epsilonClosure A (moveTargets A cur b)) rest)
          from rfl]
    rw [if_neg (not_not_intro hb), if_neg (not_not_intro hb)]
    by_cases hn : epsilonClosure A (moveTargets A cur b) = []
    · rw [if_pos hn, if_pos hn, if_pos hn]
      exact Or.inr ⟨0, b, rfl, rfl⟩
    · rw [if_neg hn, if_neg hn, if_neg hn]
      rcases ih (epsilonClosure A (moveTargets A cur b))
        (fun a ha => hin a (List.mem_cons_of_mem b ha)) with
        ⟨h1, h2⟩ | ⟨j, a, h1, h2⟩
      · exact Or.inl ⟨by rw [h1]; rfl, h2⟩
      · exact Or.inr ⟨j + 1, a, by rw [h1]; rfl, h2⟩

theorem simulateStep_zero_dfa (A : Automaton) (q0 : St) (s : List Sym)
    (h0 : A.initialState = some q0) (ht : A.type = Kind.DFA) :
    simulateStep A s 0 =
      { state := some q0, states := none, remainingInput := s,
        accepted := decide (q0 ∈ A.finalStates),
        complete := decide (s.length = 0), error := none } := by
  unfold simulateStep
  rw [if_pos rfl, ht]
  dsimp only
  rw [h0]

theorem simulateStep_succ_dfa (A : Automaton) (q0 : St) (s : List Sym)
    (j : Nat) (h0 : A.initialState = some q0) (ht : A.type = Kind.DFA) :
    simulateStep A s (j + 1) =
      (match stepDFAGo A q0 (s.take (j + 1)) with
       | Sum.inl cur =>
         { state := some cur, states := none, remainingInput := s.drop (j + 1),
           accepted := decide (cur ∈ A.finalStates),
           complete := decide (s.drop (j + 1) = []), error := none }
       | Sum.inr pa =>
         { state := some pa.1, states := none,
           remainingInput := s.drop (j + 1), accepted := false,
           complete := true,
           error := some (.missingTransition pa.1 pa.2) }) := by
  unfold simulateStep
  rw [if_neg (Nat.succ_ne_zero j), ht]
  dsimp only
  rw [h0]
  dsimp only
  cases stepDFAGo A q0 (s.take (j + 1)) with
  | inl cur => rfl
  | inr pa => rfl

theorem simulateStep_zero_nfa (A : Automaton) (q0 : St) (s : List Sym)
    (h0 : A.initialState = some q0) (ht : A.type = Kind.NFA) :
    simulateStep A s 0 =
      { state := none, states := some (epsilonClosure A [q0]),
        remainingInput := s,
        accepted := (epsilonClosure A [q0]).any (· ∈ A.finalStates),
        complete := decide (s.length = 0), error := none } := by
  unfold simulateStep
  rw [if_pos rfl, ht]
  dsimp only
  rw [h0]

theorem simulateStep_succ_nfa (A : Automaton) (q0 : St) (s : List Sym)
    (j : Nat) (h0 : A.initialState = some q0) (ht : A.type = Kind.NFA) :
    simulateStep A s (j + 1) =
      (match stepNFAGo A (epsilonClosure A [q0]) (s.take (j + 1)) with
       | Sum.inl cur =>
         { state := none, states := some cur,
           remainingInput := s.drop (j + 1),
           accepted := cur.any (· ∈ A.finalStates),
           complete := decide (s.drop (j + 1) = []), error := none }
       | Sum.inr a =>
         { state := none, states := some [],
           remainingInput := s.drop (j + 1), accepted := false,
           complete := true, error := some (.noReachableStates a) }) := by
  unfold simulateStep
  rw [if_neg (Nat.succ_ne_zero j), ht]
  dsimp only
  rw [h0]

theorem simulate_eq_dfa (A : Automaton) (q0 : St) (s : List Sym)
    (h0 : A.initialState = some q0) (hq : q0 ≠ "")
    (ht : A.type = Kind.DFA) :
    simulate A s =
      { accepted := (dfaFail A q0 s).isNone &&
          decide (dfaEnd A q0 s ∈ A.finalStates),
        path := PathEntry.d q0 s :: dfaPath A q0 s,
        error := (dfaFail A q0 s).map (·.2) } := by
  unfold simulate
  rw [ht]
  unfold simulateDFA
  rw [h0]
  dsimp only
  rw [if_neg hq, simDFAGo_eq]
  rfl

theorem simulate_eq_nfa (A : Automaton) (q0 : St) (s : List Sym)
    (h0 : A.initialState = some q0) (hq : q0 ≠ "")
    (ht : A.type = Kind.NFA) :
    simulate A s =
      { accepted := (nfaFail A (epsilonClosure A [q0]) s).isNone &&
          (nfaEnd A (epsilonClosure A [q0]) s).any (· ∈ A.finalStates),
        path := PathEntry.n (epsilonClosure A [q0]) s ::
          nfaPath A (epsilonClosure A [q0]) s,
        error := (nfaFail A (epsilonClosure A [q0]) s).map (·.2) } := by
  unfold simulate
  rw [ht]
  unfold simulateNFA
  rw [h0]
  dsimp only
  rw [if_neg hq, simNFAGo_eq]
  rfl

/-- C4 (amended): for every kind-consistent automaton with a (truthy) initial
state and every input string all of whose symbols are in the alphabet,
`simulateStep(s, k)` (for `k ≤ |s|`) is exactly the snapshot of `simulate(s)`
after consuming the first `k` symbols: when the first `k` symbols run without
failure it returns the same current state (DFA) or state set (NFA) as the
`k`-th entry of the `simulate` path, `remainingInput = s.drop k`, no error and
`complete` iff nothing remains; when a failure occurs within the first `k`
symbols both report the same error and reject; at `k = |s|` the accepted
values agree; and step 0 returns the initial state / initial ε-closure with
`complete = (s is empty)`.  (The original UnknownSymbol clause of the claim is
dropped: `simulateStep` never consults the alphabet — see the
counterexample.) -/
theorem c4_step_matches (A : Automaton) (q0 : St) (s : List Sym) (k : Nat)
    (h0 : A.initialState = some q0) (hq : q0 ≠ "") (hks : k ≤ s.length)
    (hin : ∀ a ∈ s, a ∈ A.alphabet) :
    (simulateStep A s k).remainingInput = s.drop k ∧
    (A.type = Kind.DFA →
      simulateStep A s 0 =
        { state := some q0, states := none,
          remainingInput := s, accepted := decide (q0 ∈ A.finalStates),
          complete := decide (s.length = 0), error := none } ∧
      (match dfaFail A q0 (s.take k) with
       | none =>
         simulateStep A s k =
           { state := some (dfaEnd A q0 (s.take k)), states := none,
             remainingInput := s.drop k,
             accepted := decide (dfaEnd A q0 (s.take k) ∈ A.finalStates),
             complete := decide (s.drop k = []), error := none } ∧
         (simulate A s).path.get? k =
           some (PathEntry.d (dfaEnd A q0 (s.take k)) (s.drop k))
       | some p =>
         (simulateStep A s k).state = some (dfaEnd A q0 (s.take k)) ∧
         (simulateStep A s k).error = some p.2 ∧
         (simulateStep A s k).accepted = false ∧
         (simulateStep A s k).complete = true ∧
         (simulate A s).error = some p.2 ∧
         (simulate A s).accepted = false) ∧
      (k = s.length →
        (simulateStep A s k).accepted = (simulate A s).accepted)) ∧
    (A.type = Kind.NFA →
      simulateStep A s 0 =
        { state := none,
          states := some (epsilonClosure A [q0]), remainingInput := s,
          accepted := (epsilonClosure A [q0]).any (· ∈ A.finalStates),
          complete := decide (s.length = 0), error := none } ∧
      (match nfaFail A (epsilonClosure A [q0]) (s.take k) with
       | none =>
         simulateStep A s k =
           { state := none,
             states := some (nfaEnd A (epsilonClosure A [q0]) (s.take k)),
             remainingInput := s.drop k,
             accepted := (nfaEnd A (epsilonClosure A [q0]) (s.take k)).any
               (· ∈ A.finalStates),
             complete := decide (s.drop k = []), error := none } ∧
         (simulate A s).path.get? k =
           some (PathEntry.n (nfaEnd A (epsilonClosure A [q0]) (s.take k))
             (s.drop k))
       | some p =>
         (simulateStep A s k).states = some [] ∧
         (simulateStep A s k).error = some p.2 ∧
         (simulateStep A s k).accepted = false ∧
         (simulateStep A s k).complete = true ∧
         (simulate A s).error = some p.2 ∧
         (simulate A s).accepted = false) ∧
      (k = s.length →
        (simulateStep A s k).accepted = (simulate A s).accepted)) := by
  cases htype : A.type with
  | DFA =>
    have hsim := simulate_eq_dfa A q0 s h0 hq htype
    have hz := simulateStep_zero_dfa A q0 s h0 htype
    have hint : ∀ a ∈ s.take k, a ∈ A.alphabet :=
      fun a ha => hin a (List.take_subset k s ha)
    rcases stepDFAGo_cases A (s.take k) q0 hint with ⟨hf, hstep⟩ |
      ⟨j2, b, hf, hstep⟩
    · -- no failure in the first k symbols
      have hrec : simulateStep A s k =
          { state := some (dfaEnd A q0 (s.take k)), states := none,
            remainingInput := s.drop k,
            accepted := decide (dfaEnd A q0 (s.take k) ∈ A.finalStates),
            complete := decide (s.drop k = []), error := none } := by
        cases k with
        | zero =>
          rw [hz, List.take_zero, List.drop_zero]
          have hc : (decide (s.length = 0)) = (decide (s = [])) :=
            decide_eq_decide.mpr List.length_eq_zero
          rw [hc]
          rfl
        | succ j =>
          rw [simulateStep_succ_dfa A q0 s j h0 htype, hstep]
      refine ⟨by rw [hrec], fun _ => ⟨hz, ?_, ?_⟩,
        fun h => absurd h (by decide)⟩
      · rw [hf]
        exact ⟨hrec, by rw [hsim]; exact dfaPath_get A s k q0 hks hf⟩
      · intro hkl
        subst hkl
        rw [List.take_length] at hf
        rw [hrec, hsim]
        simp [hf]
    · -- failure within the first k symbols
      have hk0 : k ≠ 0 := by
        intro h
        subst h
        rw [List.take_zero] at hf
        cases hf
      obtain ⟨j, rfl⟩ := Nat.exists_eq_succ_of_ne_zero hk0
      have hrec := simulateStep_succ_dfa A q0 s j h0 htype
      rw [hstep] at hrec
      have hfull : dfaFail A q0 s =
          some (j2, SimErr.missingTransition (dfaEnd A q0 (s.take (j + 1))) b) := by
        conv_lhs => rw [← List.take_append_drop (j + 1) s]
        exact dfaFail_append_some A _ _ q0 _ hf
      refine ⟨by rw [hrec], fun _ => ⟨hz, ?_, ?_⟩,
        fun h => absurd h (by decide)⟩
      · rw [hf]
        refine ⟨by rw [hrec], by rw [hrec], by rw [hrec], by rw [hrec],
          ?_, ?_⟩
        · rw [hsim]
          show Option.map _ (dfaFail A q0 s) = _
          rw [hfull]
          rfl
        · rw [hsim]
          show ((dfaFail A q0 s).isNone && _) = false
          rw [hfull]
          rfl
      · intro hkl
        rw [hrec, hsim]
        have : dfaFail A q0 s = some (j2,
            SimErr.missingTransition (dfaEnd A q0 (s.take (j + 1))) b) := hfull
        simp [this]
  | NFA =>
    have hsim := simulate_eq_nfa A q0 s h0 hq htype
    have hz := simulateStep_zero_nfa A q0 s h0 htype
    have hint : ∀ a ∈ s.take k, a ∈ A.alphabet :=
      fun a ha => hin a (List.take_subset k s ha)
    rcases stepNFAGo_cases A (s.take k) (epsilonClosure A [q0]) hint with
      ⟨hf, hstep⟩ | ⟨j2, b, hf, hstep⟩
    · have hrec : simulateStep A s k =
          { state := none,
            states := some (nfaEnd A (epsilonClosure A [q0]) (s.take k)),
            remainingInput := s.drop k,
            accepted := (nfaEnd A (epsilonClosure A [q0]) (s.take k)).any
              (· ∈ A.finalStates),
            complete := decide (s.drop k = []), error := none } := by
        cases k with
        | zero =>
          rw [hz, List.take_zero, List.drop_zero]
          have hc : (decide (s.length = 0)) = (decide (s = [])) :=
            decide_eq_decide.mpr List.length_eq_zero
          rw [hc]
          rfl
        | succ j =>
          rw [simulateStep_succ_nfa A q0 s j h0 htype, hstep]
      refine ⟨by rw [hrec], fun h => absurd h (by decide),
        fun _ => ⟨hz, ?_, ?_⟩⟩
      · rw [hf]
        exact ⟨hrec, by rw [hsim]; exact nfaPath_get A s k _ hks hf⟩
      · intro hkl
        subst hkl
        rw [List.take_length] at hf
        rw [hrec, hsim]
        simp [hf]
    · have hk0 : k ≠ 0 := by
        intro h
        subst h
        rw [List.take_zero] at hf
        cases hf
      obtain ⟨j, rfl⟩ := Nat.exists_eq_succ_of_ne_zero hk0
      have hrec := simulateStep_succ_nfa A q0 s j h0 htype
      rw [hstep] at hrec
      have hfull : nfaFail A (epsilonClosure A [q0]) s =
          some (j2, SimErr.noReachableStates b) := by
        conv_lhs => rw [← List.take_append_drop (j + 1) s]
        exact nfaFail_append_some A _ _ _ _ hf
      refine ⟨by rw [hrec], fun h => absurd h (by decide),
        fun _ => ⟨hz, ?_, ?_⟩⟩
      · rw [hf]
        refine ⟨by rw [hrec], by rw [hrec], by rw [hrec], by rw [hrec],
          ?_, ?_⟩
        · rw [hsim]
          show Option.map _ (nfaFail A (epsilonClosure A [q0]) s) = _
          rw [hfull]
          rfl
        · rw [hsim]
          show ((nfaFail A (epsilonClosure A [q0]) s).isNone && _) = false
          rw [hfull]
          rfl
      · intro hkl
        rw [hrec, hsim]
        simp [hfull]


theorem c4_step_matches_witness :
    (simulateStep c4A ["b"] 1).remainingInput = (["b"] : List Sym).drop 1 :=
  (c4_step_matches c4A "q0" ["b"] 1 rfl (by decide) (by decide)
    (by decide)).1

/-! ## Claims C7 and C8: the model-API invariant -/

/-- The six model-API operations named by claims C7 and C8. -/
inductive Op
  | addSt (s : St)
  | rmSt (s : St)
  | setInit (s : St)
  | toggleFin (s : St) (b : Bool)
  | addTr (f : St) (a : Sym) (t : St)
  | rmTr (f : St) (a : Sym) (t : St)
deriving DecidableEq, Repr

/-- Apply one API operation. -/
def applyOp (A : Automaton) : Op → Automaton
  | .addSt s => addState A s
  | .rmSt s => removeState A s
  | .setInit s => setInitialState A s
  | .toggleFin s b => toggleFinalState A s b
  | .addTr f a t => addTransition A f a t
  | .rmTr f a t => removeTransition A f a t

/-- Apply a sequence of API operations. -/
def applyOps (A : Automaton) (ops : List Op) : Automaton :=
  ops.foldl applyOp A

/-- The structural invariant the API maintains (claims C7/C8): the state and
final-state sets are duplicate-free; the initial state, every transition
source and every transition target is a member of `states`; rows have
duplicate-free symbol keys; stored targets match the automaton's kind; and no
NFA target set is empty. -/
def Inv (A : Automaton) : Prop :=
  A.states.Nodup ∧ A.finalStates.Nodup ∧
  (∀ q, A.initialState = some q → q ∈ A.states) ∧
  (∀ q ∈ A.finalStates, q ∈ A.states) ∧
  (∀ p ∈ A.transitions, p.1 ∈ A.states ∧ (p.2.map (·.1)).Nodup ∧
    ∀ e ∈ p.2,
      (match A.type, e.2 with
       | Kind.DFA, Tgt.dfa _ => True
       | Kind.NFA, Tgt.nfa _ => True
       | _, _ => False) ∧
      (match e.2 with
       | Tgt.dfa t => t ∈ A.states
       | Tgt.nfa ts => ts ≠ [] ∧ ts.Nodup ∧ ∀ t ∈ ts, t ∈ A.states))

theorem mem_objSet {β : Type} {r : List (String × β)} {k : String} {v : β}
    {p : String × β} (h : p ∈ objSet r k v) : p ∈ r ∨ p = (k, v) := by
  unfold objSet at h
  split at h
  · rcases List.mem_map.mp h with ⟨q, hq, he⟩
    by_cases hk : q.1 == k
    · rw [if_pos hk] at he
      right
      exact he.symm
    · rw [if_neg hk] at he
      left
      exact he ▸ hq
  · rcases List.mem_append.mp h with h1 | h1
    · left
      exact h1
    · right
      simpa using h1

theorem objSet_keys_of_present {β : Type} {r : List (String × β)} {k : String}
    (v : β) (h : (r.find? (fun p => p.1 == k)).isSome) :
    (objSet r k v).map (·.1) = r.map (·.1) := by
  unfold objSet
  rw [if_pos h, List.map_map]
  refine List.map_congr_left ?_
  intro p _
  by_cases hk : p.1 == k
  · simp only [Function.comp, hk, if_pos]
    exact (beq_iff_eq.mp hk).symm
  · simp only [Function.comp, hk]
    rfl

theorem objSet_keys_of_absent {β : Type} {r : List (String × β)} {k : String}
    (v : β) (h : ¬ (r.find? (fun p => p.1 == k)).isSome) :
    (objSet r k v).map (·.1) = r.map (·.1) ++ [k] := by
  unfold objSet
  rw [if_neg h, List.map_append]
  rfl

theorem find?_isSome_of_key_mem {β : Type} {r : List (String × β)}
    {k : String} (h : k ∈ r.map (·.1)) :
    (r.find? (fun p => p.1 == k)).isSome := by
  rcases List.mem_map.mp h with ⟨p, hp, he⟩
  rw [List.find?_isSome]
  exact ⟨p, hp, by rw [he]; exact beq_self_eq_true k⟩

theorem key_mem_of_find?_isSome {β : Type} {r : List (String × β)}
    {k : String} (h : (r.find? (fun p => p.1 == k)).isSome) :
    k ∈ r.map (·.1) := by
  rw [List.find?_isSome] at h
  rcases h with ⟨p, hp, he⟩
  exact List.mem_map.mpr ⟨p, hp, beq_iff_eq.mp he⟩

theorem objSet_keys_nodup {β : Type} {r : List (String × β)} {k : String}
    {v : β} (h : (r.map (·.1)).Nodup) : ((objSet r k v).map (·.1)).Nodup := by
  by_cases hp : (r.find? (fun p => p.1 == k)).isSome
  · rw [objSet_keys_of_present v hp]
    exact h
  · rw [objSet_keys_of_absent v hp]
    rw [List.nodup_append]
    refine ⟨h, List.nodup_singleton k, ?_⟩
    intro x hx hxk
    rw [List.mem_singleton] at hxk
    subst hxk
    exact hp (find?_isSome_of_key_mem hx)

theorem filterMap_id_of {α : Type} (f : α → Option α) :
    ∀ (l : List α), (∀ a ∈ l, f a = some a) → l.filterMap f = l := by
  intro l
  induction l with
  | nil => intro _; rfl
  | cons a rest ih =>
    intro h
    rw [List.filterMap_cons, h a (List.mem_cons_self a rest),
        ih (fun b hb => h b (List.mem_cons_of_mem a hb))]

@[simp] theorem removeState_type (A : Automaton) (s : St) :
    (removeState A s).type = A.type := rfl

@[simp] theorem removeState_alphabet (A : Automaton) (s : St) :
    (removeState A s).alphabet = A.alphabet := rfl

theorem removeTransition_type (A : Automaton) (f : St) (a : Sym) (t : St) :
    (removeTransition A f a t).type = A.type := by
  unfold removeTransition
  cases objGet A.transitions f with
  | none => rfl
  | some row =>
    dsimp only
    cases objGet row a with
    | none => rfl
    | some tg =>
      dsimp only
      split
      · rfl
      · rfl

theorem removeTransition_states (A : Automaton) (f : St) (a : Sym) (t : St) :
    (removeTransition A f a t).states = A.states := by
  unfold removeTransition
  cases objGet A.transitions f with
  | none => rfl
  | some row =>
    dsimp only
    cases objGet row a with
    | none => rfl
    | some tg =>
      dsimp only
      split
      · rfl
      · rfl

theorem removeTransition_initialState (A : Automaton) (f : St) (a : Sym)
    (t : St) : (removeTransition A f a t).initialState = A.initialState := by
  unfold removeTransition
  cases objGet A.transitions f with
  | none => rfl
  | some row =>
    dsimp only
    cases objGet row a with
    | none => rfl
    | some tg =>
      dsimp only
      split
      · rfl
      · rfl

theorem removeTransition_finalStates (A : Automaton) (f : St) (a : Sym)
    (t : St) : (removeTransition A f a t).finalStates = A.finalStates := by
  unfold removeTransition
  cases objGet A.transitions f with
  | none => rfl
  | some row =>
    dsimp only
    cases objGet row a with
    | none => rfl
    | some tg =>
      dsimp only
      split
      · rfl
      · rfl

theorem type_applyOp (A : Automaton) (op : Op) : (applyOp A op).type = A.type := by
  cases op with
  | addSt s => rfl
  | rmSt s => rfl
  | setInit s => exact setInitialState_type A s
  | toggleFin s b => exact toggleFinalState_type A s b
  | addTr f a t => exact addTransition_type A f a t
  | rmTr f a t => exact removeTransition_type A f a t

theorem type_applyOps (ops : List Op) : ∀ (A : Automaton),
    (applyOps A ops).type = A.type := by
  induction ops with
  | nil => intro A; rfl
  | cons op rest ih =>
    intro A
    show (applyOps (applyOp A op) rest).type = A.type
    rw [ih (applyOp A op), type_applyOp]


theorem setAdd_ne_nil (l : List String) (x : String) : setAdd l x ≠ [] := by
  unfold setAdd
  split
  · next h => exact List.ne_nil_of_mem h
  · simp

theorem filterMap_keys_sublist {β : Type}
    (g : (String × β) → Option (String × β))
    (hg : ∀ e e', g e = some e' → e'.1 = e.1) :
    ∀ (l : List (String × β)),
      ((l.filterMap g).map (·.1)).Sublist (l.map (·.1)) := by
  intro l
  induction l with
  | nil => simp
  | cons e rest ih =>
    rw [List.filterMap_cons]
    cases hge : g e with
    | none =>
      rw [List.map_cons]
      exact ih.cons _
    | some e' =>
      rw [List.map_cons, List.map_cons, hg e e' hge]
      exact ih.cons₂ _

theorem inv_addState {A : Automaton} (h : Inv A) (s : St) :
    Inv (addState A s) := by
  obtain ⟨h1, h2, h3, h4, h5⟩ := h
  refine ⟨setAdd_nodup h1, h2, ?_, ?_, ?_⟩
  · intro q hq
    exact mem_setAdd.mpr (Or.inl (h3 q hq))
  · intro q hq
    exact mem_setAdd.mpr (Or.inl (h4 q hq))
  · intro p hp
    obtain ⟨hp1, hp2, hp3⟩ := h5 p hp
    refine ⟨mem_setAdd.mpr (Or.inl hp1), hp2, ?_⟩
    intro e he
    obtain ⟨he1, he2⟩ := hp3 e he
    refine ⟨he1, ?_⟩
    cases hv : e.2 with
    | dfa t =>
      rw [hv] at he2
      exact mem_setAdd.mpr (Or.inl he2)
    | nfa ts =>
      rw [hv] at he2
      exact ⟨he2.1, he2.2.1, fun t ht =>
        mem_setAdd.mpr (Or.inl (he2.2.2 t ht))⟩

theorem inv_setInitialState {A : Automaton} (h : Inv A) (s : St) :
    Inv (setInitialState A s) := by
  unfold setInitialState
  split
  · next hs =>
    obtain ⟨h1, h2, h3, h4, h5⟩ := h
    exact ⟨h1, h2, fun q hq => by cases hq; exact hs, h4, h5⟩
  · exact h

theorem inv_toggleFinalState {A : Automaton} (h : Inv A) (s : St) (b : Bool) :
    Inv (toggleFinalState A s b) := by
  unfold toggleFinalState
  split
  · next hs =>
    obtain ⟨h1, h2, h3, h4, h5⟩ := h
    cases b with
    | true =>
      refine ⟨h1, setAdd_nodup h2, h3, ?_, h5⟩
      intro q hq
      rcases mem_setAdd.mp hq with hq | hq
      · exact h4 q hq
      · exact hq ▸ hs
    | false =>
      refine ⟨h1, setDel_nodup h2, h3, ?_, h5⟩
      intro q hq
      exact h4 q (mem_of_mem_setDel hq)
  · exact h

theorem row_inv_of_objGet {A : Automaton} (h : Inv A) {frm : St} {row : Row}
    (hg : objGet A.transitions frm = some row) :
    frm ∈ A.states ∧ (row.map (·.1)).Nodup ∧
    ∀ e ∈ row,
      (match A.type, e.2 with
       | Kind.DFA, Tgt.dfa _ => True
       | Kind.NFA, Tgt.nfa _ => True
       | _, _ => False) ∧
      (match e.2 with
       | Tgt.dfa t => t ∈ A.states
       | Tgt.nfa ts => ts ≠ [] ∧ ts.Nodup ∧ ∀ t ∈ ts, t ∈ A.states) := by
  rcases objGet_mem hg with ⟨p, hp, hpk, hpv⟩
  obtain ⟨hp1, hp2, hp3⟩ := h.2.2.2.2 p hp
  exact ⟨hpk ▸ hp1, hpv ▸ hp2, hpv ▸ hp3⟩

theorem addTransition_eq_noop {A : Automaton} {frm dst : St} (sym : Sym)
    (h : ¬ (frm ∈ A.states ∧ dst ∈ A.states)) :
    addTransition A frm sym dst = A := by
  unfold addTransition
  rw [if_neg h]

theorem addTransition_eq_dfa {A : Automaton} {frm dst : St} (sym : Sym)
    (ht : A.type = Kind.DFA) (h : frm ∈ A.states ∧ dst ∈ A.states) :
    addTransition A frm sym dst =
      { A with
        alphabet := if sym ≠ eps then setAdd A.alphabet sym else A.alphabet,
        transitions := objSet A.transitions frm
          (objSet ((objGet A.transitions frm).getD []) sym (Tgt.dfa dst)) } := by
  unfold addTransition
  rw [if_pos h, ht]

theorem addTransition_eq_nfa {A : Automaton} {frm dst : St} (sym : Sym)
    (ht : A.type = Kind.NFA) (h : frm ∈ A.states ∧ dst ∈ A.states) :
    addTransition A frm sym dst =
      { A with
        alphabet := if sym ≠ eps then setAdd A.alphabet sym else A.alphabet,
        transitions := objSet A.transitions frm
          (match objGet ((objGet A.transitions frm).getD []) sym with
           | some (.nfa ts) =>
             objSet ((objGet A.transitions frm).getD []) sym
               (Tgt.nfa (setAdd ts dst))
           | _ =>
             objSet ((objGet A.transitions frm).getD []) sym
               (Tgt.nfa [dst])) } := by
  unfold addTransition
  rw [if_pos h, ht]

theorem inv_addTransition {A : Automaton} (h : Inv A) (frm : St) (sym : Sym)
    (dst : St) : Inv (addTransition A frm sym dst) := by
  by_cases hmem : frm ∈ A.states ∧ dst ∈ A.states
  case neg => rw [addTransition_eq_noop sym hmem]; exact h
  obtain ⟨hf, hd⟩ := hmem
  obtain ⟨h1, h2, h3, h4, h5⟩ := h
  have hrow : ∀ e ∈ (objGet A.transitions frm).getD [],
      (match A.type, e.2 with
       | Kind.DFA, Tgt.dfa _ => True
       | Kind.NFA, Tgt.nfa _ => True
       | _, _ => False) ∧
      (match e.2 with
       | Tgt.dfa t => t ∈ A.states
       | Tgt.nfa ts => ts ≠ [] ∧ ts.Nodup ∧ ∀ t ∈ ts, t ∈ A.states) := by
    cases hg : objGet A.transitions frm with
    | none => intro e he; cases he
    | some row =>
      intro e he
      exact (row_inv_of_objGet ⟨h1, h2, h3, h4, h5⟩ hg).2.2 e he
  have hrowk : (((objGet A.transitions frm).getD []).map (·.1)).Nodup := by
    cases hg : objGet A.transitions frm with
    | none => simp
    | some row => exact (row_inv_of_objGet ⟨h1, h2, h3, h4, h5⟩ hg).2.1
  cases htype : A.type with
  | DFA =>
    rw [addTransition_eq_dfa sym htype ⟨hf, hd⟩]
    refine ⟨h1, h2, h3, h4, ?_⟩
    intro p hp
    rcases mem_objSet hp with hpold | hpnew
    · exact h5 p hpold
    · subst hpnew
      refine ⟨hf, objSet_keys_nodup hrowk, ?_⟩
      intro e he
      rcases mem_objSet he with heold | henew
      · obtain ⟨he1, he2⟩ := hrow e heold
        exact ⟨he1, he2⟩
      · subst henew
        rw [htype]
        exact ⟨trivial, hd⟩
  | NFA =>
    rw [addTransition_eq_nfa sym htype ⟨hf, hd⟩]
    refine ⟨h1, h2, h3, h4, ?_⟩
    intro p hp
    rcases mem_objSet hp with hpold | hpnew
    · exact h5 p hpold
    · subst hpnew
      have hnewent : ∀ v : Tgt,
          (v = Tgt.nfa [dst] ∨
           ∃ ts, v = Tgt.nfa (setAdd ts dst) ∧ ts ≠ [] ∧ ts.Nodup ∧
             ∀ t ∈ ts, t ∈ A.states) →
          (match A.type, v with
           | Kind.DFA, Tgt.dfa _ => True
           | Kind.NFA, Tgt.nfa _ => True
           | _, _ => False) ∧
          (match v with
           | Tgt.dfa t => t ∈ A.states
           | Tgt.nfa ts => ts ≠ [] ∧ ts.Nodup ∧ ∀ t ∈ ts, t ∈ A.states) := by
        intro v hv
        rcases hv with rfl | ⟨ts, rfl, hts1, hts2, hts3⟩
        · rw [htype]
          exact ⟨trivial, by simp, List.nodup_singleton dst,
            fun t ht => by rw [List.mem_singleton] at ht; exact ht ▸ hd⟩
        · rw [htype]
          refine ⟨trivial, setAdd_ne_nil ts dst, setAdd_nodup hts2, ?_⟩
          intro t ht
          rcases mem_setAdd.mp ht with ht | ht
          · exact hts3 t ht
          · exact ht ▸ hd
      cases hge : objGet ((objGet A.transitions frm).getD []) sym with
      | none =>
        dsimp only
        refine ⟨hf, objSet_keys_nodup hrowk, ?_⟩
        intro e he
        rcases mem_objSet he with heold | henew
        · exact hrow e heold
        · subst henew
          exact hnewent _ (Or.inl rfl)
      | some tg =>
        cases tg with
        | dfa t =>
          dsimp only
          refine ⟨hf, objSet_keys_nodup hrowk, ?_⟩
          intro e he
          rcases mem_objSet he with heold | henew
          · exact hrow e heold
          · subst henew
            exact hnewent _ (Or.inl rfl)
        | nfa ts =>
          dsimp only
          refine ⟨hf, objSet_keys_nodup hrowk, ?_⟩
          intro e he
          rcases mem_objSet he with heold | henew
          · exact hrow e heold
          · subst henew
            rcases objGet_mem hge with ⟨e2, he2, he2k, he2v⟩
            obtain ⟨-, hv⟩ := hrow e2 he2
            rw [he2v] at hv
            exact hnewent _ (Or.inr ⟨ts, rfl, hv.1, hv.2.1, hv.2.2⟩)

theorem inv_set_row {A : Automaton} (h : Inv A) {frm : St} {row' : Row}
    (al : List Sym) (hf : frm ∈ A.states) (hk : (row'.map (·.1)).Nodup)
    (hents : ∀ e ∈ row',
      (match A.type, e.2 with
       | Kind.DFA, Tgt.dfa _ => True
       | Kind.NFA, Tgt.nfa _ => True
       | _, _ => False) ∧
      (match e.2 with
       | Tgt.dfa t => t ∈ A.states
       | Tgt.nfa ts => ts ≠ [] ∧ ts.Nodup ∧ ∀ t ∈ ts, t ∈ A.states)) :
    Inv { A with alphabet := al,
                 transitions := objSet A.transitions frm row' } := by
  obtain ⟨h1, h2, h3, h4, h5⟩ := h
  refine ⟨h1, h2, h3, h4, ?_⟩
  intro p hp
  rcases mem_objSet hp with hpold | hpnew
  · exact h5 p hpold
  · subst hpnew
    exact ⟨hf, hk, hents⟩

theorem objDel_keys_nodup {β : Type} {r : List (String × β)} (k : String)
    (h : (r.map (·.1)).Nodup) : ((objDel r k).map (·.1)).Nodup :=
  ((List.filter_sublist r).map (·.1)).nodup h

theorem mem_of_mem_objDel {β : Type} {r : List (String × β)} {k : String}
    {e : String × β} (h : e ∈ objDel r k) : e ∈ r :=
  (List.mem_filter.mp h).1

theorem inv_removeTransition {A : Automaton} (h : Inv A) (frm : St)
    (sym : Sym) (dst : St) : Inv (removeTransition A frm sym dst) := by
  unfold removeTransition
  cases hgf : objGet A.transitions frm with
  | none => exact h
  | some row =>
    dsimp only
    cases hge : objGet row sym with
    | none => exact h
    | some tg =>
      dsimp only
      split
      · exact h
      · obtain ⟨hfmem, hrowk, hrowe⟩ := row_inv_of_objGet h hgf
        have hgee := objGet_mem hge
        rcases hgee with ⟨e2, he2, he2k, he2v⟩
        obtain ⟨he2c, he2m⟩ := hrowe e2 he2
        cases htype : A.type with
        | DFA =>
          dsimp only
          rw [← htype]
          exact inv_set_row h _ hfmem (objDel_keys_nodup sym hrowk)
            (fun e he => hrowe e (mem_of_mem_objDel he))
        | NFA =>
          dsimp only
          cases tg with
          | nfa ts =>
            dsimp only
            split
            · rw [← htype]
              exact inv_set_row h _ hfmem (objDel_keys_nodup sym hrowk)
                (fun e he => hrowe e (mem_of_mem_objDel he))
            · next hne =>
              rw [← htype]
              refine inv_set_row h _ hfmem (objSet_keys_nodup hrowk) ?_
              intro e he
              rcases mem_objSet he with heold | henew
              · exact hrowe e heold
              · subst henew
                rw [he2v] at he2m
                rw [htype]
                exact ⟨trivial, hne, setDel_nodup he2m.2.1,
                  fun t ht => he2m.2.2 t (mem_of_mem_setDel ht)⟩
          | dfa t =>
            dsimp only
            rw [he2v, htype] at he2c
            cases he2c

theorem inv_removeState {A : Automaton} (h : Inv A) (s : St) :
    Inv (removeState A s) := by
  obtain ⟨h1, h2, h3, h4, h5⟩ := h
  unfold removeState
  refine ⟨setDel_nodup h1, setDel_nodup h2, ?_, ?_, ?_⟩
  · intro q hq
    dsimp only at hq
    split at hq
    · cases hq
    · next hne =>
      have hqs := h3 q hq
      have : q ≠ s := by
        intro he
        subst he
        exact hne hq
      exact (List.mem_erase_of_ne this).mpr hqs
  · intro q hq
    dsimp only at hq
    have hq1 := mem_of_mem_setDel hq
    have hq2 : q ≠ s := by
      intro he
      subst he
      exact not_mem_setDel_self h2 hq
    exact (List.mem_erase_of_ne hq2).mpr (h4 q hq1)
  · intro p hp
    dsimp only at hp
    rcases List.mem_filterMap.mp hp with ⟨p0, hp0, hf0⟩
    split at hf0
    · cases hf0
    · next hne0 =>
      obtain ⟨hp01, hp02, hp03⟩ := h5 p0 hp0
      injection hf0 with hf0e
      subst hf0e
      refine ⟨(List.mem_erase_of_ne hne0).mpr hp01, ?_, ?_⟩
      · cases A.type with
        | DFA => exact ((List.filter_sublist p0.2).map (·.1)).nodup hp02
        | NFA =>
          refine (filterMap_keys_sublist _ ?_ p0.2).nodup hp02
          intro e e' hge
          cases hv : e.2 with
          | nfa ts =>
            rw [hv] at hge
            dsimp only at hge
            split at hge
            · cases hge
            · injection hge with hge2
              rw [← hge2]
          | dfa t =>
            rw [hv] at hge
            dsimp only at hge
            injection hge with hge2
            rw [← hge2]
      · intro e he
        cases htype : A.type with
        | DFA =>
          rw [htype] at he
          dsimp only at he
          have hef := List.mem_filter.mp he
          obtain ⟨hec, hem⟩ := hp03 e hef.1
          rw [htype] at hec
          refine ⟨hec, ?_⟩
          cases hv : e.2 with
          | dfa t =>
            rw [hv] at hem hef
            have : t ≠ s := by
              intro heq
              subst heq
              simpa [hv] using hef.2
            exact (List.mem_erase_of_ne this).mpr hem
          | nfa ts =>
            rw [hv] at hec
            exact hec.elim
        | NFA =>
          rw [htype] at he
          dsimp only at he
          rcases List.mem_filterMap.mp he with ⟨e0, he0, hge⟩
          obtain ⟨hec, hem⟩ := hp03 e0 he0
          rw [htype] at hec
          cases hv : e0.2 with
          | dfa t =>
            rw [hv] at hec
            exact hec.elim
          | nfa ts =>
            rw [hv] at hge hem
            dsimp only at hge
            split at hge
            · cases hge
            · next hne2 =>
              injection hge with hge2
              subst hge2
              refine ⟨trivial, hne2, setDel_nodup hem.2.1, ?_⟩
              intro t ht
              have ht1 := mem_of_mem_setDel ht
              have ht2 : t ≠ s := by
                intro heq
                subst heq
                exact not_mem_setDel_self hem.2.1 ht
              exact (List.mem_erase_of_ne ht2).mpr (hem.2.2 t ht1)

theorem inv_applyOp {A : Automaton} (h : Inv A) (op : Op) :
    Inv (applyOp A op) := by
  cases op with
  | addSt s => exact inv_addState h s
  | rmSt s => exact inv_removeState h s
  | setInit s => exact inv_setInitialState h s
  | toggleFin s b => exact inv_toggleFinalState h s b
  | addTr f a t => exact inv_addTransition h f a t
  | rmTr f a t => exact inv_removeTransition h f a t

theorem inv_new (k : Kind) : Inv (Automaton.new k) := by
  refine ⟨List.nodup_nil, List.nodup_nil, ?_, ?_, ?_⟩
  · intro q hq
    cases hq
  · intro q hq
    cases hq
  · intro p hp
    cases hp

theorem inv_applyOps (ops : List Op) : ∀ (A : Automaton), Inv A →
    Inv (applyOps A ops) := by
  induction ops with
  | nil => intro A h; exact h
  | cons op rest ih =>
    intro A h
    exact ih (applyOp A op) (inv_applyOp h op)

theorem setInitialState_noop {A : Automaton} {q : St} (h : q ∉ A.states) :
    setInitialState A q = A := by
  unfold setInitialState
  rw [if_neg h]

theorem toggleFinalState_noop {A : Automaton} {q : St} (h : q ∉ A.states)
    (b : Bool) : toggleFinalState A q b = A := by
  unfold toggleFinalState
  rw [if_neg h]

theorem removeState_noop {A : Automaton} (hInv : Inv A) {q : St}
    (h : q ∉ A.states) : removeState A q = A := by
  obtain ⟨h1, h2, h3, h4, h5⟩ := hInv
  unfold removeState
  have e1 : setDel A.states q = A.states := List.erase_of_not_mem h
  have e2 : (if A.initialState = some q then none else A.initialState) =
      A.initialState := by
    split
    · next he => exact absurd (h3 q he) h
    · rfl
  have e3 : setDel A.finalStates q = A.finalStates :=
    List.erase_of_not_mem (fun hf => h (h4 q hf))
  have e4 : A.transitions.filterMap (fun p =>
      if p.1 = q then none
      else some (p.1, match A.type with
        | Kind.DFA => p.2.filter (fun e => e.2 ≠ .dfa q)
        | Kind.NFA => p.2.filterMap (fun e =>
            match e.2 with
            | .nfa ts =>
              let ts' := setDel ts q
              if ts' = [] then none else some (e.1, Tgt.nfa ts')
            | .dfa t => some (e.1, Tgt.dfa t)))) = A.transitions := by
    refine filterMap_id_of _ _ ?_
    intro p hp
    obtain ⟨hp1, hp2, hp3⟩ := h5 p hp
    rw [if_neg (fun he : p.1 = q => h (he ▸ hp1))]
    cases htype : A.type with
    | DFA =>
      dsimp only
      have hfe : p.2.filter (fun e => e.2 ≠ .dfa q) = p.2 := by
        rw [List.filter_eq_self]
        intro e he
        obtain ⟨-, hev⟩ := hp3 e he
        cases hv : e.2 with
        | dfa t =>
          rw [hv] at hev
          have hne : Tgt.dfa t ≠ Tgt.dfa q := by
            intro heq
            injection heq with heq2
            exact h (heq2 ▸ hev)
          simp [hv, hne]
        | nfa ts => simp [hv]
      rw [hfe]
    | NFA =>
      dsimp only
      have hfe : p.2.filterMap (fun e =>
          match e.2 with
          | Tgt.nfa ts =>
            let ts' := setDel ts q
            if ts' = [] then none else some (e.1, Tgt.nfa ts')
          | Tgt.dfa t => some (e.1, Tgt.dfa t)) = p.2 := by
        refine filterMap_id_of _ _ ?_
        intro e he
        obtain ⟨-, hev⟩ := hp3 e he
        dsimp only
        cases hv : e.2 with
        | dfa t =>
          dsimp only
          rw [← hv]
        | nfa ts =>
          rw [hv] at hev
          dsimp only
          have hq : q ∉ ts := fun hqin => h (hev.2.2 q hqin)
          simp only [setDel]
          rw [List.erase_of_not_mem hq, if_neg hev.1, ← hv]
      rw [hfe]
  rw [e1, e2, e3, e4]

theorem removeState_cascade {A : Automaton} (hInv : Inv A) (q : St) :
    q ∉ (removeState A q).states ∧
    (removeState A q).initialState ≠ some q ∧
    q ∉ (removeState A q).finalStates ∧
    (∀ p ∈ (removeState A q).transitions, p.1 ≠ q ∧
      ∀ e ∈ p.2, e.2 ≠ Tgt.dfa q ∧
        ∀ ts, e.2 = Tgt.nfa ts → q ∉ ts ∧ ts ≠ []) := by
  obtain ⟨h1, h2, h3, h4, h5⟩ := hInv
  unfold removeState
  refine ⟨not_mem_setDel_self h1, ?_, not_mem_setDel_self h2, ?_⟩
  · dsimp only
    split
    · exact Option.noConfusion
    · next hne => exact hne
  · intro p hp
    dsimp only at hp
    rcases List.mem_filterMap.mp hp with ⟨p0, hp0, hf0⟩
    split at hf0
    · cases hf0
    · next hne0 =>
      obtain ⟨hp01, hp02, hp03⟩ := h5 p0 hp0
      injection hf0 with hf0e
      subst hf0e
      refine ⟨hne0, ?_⟩
      intro e he
      cases htype : A.type with
      | DFA =>
        rw [htype] at he
        dsimp only at he
        have hef := List.mem_filter.mp he
        constructor
        · intro heq
          rw [heq] at hef
          simpa using hef.2
        · intro ts hts
          obtain ⟨hec, -⟩ := hp03 e hef.1
          rw [htype, hts] at hec
          exact hec.elim
      | NFA =>
        rw [htype] at he
        dsimp only at he
        rcases List.mem_filterMap.mp he with ⟨e0, he0, hge⟩
        obtain ⟨hec, hem⟩ := hp03 e0 he0
        rw [htype] at hec
        cases hv : e0.2 with
        | dfa t =>
          rw [hv] at hec
          exact hec.elim
        | nfa ts0 =>
          rw [hv] at hge hem
          dsimp only at hge
          split at hge
          · cases hge
          · next hne2 =>
            injection hge with hge2
            subst hge2
            constructor
            · intro heq
              cases heq
            · intro ts hts
              injection hts with hts2
              subst hts2
              exact ⟨not_mem_setDel_self hem.2.1, hne2⟩

theorem objGet_append_single {β : Type} {r : List (String × β)} {k : String}
    (v : β) (h : objGet r k = none) :
    objGet (r ++ [(k, v)]) k = some v := by
  induction r with
  | nil => simp [objGet]
  | cons p rest ih =>
    rw [objGet_cons] at h
    rw [List.cons_append, objGet_cons]
    by_cases hk : p.1 = k
    · rw [if_pos hk] at h
      cases h
    · rw [if_neg hk] at h ⊢
      exact ih h

theorem objGet_objSet_self {β : Type} (r : List (String × β)) (k : String)
    (v : β) : objGet (objSet r k v) k = some v := by
  unfold objSet
  by_cases hs : (List.find? (fun p => p.1 == k) r).isSome = true
  · rw [if_pos hs]
    induction r with
    | nil => simp at hs
    | cons p rest ih =>
      rw [List.map_cons]
      by_cases hk : (p.1 == k) = true
      · rw [if_pos hk, objGet_cons, if_pos rfl]
      · rw [if_neg hk, objGet_cons,
            if_neg (fun he : p.1 = k => hk (by simp [he]))]
        refine ih ?_
        simpa [List.find?_cons, hk] using hs
  · rw [if_neg hs]
    refine objGet_append_single v ?_
    unfold objGet
    rw [Option.not_isSome_iff_eq_none.mp (fun h => hs h)]
    rfl

theorem eps_not_mem_alphabet_applyOp {A : Automaton} (h : eps ∉ A.alphabet)
    (op : Op) : eps ∉ (applyOp A op).alphabet := by
  cases op with
  | addSt s => simpa using h
  | rmSt s => simpa using h
  | setInit s =>
    show eps ∉ (setInitialState A s).alphabet
    simpa using h
  | toggleFin s b =>
    show eps ∉ (toggleFinalState A s b).alphabet
    simpa using h
  | addTr f a t =>
    show eps ∉ (addTransition A f a t).alphabet
    unfold addTransition
    split
    · dsimp only
      split
      · next hne =>
        intro hm
        rcases mem_setAdd.mp hm with hm1 | hm2
        · exact h hm1
        · exact hne hm2.symm
      · exact h
    · exact h
  | rmTr f a t =>
    show eps ∉ (removeTransition A f a t).alphabet
    unfold removeTransition
    split
    · exact h
    · split
      · exact h
      · split
        · exact h
        · dsimp only
          split
          · simp only [setDel]
            intro hm
            exact h (List.mem_of_mem_erase hm)
          · exact h

theorem eps_not_mem_alphabet_applyOps (ops : List Op) : ∀ A : Automaton,
    eps ∉ A.alphabet → eps ∉ (applyOps A ops).alphabet := by
  induction ops with
  | nil => intro A h; exact h
  | cons op rest ih =>
    intro A h
    exact ih (applyOp A op) (eps_not_mem_alphabet_applyOp h op)

/-- C7: for every automaton built from an empty automaton by a sequence of
model-API operations, the structural invariant holds: the initial state (when
set), every transition source and target, and every final state are members of
`states`; an operation referencing a non-member state (setInitialState,
toggleFinalState, removeState on a non-member; addTransition with a non-member
endpoint) leaves the automaton unchanged instead of failing; and removeState
cascades, leaving no transition into or out of the removed state, no empty NFA
target set, and no stale initial/final membership. -/
theorem c7_model_invariants (k : Kind) (ops : List Op) (A : Automaton)
    (hA : A = applyOps (Automaton.new k) ops) :
    Inv A ∧
    (∀ q, A.initialState = some q → q ∈ A.states) ∧
    (∀ q ∈ A.finalStates, q ∈ A.states) ∧
    (∀ p ∈ A.transitions, p.1 ∈ A.states ∧ ∀ e ∈ p.2,
      (∀ t, e.2 = Tgt.dfa t → t ∈ A.states) ∧
      (∀ ts, e.2 = Tgt.nfa ts → ts ≠ [] ∧ ∀ t ∈ ts, t ∈ A.states)) ∧
    (∀ q, q ∉ A.states →
      setInitialState A q = A ∧ (∀ b, toggleFinalState A q b = A) ∧
      removeState A q = A) ∧
    (∀ f a t, ¬ (f ∈ A.states ∧ t ∈ A.states) → addTransition A f a t = A) ∧
    (∀ q, q ∉ (removeState A q).states ∧
      (removeState A q).initialState ≠ some q ∧
      q ∉ (removeState A q).finalStates ∧
      ∀ p ∈ (removeState A q).transitions, p.1 ≠ q ∧
        ∀ e ∈ p.2, e.2 ≠ Tgt.dfa q ∧
          ∀ ts, e.2 = Tgt.nfa ts → q ∉ ts ∧ ts ≠ []) := by
  subst hA
  have hInv := inv_applyOps ops (Automaton.new k) (inv_new k)
  obtain ⟨h1, h2, h3, h4, h5⟩ := hInv
  refine ⟨⟨h1, h2, h3, h4, h5⟩, h3, h4, ?_, ?_, ?_, ?_⟩
  · intro p hp
    obtain ⟨hp1, hp2, hp3⟩ := h5 p hp
    refine ⟨hp1, ?_⟩
    intro e he
    obtain ⟨-, hev⟩ := hp3 e he
    constructor
    · intro t ht
      rw [ht] at hev
      exact hev
    · intro ts hts
      rw [hts] at hev
      exact ⟨hev.1, hev.2.2⟩
  · intro q hq
    exact ⟨setInitialState_noop hq, fun b => toggleFinalState_noop hq b,
      removeState_noop ⟨h1, h2, h3, h4, h5⟩ hq⟩
  · intro f a t hft
    exact addTransition_eq_noop a hft
  · intro q
    exact removeState_cascade ⟨h1, h2, h3, h4, h5⟩ q

theorem c7_model_invariants_witness :
    Inv (applyOps (Automaton.new Kind.DFA) [Op.addSt "q0"]) ∧
    setInitialState (applyOps (Automaton.new Kind.DFA) [Op.addSt "q0"]) "q1"
      = applyOps (Automaton.new Kind.DFA) [Op.addSt "q0"] := by
  have h := c7_model_invariants Kind.DFA [Op.addSt "q0"]
    (applyOps (Automaton.new Kind.DFA) [Op.addSt "q0"]) rfl
  exact ⟨h.1, (h.2.2.2.2.1 "q1" (by decide)).1⟩

/-- C8 (amended): for every DFA-kind automaton built through the model API,
each (state, symbol) pair stores at most one target (rows have duplicate-free
symbol keys and every stored target is a single `Tgt.dfa`), and ε is never a
member of the alphabet; BUT `addTransition from ε to` on such an automaton
with member endpoints DOES store an ε-transition in the table (while leaving
the alphabet unchanged), contrary to the claim that it adds no transition. -/
theorem c8_dfa_single_target (ops : List Op) (A : Automaton)
    (hA : A = applyOps (Automaton.new Kind.DFA) ops) :
    (∀ p ∈ A.transitions, (p.2.map (·.1)).Nodup ∧
      ∀ e ∈ p.2, ∃ t, e.2 = Tgt.dfa t) ∧
    eps ∉ A.alphabet ∧
    ∀ f t, f ∈ A.states → t ∈ A.states →
      objGet ((objGet (addTransition A f eps t).transitions f).getD []) eps
          = some (Tgt.dfa t) ∧
      (addTransition A f eps t).alphabet = A.alphabet := by
  have htype : A.type = Kind.DFA := by
    rw [hA]
    exact type_applyOps ops (Automaton.new Kind.DFA)
  have hInv : Inv A := hA ▸ inv_applyOps ops (Automaton.new Kind.DFA)
    (inv_new Kind.DFA)
  obtain ⟨h1, h2, h3, h4, h5⟩ := hInv
  refine ⟨?_, ?_, ?_⟩
  · intro p hp
    obtain ⟨hp1, hp2, hp3⟩ := h5 p hp
    refine ⟨hp2, ?_⟩
    intro e he
    obtain ⟨hec, -⟩ := hp3 e he
    cases hv : e.2 with
    | dfa t => exact ⟨t, rfl⟩
    | nfa ts =>
      rw [htype, hv] at hec
      exact hec.elim
  · rw [hA]
    exact eps_not_mem_alphabet_applyOps ops (Automaton.new Kind.DFA)
      (fun h => List.not_mem_nil eps h)
  · intro f t hf ht
    rw [addTransition_eq_dfa eps htype ⟨hf, ht⟩]
    dsimp only
    constructor
    · rw [objGet_objSet_self]
      rw [Option.getD_some]
      exact objGet_objSet_self _ eps (Tgt.dfa t)
    · rw [if_neg (fun hne : eps ≠ eps => hne rfl)]

theorem c8_dfa_single_target_witness :
    objGet ((objGet (addTransition (applyOps (Automaton.new Kind.DFA)
        [Op.addSt "q0", Op.addSt "q1"]) "q0" eps "q1").transitions
        "q0").getD []) eps = some (Tgt.dfa "q1") :=
  ((c8_dfa_single_target [Op.addSt "q0", Op.addSt "q1"]
      (applyOps (Automaton.new Kind.DFA) [Op.addSt "q0", Op.addSt "q1"])
      rfl).2.2 "q0" "q1" (by decide) (by decide)).1


/-- C9 (amended): `isDeterministic` returns true when the automaton has zero
states or an empty alphabet; otherwise it returns false exactly when some
transition row has a truthy ε-entry, or the automaton is NFA-typed with at
least two states and some (state, symbol-in-the-alphabet) pair has a target
set with more than one element; a multi-target transition on a symbol outside
the current alphabet is NOT detected.  The call never mutates the automaton. -/
theorem c9_determinism_characterised (A : Automaton) :
    (isDeterministic A = true ↔
      A.states = [] ∨ A.alphabet = [] ∨
      ((¬ ∃ p ∈ A.transitions, ∃ t, objGet p.2 eps = some t ∧
          t.truthy = true) ∧
        (A.states.length ≤ 1 ∨ A.type = Kind.DFA ∨
          ∀ q ∈ A.states, ∀ a ∈ A.alphabet, ∀ ts,
            objGet ((objGet A.transitions q).getD []) a = some (Tgt.nfa ts) →
            ts.length ≤ 1))) ∧
    isDeterministicM A = (isDeterministic A, A) := by
  refine ⟨?_, rfl⟩
  unfold isDeterministic
  by_cases h1 : A.states.length = 0 ∨ A.alphabet.length = 0
  · rw [if_pos h1]
    simp only [true_iff]
    rcases h1 with h1 | h1
    · exact Or.inl (List.length_eq_zero.mp h1)
    · exact Or.inr (Or.inl (List.length_eq_zero.mp h1))
  · rw [if_neg h1]
    push_neg at h1
    have hs0 : A.states ≠ [] := fun he => h1.1 (by simp [he])
    have ha0 : A.alphabet ≠ [] := fun he => h1.2 (by simp [he])
    by_cases h2 : (A.transitions.any (fun p =>
        match objGet p.2 eps with
        | some t => t.truthy
        | none => false)) = true
    · rw [if_pos h2]
      refine iff_of_false (by simp) ?_
      rintro (he | he | he)
      · exact hs0 he
      · exact ha0 he
      · rcases List.any_eq_true.mp h2 with ⟨p, hp, hpe⟩
        refine he.1 ⟨p, hp, ?_⟩
        cases hg : objGet p.2 eps with
        | none =>
          rw [hg] at hpe
          cases hpe
        | some t =>
          rw [hg] at hpe
          exact ⟨t, rfl, hpe⟩
    · rw [if_neg h2]
      have h2' : ∀ p ∈ A.transitions, ∀ t, objGet p.2 eps = some t →
          t.truthy = false := by
        intro p hp t hg
        cases ht : t.truthy
        · rfl
        · exfalso
          refine h2 (List.any_eq_true.mpr ⟨p, hp, ?_⟩)
          dsimp only
          rw [hg]
          exact ht
      by_cases h3 : (A.states.any (fun q =>
          let row := (objGet A.transitions q).getD []
          A.alphabet.any (fun a =>
            if A.states.length ≤ 1 then false
            else match A.type with
              | Kind.NFA =>
                (match objGet row a with
                 | some (Tgt.nfa ts) => ts.length > 1
                 | _ => false)
              | Kind.DFA => false))) = true
      · rw [if_pos h3]
        refine iff_of_false (by simp) ?_
        rintro (he | he | he)
        · exact hs0 he
        · exact ha0 he
        · rcases List.any_eq_true.mp h3 with ⟨q, hq, hqe⟩
          dsimp only at hqe
          rcases List.any_eq_true.mp hqe with ⟨a, ha, hae⟩
          by_cases hlen : A.states.length ≤ 1
          · rw [if_pos hlen] at hae
            cases hae
          · rw [if_neg hlen] at hae
            rcases he.2 with hle | htype | hall
            · exact hlen hle
            · rw [htype] at hae
              cases hae
            · cases htype : A.type with
              | DFA =>
                rw [htype] at hae
                cases hae
              | NFA =>
                rw [htype] at hae
                cases hg : objGet ((objGet A.transitions q).getD []) a with
                | none =>
                  rw [hg] at hae
                  cases hae
                | some t =>
                  cases t with
                  | dfa t1 =>
                    rw [hg] at hae
                    cases hae
                  | nfa ts =>
                    rw [hg] at hae
                    have hle2 := hall q hq a ha ts hg
                    have hgt := of_decide_eq_true hae
                    omega
      · rw [if_neg h3]
        simp only [true_iff]
        refine Or.inr (Or.inr ⟨?_, ?_⟩)
        · rintro ⟨p, hp, t, hg, ht⟩
          have hft := h2' p hp t hg
          rw [ht] at hft
          cases hft
        · by_cases hlen : A.states.length ≤ 1
          · exact Or.inl hlen
          · cases htype : A.type with
            | DFA => exact Or.inr (Or.inl rfl)
            | NFA =>
              refine Or.inr (Or.inr ?_)
              intro q hq a ha ts hg
              by_contra hc
              push_neg at hc
              refine h3 (List.any_eq_true.mpr ⟨q, hq, ?_⟩)
              dsimp only
              refine List.any_eq_true.mpr ⟨a, ha, ?_⟩
              rw [if_neg hlen, htype, hg]
              exact decide_eq_true hc


theorem exists_of_findSome?_eq_some {α β : Type} {f : α → Option β}
    {l : List α} {b : β} (h : l.findSome? f = some b) :
    ∃ a ∈ l, f a = some b := by
  induction l with
  | nil => cases h
  | cons x xs ih =>
    rw [List.findSome?_cons] at h
    cases hf : f x with
    | some v =>
      rw [hf] at h
      exact ⟨x, List.mem_cons_self x xs, hf.trans h⟩
    | none =>
      rw [hf] at h
      rcases ih h with ⟨a, ha, hfa⟩
      exact ⟨a, List.mem_cons_of_mem x ha, hfa⟩

theorem mem_foldl_setAdd {l : List String} : ∀ {acc : List String}
    {q : String}, q ∈ l.foldl setAdd acc → q ∈ acc ∨ q ∈ l := by
  induction l with
  | nil => intro acc q h; exact Or.inl h
  | cons x xs ih =>
    intro acc q h
    rcases ih h with h1 | h1
    · rcases mem_setAdd.mp h1 with h2 | h2
      · exact Or.inl h2
      · exact Or.inr (h2 ▸ List.mem_cons_self x xs)
    · exact Or.inr (List.mem_cons_of_mem x h1)

theorem groupAdd_sub {P : St → Prop} {gs : List (Int × List St)} {i : Int}
    {q : St} (hgs : ∀ g ∈ gs, g.2 ≠ [] ∧ ∀ x ∈ g.2, P x) (hq : P q) :
    ∀ g ∈ groupAdd gs i q, g.2 ≠ [] ∧ ∀ x ∈ g.2, P x := by
  intro g hg
  unfold groupAdd at hg
  split at hg
  · rcases List.mem_map.mp hg with ⟨g0, hg0, he⟩
    by_cases hk : (g0.1 == i) = true
    · rw [if_pos hk] at he
      subst he
      refine ⟨by simp, ?_⟩
      intro x hx
      rcases List.mem_append.mp hx with h | h
      · exact (hgs g0 hg0).2 x h
      · rw [List.mem_singleton.mp h]
        exact hq
    · rw [if_neg hk] at he
      exact he ▸ hgs g0 hg0
  · rcases List.mem_append.mp hg with h | h
    · exact hgs g h
    · have hge : g = (i, [q]) := by simpa using h
      subst hge
      refine ⟨by simp, ?_⟩
      intro x hx
      rw [List.mem_singleton.mp hx]
      exact hq

theorem splitOnSymbol_sub {A : Automaton} {parts : List (List St)}
    {part : List St} {a : Sym} :
    ∀ g ∈ splitOnSymbol A parts part a, g.2 ≠ [] ∧ ∀ x ∈ g.2, x ∈ part := by
  unfold splitOnSymbol
  have main : ∀ (qs : List St), (∀ q ∈ qs, q ∈ part) →
      ∀ (gs0 : List (Int × List St)),
      (∀ g ∈ gs0, g.2 ≠ [] ∧ ∀ x ∈ g.2, x ∈ part) →
      ∀ g ∈ qs.foldl (fun gs q => groupAdd gs (targetIdx A parts q a) q) gs0,
        g.2 ≠ [] ∧ ∀ x ∈ g.2, x ∈ part := by
    intro qs
    induction qs with
    | nil => intro _ gs0 h0 g hg; exact h0 g hg
    | cons x xs ih =>
      intro hqs gs0 h0
      exact ih (fun q hq => hqs q (List.mem_cons_of_mem x hq)) _
        (groupAdd_sub h0 (hqs x (List.mem_cons_self x xs)))
  exact main part (fun q hq => hq) [] (fun g hg => absurd hg
    (List.not_mem_nil g))

theorem splitPartition_sub {A : Automaton} {part : List St}
    {parts : List (List St)} (hne : part ≠ []) :
    ∀ b ∈ splitPartition A part parts, b ≠ [] ∧ ∀ x ∈ b, x ∈ part := by
  intro b hb
  unfold splitPartition at hb
  split at hb
  · have hbe : b = part := by simpa using hb
    subst hbe
    exact ⟨hne, fun x hx => hx⟩
  · split at hb
    · next groups hfs =>
      rcases exists_of_findSome?_eq_some hfs with ⟨a, ha, hsome⟩
      dsimp only at hsome
      split at hsome
      · injection hsome with hge
        subst hge
        rcases List.mem_map.mp hb with ⟨g, hg, hge⟩
        subst hge
        exact splitOnSymbol_sub g hg
      · cases hsome
    · have hbe : b = part := by simpa using hb
      subst hbe
      exact ⟨hne, fun x hx => hx⟩

theorem refineRound_sub {A : Automaton} {P : St → Prop}
    {parts : List (List St)} (hparts : ∀ b ∈ parts, b ≠ [] ∧ ∀ x ∈ b, P x) :
    ∀ b ∈ (refineRound A parts).1, b ≠ [] ∧ ∀ x ∈ b, P x := by
  unfold refineRound
  have main : ∀ (ps : List (List St)), (∀ b ∈ ps, b ≠ [] ∧ ∀ x ∈ b, P x) →
      ∀ (st0 : List (List St) × Bool),
      (∀ b ∈ st0.1, b ≠ [] ∧ ∀ x ∈ b, P x) →
      ∀ b ∈ (ps.foldl (fun st p =>
          let splits := splitPartition A p parts
          if splits.length > 1 then (st.1 ++ splits, true)
          else (st.1 ++ [p], st.2)) st0).1,
        b ≠ [] ∧ ∀ x ∈ b, P x := by
    intro ps
    induction ps with
    | nil => intro _ st0 h0 b hb; exact h0 b hb
    | cons p rest ih =>
      intro hps st0 h0
      refine ih (fun b hb => hps b (List.mem_cons_of_mem p hb)) _ ?_
      have hp := hps p (List.mem_cons_self p rest)
      dsimp only
      split
      · intro b hb
        rcases List.mem_append.mp hb with h | h
        · exact h0 b h
        · obtain ⟨hbne, hbsub⟩ := splitPartition_sub hp.1 b h
          exact ⟨hbne, fun x hx => hp.2 x (hbsub x hx)⟩
      · intro b hb
        rcases List.mem_append.mp hb with h | h
        · exact h0 b h
        · have hbe : b = p := by simpa using h
          subst hbe
          exact hp
  exact main parts hparts ([], false) (fun b hb => absurd hb
    (List.not_mem_nil b))

theorem refineLoop_sub {A : Automaton} {P : St → Prop} :
    ∀ (fuel : Nat) (parts : List (List St)),
    (∀ b ∈ parts, b ≠ [] ∧ ∀ x ∈ b, P x) →
    ∀ b ∈ refineLoop A fuel parts, b ≠ [] ∧ ∀ x ∈ b, P x := by
  intro fuel
  induction fuel with
  | zero => intro parts h b hb; exact h b hb
  | succ n ih =>
    intro parts h
    show ∀ b ∈ (if (refineRound A parts).2 then
        refineLoop A n (refineRound A parts).1 else (refineRound A parts).1),
      b ≠ [] ∧ ∀ x ∈ b, P x
    split
    · exact ih _ (refineRound_sub h)
    · exact refineRound_sub h

/-- C6 (amended): the blocks `minimize` refines are built from ALL final
states (reachable or not) plus the reachable non-final states; hence every
block of the final partition is nonempty and contains only states that are
final or reachable, and an unreachable non-final state contributes nothing.
(The original claim said all unreachable states are discarded;
`c6_cex_partitions` shows an unreachable FINAL state surviving.) -/
theorem c6_minimize_blocks (A : Automaton) :
    ∀ b ∈ minimizePartitions A, b ≠ [] ∧
      ∀ q ∈ b, q ∈ A.finalStates ∨ q ∈ getReachableStates A := by
  unfold minimizePartitions
  refine refineLoop_sub _ _ ?_
  intro b hb
  rcases List.mem_append.mp hb with h | h
  · split at h
    · have hbe : b = A.finalStates.foldl setAdd [] := by simpa using h
      subst hbe
      next hne =>
      refine ⟨hne, ?_⟩
      intro q hq
      rcases mem_foldl_setAdd hq with h1 | h1
      · exact absurd h1 (List.not_mem_nil q)
      · exact Or.inl h1
    · exact absurd h (List.not_mem_nil b)
  · split at h
    · have hbe : b = (getReachableStates A).filter
          (fun q => q ∉ A.finalStates) := by simpa using h
      subst hbe
      next hne =>
      refine ⟨hne, ?_⟩
      intro q hq
      exact Or.inr (List.mem_of_mem_filter hq)
    · exact absurd h (List.not_mem_nil b)

/-- A three-state DFA whose minimization keeps the two equivalent final
states in one block. -/
def c6W : Automaton :=
  { type := .DFA
    states := ["s0", "s1", "s2"]
    alphabet := ["x"]
    transitions := [("s0", [("x", .dfa "s1")]), ("s1", [("x", .dfa "s2")]),
      ("s2", [("x", .dfa "s1")])]
    initialState := some "s0"
    finalStates := ["s1", "s2"] }

theorem c6_minimize_blocks_witness :
    ["s1", "s2"] ∈ minimizePartitions c6W ∧ (["s1", "s2"] ≠ [] ∧
      ∀ q ∈ ["s1", "s2"], q ∈ c6W.finalStates ∨ q ∈ getReachableStates c6W) :=
  ⟨by decide, c6_minimize_blocks c6W ["s1", "s2"] (by decide)⟩


theorem objGet_eq_none {β : Type} {r : List (String × β)} {k : String}
    (h : ∀ p ∈ r, p.1 ≠ k) : objGet r k = none := by
  unfold objGet
  rw [List.find?_eq_none.mpr]
  · rfl
  · intro p hp
    simpa using h p hp

theorem objSet_of_absent {β : Type} {r : List (String × β)} {k : String}
    (v : β) (h : ∀ p ∈ r, p.1 ≠ k) : objSet r k v = r ++ [(k, v)] := by
  unfold objSet
  rw [if_neg]
  rw [List.find?_eq_none.mpr]
  · simp
  · intro p hp
    simpa using h p hp

theorem objSet_append_last {β : Type} {r : List (String × β)} {k : String}
    (v v' : β) (h : ∀ p ∈ r, p.1 ≠ k) :
    objSet (r ++ [(k, v)]) k v' = r ++ [(k, v')] := by
  unfold objSet
  rw [if_pos]
  · induction r with
    | nil => simp
    | cons p rest ih =>
      rw [List.cons_append, List.map_cons,
        if_neg (by simpa using h p (List.mem_cons_self p rest))]
      rw [List.cons_append]
      congr 1
      exact ih (fun q hq => h q (List.mem_cons_of_mem p hq))
  · rw [List.find?_append, List.find?_eq_none.mpr (fun p hp => by
      simpa using h p hp)]
    simp

/-- The automaton that agrees with `A` on every field except the transition
table (the changing accumulator of the `fromJSON` replay). -/
def withTable (A : Automaton) (T : List (St × Row)) : Automaton :=
  { type := A.type, states := A.states, alphabet := A.alphabet,
    initialState := A.initialState, finalStates := A.finalStates,
    transitions := T }

theorem addTransition_withTable {A : Automaton} {T : List (St × Row)}
    {k sym t : St} (hk : k ∈ A.states) (ht : t ∈ A.states)
    (hsym : sym = eps ∨ sym ∈ A.alphabet) :
    addTransition (withTable A T) k sym t =
      withTable A (objSet T k
        (match A.type with
         | Kind.DFA => objSet ((objGet T k).getD []) sym (Tgt.dfa t)
         | Kind.NFA =>
           match objGet ((objGet T k).getD []) sym with
           | some (Tgt.nfa ts) =>
             objSet ((objGet T k).getD []) sym (Tgt.nfa (setAdd ts t))
           | _ => objSet ((objGet T k).getD []) sym (Tgt.nfa [t]))) := by
  unfold addTransition withTable
  dsimp only
  rw [if_pos ⟨hk, ht⟩]
  have halpha : (if sym ≠ eps then setAdd A.alphabet sym else A.alphabet) =
      A.alphabet := by
    rcases hsym with h | h
    · rw [if_neg (fun hne => hne h)]
    · split
      · exact setAdd_of_mem h
      · rfl
  rw [halpha]


theorem replay_targets {A : Automaton} (htype : A.type = Kind.NFA)
    {prev : List (St × Row)} {k sym : St} {done : Row}
    (hk : k ∈ A.states) (hprev : ∀ p ∈ prev, p.1 ≠ k)
    (hsym : sym = eps ∨ sym ∈ A.alphabet)
    (hdone : ∀ e ∈ done, e.1 ≠ sym) :
    ∀ (rest ts : List St), (∀ x ∈ rest, x ∈ A.states) →
      (∀ x ∈ rest, x ∉ ts) → rest.Nodup →
      rest.foldl (fun a3 t => addTransition a3 k sym t)
        (withTable A (prev ++ [(k, done ++ [(sym, Tgt.nfa ts)])]))
        = withTable A (prev ++ [(k, done ++ [(sym, Tgt.nfa (ts ++ rest))])]) := by
  intro rest
  induction rest with
  | nil =>
    intro ts _ _ _
    simp
  | cons t rest' ih =>
    intro ts hmem hfresh hnd
    rw [List.foldl_cons,
      addTransition_withTable hk (hmem t (List.mem_cons_self t rest')) hsym,
      htype]
    have hrow : objGet (prev ++ [(k, done ++ [(sym, Tgt.nfa ts)])]) k
        = some (done ++ [(sym, Tgt.nfa ts)]) :=
      objGet_append_single _ (objGet_eq_none hprev)
    rw [hrow, Option.getD_some]
    have hrowg : objGet (done ++ [(sym, Tgt.nfa ts)]) sym = some (Tgt.nfa ts) :=
      objGet_append_single _ (objGet_eq_none hdone)
    rw [hrowg]
    dsimp only
    rw [setAdd_of_not_mem (hfresh t (List.mem_cons_self t rest')),
      objSet_append_last _ _ hdone, objSet_append_last _ _ hprev]
    have hres := ih (ts ++ [t])
      (fun x hx => hmem x (List.mem_cons_of_mem t hx))
      (fun x hx hxm => by
        rcases List.mem_append.mp hxm with h | h
        · exact hfresh x (List.mem_cons_of_mem t hx) h
        · rw [List.mem_singleton.mp h] at hx
          exact (List.nodup_cons.mp hnd).1 hx)
      (List.nodup_cons.mp hnd).2
    rw [hres, List.append_assoc]
    rfl

theorem replay_entries {A : Automaton} {prev : List (St × Row)} {k : St}
    (hk : k ∈ A.states) (hprev : ∀ p ∈ prev, p.1 ≠ k) :
    ∀ (es done : Row),
      ((done ++ es).map (·.1)).Nodup →
      (∀ e ∈ es, (e.1 = eps ∨ e.1 ∈ A.alphabet) ∧
        (match A.type, e.2 with
         | Kind.DFA, Tgt.dfa t => t ∈ A.states
         | Kind.NFA, Tgt.nfa ts => ts ≠ [] ∧ ts.Nodup ∧ ∀ x ∈ ts, x ∈ A.states
         | _, _ => False)) →
      es.foldl (fromJSONEntry A.type k)
        (withTable A (prev ++ [(k, done)]))
        = withTable A (prev ++ [(k, done ++ es)]) := by
  intro es
  induction es with
  | nil =>
    intro done _ _
    simp
  | cons e es' ih =>
    intro done hnd hval
    obtain ⟨hsym, hkind⟩ := hval e (List.mem_cons_self e es')
    have hdone : ∀ e2 ∈ done, e2.1 ≠ e.1 := by
      intro e2 he2 heq
      have h1 : e2.1 ∈ (done.map (·.1)) := List.mem_map_of_mem _ he2
      have h2 : e.1 ∈ ((e :: es').map (·.1)) :=
        List.mem_map_of_mem _ (List.mem_cons_self e es')
      have hdisj := (List.nodup_append.mp (by simpa using hnd)).2.2
      rw [heq] at h1
      exact hdisj h1 h2
    have hstep : fromJSONEntry A.type k
        (withTable A (prev ++ [(k, done)])) e
        = withTable A (prev ++ [(k, done ++ [e])]) := by
      unfold fromJSONEntry
      cases htype : A.type with
      | DFA =>
        rw [htype] at hkind
        cases hv : e.2 with
        | nfa ts =>
          rw [hv] at hkind
          exact hkind.elim
        | dfa t =>
          rw [hv] at hkind
          dsimp only
          rw [addTransition_withTable hk hkind hsym, htype]
          have hrow : objGet (prev ++ [(k, done)]) k = some done :=
            objGet_append_single _ (objGet_eq_none hprev)
          rw [hrow, Option.getD_some, objSet_of_absent _ hdone,
            objSet_append_last _ _ hprev, ← hv]
      | NFA =>
        rw [htype] at hkind
        cases hv : e.2 with
        | dfa t =>
          rw [hv] at hkind
          exact hkind.elim
        | nfa ts =>
          rw [hv] at hkind
          obtain ⟨hts0, htsnd, htsmem⟩ := hkind
          dsimp only
          cases hts : ts with
          | nil => exact absurd hts hts0
          | cons t0 ts' =>
            rw [List.foldl_cons,
              addTransition_withTable hk (htsmem t0 (hts ▸
                List.mem_cons_self t0 ts')) hsym, htype]
            have hrow : objGet (prev ++ [(k, done)]) k = some done :=
              objGet_append_single _ (objGet_eq_none hprev)
            rw [hrow, Option.getD_some]
            rw [objGet_eq_none hdone]
            dsimp only
            rw [objSet_of_absent _ hdone, objSet_append_last _ _ hprev]
            rw [hts] at htsnd
            have hres := replay_targets htype hk hprev hsym hdone ts' [t0]
              (fun x hx => htsmem x (hts ▸ List.mem_cons_of_mem t0 hx))
              (fun x hx hxm => (List.nodup_cons.mp htsnd).1
                ((List.mem_singleton.mp hxm) ▸ hx))
              (List.nodup_cons.mp htsnd).2
            rw [hres, List.singleton_append, ← hts, ← hv]
    rw [List.foldl_cons, hstep]
    have := ih (done ++ [e]) (by simpa using hnd)
      (fun e2 he2 => hval e2 (List.mem_cons_of_mem e he2))
    rw [this, List.append_assoc]
    rfl

theorem replay_entry_first {A : Automaton} {prev : List (St × Row)} {k : St}
    (hk : k ∈ A.states) (hprev : ∀ p ∈ prev, p.1 ≠ k) {e : Sym × Tgt}
    (hsym : e.1 = eps ∨ e.1 ∈ A.alphabet)
    (hkind : match A.type, e.2 with
      | Kind.DFA, Tgt.dfa t => t ∈ A.states
      | Kind.NFA, Tgt.nfa ts => ts ≠ [] ∧ ts.Nodup ∧ ∀ x ∈ ts, x ∈ A.states
      | _, _ => False) :
    fromJSONEntry A.type k (withTable A prev) e
      = withTable A (prev ++ [(k, [e])]) := by
  have hnilrow : ∀ (v : Tgt), objSet ([] : Row) e.1 v = [(e.1, v)] :=
    fun v => objSet_of_absent v (fun p hp => absurd hp (List.not_mem_nil p))
  unfold fromJSONEntry
  cases htype : A.type with
  | DFA =>
    rw [htype] at hkind
    cases hv : e.2 with
    | nfa ts =>
      rw [hv] at hkind
      exact hkind.elim
    | dfa t =>
      rw [hv] at hkind
      dsimp only
      rw [addTransition_withTable hk hkind hsym, htype]
      rw [objGet_eq_none hprev, Option.getD_none, hnilrow,
        objSet_of_absent _ hprev, ← hv]
  | NFA =>
    rw [htype] at hkind
    cases hv : e.2 with
    | dfa t =>
      rw [hv] at hkind
      exact hkind.elim
    | nfa ts =>
      rw [hv] at hkind
      obtain ⟨hts0, htsnd, htsmem⟩ := hkind
      dsimp only
      cases hts : ts with
      | nil => exact absurd hts hts0
      | cons t0 ts' =>
        rw [List.foldl_cons,
          addTransition_withTable hk (htsmem t0 (hts ▸
            List.mem_cons_self t0 ts')) hsym, htype]
        rw [objGet_eq_none hprev, Option.getD_none]
        rw [objGet_nil]
        dsimp only
        rw [hnilrow, objSet_of_absent _ hprev]
        have hres := replay_targets htype hk hprev hsym
          (fun e2 he2 => absurd he2 (List.not_mem_nil e2)) ts' [t0]
          (fun x hx => htsmem x (hts ▸ List.mem_cons_of_mem t0 hx))
          (fun x hx hxm => (List.nodup_cons.mp (hts ▸ htsnd)).1
            ((List.mem_singleton.mp hxm) ▸ hx))
          (List.nodup_cons.mp (hts ▸ htsnd)).2
        rw [List.nil_append] at hres
        rw [hres, List.singleton_append, ← hts, ← hv, List.nil_append]

theorem replay_rows {A : Automaton} :
    ∀ (rows prev : List (St × Row)),
      ((prev.map (·.1)) ++ (rows.map (·.1))).Nodup →
      (∀ p ∈ rows, p.1 ∈ A.states ∧ p.2 ≠ [] ∧ ((p.2.map (·.1)).Nodup) ∧
        ∀ e ∈ p.2, (e.1 = eps ∨ e.1 ∈ A.alphabet) ∧
          (match A.type, e.2 with
           | Kind.DFA, Tgt.dfa t => t ∈ A.states
           | Kind.NFA, Tgt.nfa ts =>
             ts ≠ [] ∧ ts.Nodup ∧ ∀ x ∈ ts, x ∈ A.states
           | _, _ => False)) →
      rows.foldl (fun acc p => p.2.foldl (fromJSONEntry A.type p.1) acc)
        (withTable A prev)
        = withTable A (prev ++ rows) := by
  intro rows
  induction rows with
  | nil =>
    intro prev _ _
    simp
  | cons p rest ih =>
    intro prev hnd hval
    obtain ⟨hp1, hp2, hp3, hp4⟩ := hval p (List.mem_cons_self p rest)
    have hprev : ∀ q ∈ prev, q.1 ≠ p.1 := by
      intro q hq heq
      have h1 : q.1 ∈ prev.map (·.1) := List.mem_map_of_mem _ hq
      have h2 : p.1 ∈ (p :: rest).map (·.1) :=
        List.mem_map_of_mem _ (List.mem_cons_self p rest)
      rw [heq] at h1
      exact (List.nodup_append.mp hnd).2.2 h1 h2
    rw [List.foldl_cons]
    have hrowstep : p.2.foldl (fromJSONEntry A.type p.1) (withTable A prev)
        = withTable A (prev ++ [p]) := by
      cases hes : p.2 with
      | nil => exact absurd hes hp2
      | cons e es' =>
        rw [List.foldl_cons]
        rw [replay_entry_first hp1 hprev
          (hp4 e (hes ▸ List.mem_cons_self e es')).1
          (hp4 e (hes ▸ List.mem_cons_self e es')).2]
        have hrest := replay_entries hp1 hprev es' [e]
          (by rw [List.singleton_append, ← hes]; exact hp3)
          (fun e2 he2 => hp4 e2 (hes ▸ List.mem_cons_of_mem e he2))
        rw [hrest, List.singleton_append, ← hes]
    rw [hrowstep]
    have hnd2 : ((prev ++ [p]).map (·.1) ++ rest.map (·.1)).Nodup := by
      have he : (prev ++ [p]).map (·.1) ++ rest.map (·.1)
          = prev.map (·.1) ++ (p :: rest).map (·.1) := by
        simp
      rw [he]
      exact hnd
    have := ih (prev ++ [p]) hnd2
      (fun q hq => hval q (List.mem_cons_of_mem p hq))
    rw [this]
    simp


theorem foldl_setAdd_eq (l : List String) : ∀ acc, l.Nodup →
    (∀ x ∈ l, x ∉ acc) → l.foldl setAdd acc = acc ++ l := by
  induction l with
  | nil =>
    intro acc _ _
    simp
  | cons x xs ih =>
    intro acc hnd hdis
    have h2 := ih (acc ++ [x]) (List.nodup_cons.mp hnd).2 (fun y hy hmem => by
      rcases List.mem_append.mp hmem with h | h
      · exact hdis y (List.mem_cons_of_mem x hy) h
      · exact (List.nodup_cons.mp hnd).1 ((List.mem_singleton.mp h) ▸ hy))
    rw [List.foldl_cons, setAdd_of_not_mem (hdis x (List.mem_cons_self x xs)),
      h2]
    simp

theorem foldl_addState (l : List St) : ∀ acc : Automaton,
    l.foldl addState acc = { acc with states := l.foldl setAdd acc.states } := by
  induction l with
  | nil => intro acc; rfl
  | cons x xs ih =>
    intro acc
    rw [List.foldl_cons, ih]
    rfl

theorem foldl_toggleFinal (l : List St) : ∀ acc : Automaton,
    (∀ s ∈ l, s ∈ acc.states) →
    l.foldl (fun a s => toggleFinalState a s true) acc
      = { acc with finalStates := l.foldl setAdd acc.finalStates } := by
  induction l with
  | nil => intro acc _; rfl
  | cons x xs ih =>
    intro acc hmem
    have hx : toggleFinalState acc x true
        = { acc with finalStates := setAdd acc.finalStates x } := by
      unfold toggleFinalState
      rw [if_pos (hmem x (List.mem_cons_self x xs)), if_pos rfl]
    rw [List.foldl_cons, hx]
    exact ih _ (fun s hs => hmem s (List.mem_cons_of_mem x hs))

/-- The representation hypotheses of claim C3's round-trip, beyond
`structValidB`: no empty transition row, duplicate-free row keys,
kind-consistent targets, and no empty (and no duplicated) NFA target set. -/
def rowsOkB (A : Automaton) : Bool :=
  A.transitions.all (fun p => !p.2.isEmpty &&
    decide ((p.2.map (·.1)).Nodup) &&
    p.2.all (fun e =>
      match A.type, e.2 with
      | Kind.DFA, Tgt.dfa _ => true
      | Kind.NFA, Tgt.nfa ts => !ts.isEmpty && decide ts.Nodup
      | _, _ => false))


/-- C3 (amended): for every automaton that is structurally valid in the
claim's sense AND whose transition table satisfies the representation
invariants the spec states for `TransitionTable` (no empty row, no empty NFA
target set, duplicate-free keys and sets, kind-consistent targets),
`fromJSON (toJSON A)` is structurally equal to `A`.  (`c3_cex_roundtrip`
shows the claim fails without the no-empty-row hypothesis.) -/
theorem c3_roundtrip (A : Automaton) (hSV : StructValid A)
    (hstN : A.states.Nodup) (haN : A.alphabet.Nodup)
    (hfN : A.finalStates.Nodup)
    (hkeys : (A.transitions.map (·.1)).Nodup)
    (hrows : rowsOkB A = true) :
    fromJSON (toJSON A) = A := by
  have hSV' := hSV
  simp only [StructValid, structValidB, Bool.and_eq_true, List.all_eq_true,
    Bool.or_eq_true, decide_eq_true_eq, beq_iff_eq] at hSV'
  obtain ⟨⟨-, hfs⟩, htr⟩ := hSV'
  unfold rowsOkB at hrows
  simp only [Bool.and_eq_true, List.all_eq_true, decide_eq_true_eq,
    Bool.not_eq_true', List.isEmpty_eq_false] at hrows
  have hrowsP : ∀ p ∈ A.transitions, p.1 ∈ A.states ∧ p.2 ≠ [] ∧
      ((p.2.map (·.1)).Nodup) ∧
      ∀ e ∈ p.2, (e.1 = eps ∨ e.1 ∈ A.alphabet) ∧
        (match A.type, e.2 with
         | Kind.DFA, Tgt.dfa t => t ∈ A.states
         | Kind.NFA, Tgt.nfa ts =>
           ts ≠ [] ∧ ts.Nodup ∧ ∀ x ∈ ts, x ∈ A.states
         | _, _ => False) := by
    intro p hp
    obtain ⟨hp1, hp2⟩ := htr p hp
    obtain ⟨⟨hq1, hq2⟩, hq3⟩ := hrows p hp
    refine ⟨hp1, hq1, hq2, ?_⟩
    intro e he
    obtain ⟨he1, he2⟩ := hp2 e he
    have he3 := hq3 e he
    refine ⟨he1, ?_⟩
    cases htype : A.type with
    | DFA =>
      rw [htype] at he3
      cases hv : e.2 with
      | dfa t =>
        rw [hv] at he2
        have he2' : decide (t ∈ A.states) = true := he2
        exact of_decide_eq_true he2'
      | nfa ts =>
        rw [hv] at he3
        exact Bool.noConfusion he3
    | NFA =>
      rw [htype] at he3
      cases hv : e.2 with
      | dfa t =>
        rw [hv] at he3
        exact Bool.noConfusion he3
      | nfa ts =>
        rw [hv] at he3
        rw [hv] at he2
        have he3' : (!ts.isEmpty && decide ts.Nodup) = true := he3
        have he2' : ts.all (fun q => decide (q ∈ A.states)) = true := he2
        simp only [Bool.and_eq_true, decide_eq_true_eq,
          Bool.not_eq_true', List.isEmpty_eq_false] at he3'
        simp only [List.all_eq_true, decide_eq_true_eq] at he2'
        exact ⟨he3'.1, he3'.2, he2'⟩
  have htj : toJSON A = ⟨A.type, A.states, A.alphabet, A.initialState,
      A.finalStates, A.transitions⟩ := by
    unfold toJSON
    simp
  rw [htj]
  unfold fromJSON
  dsimp only
  have hstage1 : A.states.foldl addState (Automaton.new A.type)
      = { type := A.type, states := A.states, alphabet := [],
          transitions := [], initialState := none, finalStates := [] } := by
    rw [foldl_addState]
    have hs : List.foldl setAdd (Automaton.new A.type).states A.states
        = A.states := by
      have hx := foldl_setAdd_eq A.states [] hstN
        (fun x _ h => absurd h (List.not_mem_nil x))
      rw [List.nil_append] at hx
      exact hx
    rw [hs]
    rfl
  rw [hstage1]
  have hstage2 : setAlphabet
      { type := A.type, states := A.states,
        alphabet := [], transitions := [], initialState := none,
        finalStates := ([] : List St) } A.alphabet
      = { type := A.type, states := A.states, alphabet := A.alphabet,
          transitions := [], initialState := none, finalStates := [] } := by
    unfold setAlphabet
    have hx := foldl_setAdd_eq A.alphabet [] haN
      (fun x _ h => absurd h (List.not_mem_nil x))
    rw [List.nil_append] at hx
    rw [hx]
  rw [hstage2]
  dsimp only
  have hstage3 : A.finalStates.foldl (fun acc s => toggleFinalState acc s true)
      { type := A.type, states := A.states, alphabet := A.alphabet,
        transitions := [], initialState := A.initialState,
        finalStates := ([] : List St) }
      = withTable A [] := by
    rw [foldl_toggleFinal A.finalStates
      { type := A.type, states := A.states, alphabet := A.alphabet,
        transitions := [], initialState := A.initialState,
        finalStates := ([] : List St) }
      (fun s hs => hfs s hs)]
    dsimp only
    have hx := foldl_setAdd_eq A.finalStates [] hfN
      (fun x _ h => absurd h (List.not_mem_nil x))
    rw [List.nil_append] at hx
    rw [hx]
    rfl
  rw [hstage3]
  rw [replay_rows A.transitions [] (by simpa using hkeys) hrowsP]
  rw [List.nil_append]
  rfl


/-- An API-built NFA exercising the round-trip: ε and multi-target
transitions, a final state. -/
def c3B : Automaton :=
  let a := Automaton.new .NFA
  let a := addState a "q0"
  let a := addState a "q1"
  let a := setInitialState a "q0"
  let a := toggleFinalState a "q1" true
  let a := addTransition a "q0" "x" "q0"
  let a := addTransition a "q0" "x" "q1"
  addTransition a "q0" eps "q1"

theorem c3_roundtrip_witness : fromJSON (toJSON c3B) = c3B :=
  c3_roundtrip c3B (by decide) (by decide) (by decide) (by decide)
    (by decide) (by decide)


/-! ## Injectivity of the minimizer state names (`"q" + index`) -/

theorem toDigitsCore_eq_digits : ∀ (f n : Nat), n < f → n ≠ 0 → ∀ (ds : List Char),
    Nat.toDigitsCore 10 f n ds
      = ((Nat.digits 10 n).map Nat.digitChar).reverse ++ ds := by
  intro f
  induction f with
  | zero => intro n h; omega
  | succ f ih =>
    intro n hlt hne ds
    rw [Nat.toDigitsCore]
    by_cases hdiv : n / 10 = 0
    · simp only [hdiv, if_true]
      rw [Nat.digits_def' (by norm_num : (1:Nat) < 10) (Nat.pos_of_ne_zero hne)]
      rw [hdiv, Nat.digits_zero]
      simp
    · simp only [hdiv, if_false]
      have hn10 : n / 10 < f := by
        have h1 : n / 10 < n := Nat.div_lt_self (Nat.pos_of_ne_zero hne) (by norm_num)
        omega
      rw [ih (n / 10) hn10 hdiv]
      rw [Nat.digits_def' (by norm_num : (1:Nat) < 10) (Nat.pos_of_ne_zero hne)]
      simp

theorem digitChar_inj {d1 d2 : Nat} (h1 : d1 < 10) (h2 : d2 < 10)
    (h : Nat.digitChar d1 = Nat.digitChar d2) : d1 = d2 := by
  interval_cases d1 <;> interval_cases d2 <;> simp_all [Nat.digitChar]

theorem toDigits_eq_of_ne_zero {n : Nat} (hn : n ≠ 0) :
    Nat.toDigits 10 n = ((Nat.digits 10 n).map Nat.digitChar).reverse := by
  unfold Nat.toDigits
  rw [toDigitsCore_eq_digits (n+1) n (by omega) hn []]
  simp

theorem map_digitChar_inj : ∀ (l1 l2 : List Nat), (∀ x ∈ l1, x < 10) →
    (∀ x ∈ l2, x < 10) → l1.map Nat.digitChar = l2.map Nat.digitChar →
    l1 = l2 := by
  intro l1
  induction l1 with
  | nil =>
    intro l2 _ _ h
    cases l2 with
    | nil => rfl
    | cons y ys => simp at h
  | cons x xs ih =>
    intro l2 h1 h2 h
    cases l2 with
    | nil => simp at h
    | cons y ys =>
      simp only [List.map_cons, List.cons.injEq] at h
      have hx := digitChar_inj (h1 x (List.mem_cons_self x xs))
        (h2 y (List.mem_cons_self y ys)) h.1
      rw [hx, ih ys (fun z hz => h1 z (List.mem_cons_of_mem x hz))
        (fun z hz => h2 z (List.mem_cons_of_mem y hz)) h.2]

theorem toDigits_ne_zero_list {n : Nat} (hn : n ≠ 0) :
    Nat.toDigits 10 n ≠ ['0'] := by
  rw [toDigits_eq_of_ne_zero hn]
  intro h
  rcases hd : Nat.digits 10 n with _ | ⟨d, rest⟩
  · exact absurd (Nat.digits_eq_nil_iff_eq_zero.mp hd) hn
  · rw [hd] at h
    have hlen := congrArg List.length h
    simp at hlen
    subst hlen
    simp at h
    have hd10 : d < 10 := Nat.digits_lt_base (by norm_num)
      (by rw [hd]; exact List.mem_cons_self d [])
    have hd0 : d = 0 := @digitChar_inj d 0 hd10 (by norm_num) h
    have hofd := Nat.ofDigits_digits 10 n
    rw [hd, hd0] at hofd
    simp [Nat.ofDigits] at hofd
    exact hn hofd.symm

theorem natRepr_inj {m n : Nat} (h : Nat.repr m = Nat.repr n) : m = n := by
  have hdata : (Nat.toDigits 10 m) = (Nat.toDigits 10 n) := by
    have := congrArg String.data h
    simpa [Nat.repr, List.asString] using this
  by_cases hm : m = 0
  · by_cases hn : n = 0
    · rw [hm, hn]
    · subst hm
      exact absurd hdata.symm (toDigits_ne_zero_list hn)
  · by_cases hn : n = 0
    · subst hn
      exact absurd hdata (toDigits_ne_zero_list hm)
    · rw [toDigits_eq_of_ne_zero hm, toDigits_eq_of_ne_zero hn] at hdata
      have hrev := List.reverse_injective hdata
      have hdig := map_digitChar_inj _ _
        (fun x hx => Nat.digits_lt_base (by norm_num) hx)
        (fun x hx => Nat.digits_lt_base (by norm_num) hx) hrev
      have h1 := Nat.ofDigits_digits 10 m
      have h2 := Nat.ofDigits_digits 10 n
      rw [hdig] at h1
      rw [h2] at h1
      exact h1.symm

theorem toString_nat_inj {m n : Nat} (h : toString m = toString n) : m = n :=
  natRepr_inj h

/-- The state name `minimize` gives block `i`. -/
def blockName (i : Nat) : St := "q" ++ toString i

theorem blockName_inj {m n : Nat} (h : blockName m = blockName n) : m = n := by
  unfold blockName at h
  have hd := congrArg String.data h
  simp only [String.data_append] at hd
  exact toString_nat_inj (congrArg String.mk (List.append_cancel_left hd))

theorem blockName_ne_empty (i : Nat) : blockName i ≠ "" := by
  intro h
  have hd := congrArg String.data h
  simp [blockName, String.data_append] at hd


theorem lookup2_eq_getD (A : Automaton) (q : St) (a : Sym) :
    lookup2 A q a = objGet ((objGet A.transitions q).getD []) a := by
  unfold lookup2
  cases objGet A.transitions q with
  | none => rfl
  | some row => rfl

theorem objGet_map_objSet_ne {β : Type} {k k' : String} (v : β)
    (h : k' ≠ k) : ∀ (r : List (String × β)),
    objGet (r.map (fun p => if p.1 == k then (k, v) else p)) k'
      = objGet r k' := by
  intro r
  induction r with
  | nil => rfl
  | cons p rest ih =>
    rw [List.map_cons, objGet_cons, objGet_cons]
    by_cases hk : (p.1 == k) = true
    · rw [if_pos hk]
      rw [if_neg (fun he : k = k' => h he.symm),
        if_neg (by
          intro he
          exact h (((beq_iff_eq.mp hk).symm.trans he).symm))]
      exact ih
    · rw [if_neg hk]
      by_cases hpk : p.1 = k'
      · rw [if_pos hpk, if_pos hpk]
      · rw [if_neg hpk, if_neg hpk]
        exact ih

theorem objGet_append_ne {β : Type} {k k' : String} (v : β) (h : k' ≠ k) :
    ∀ (r : List (String × β)),
    objGet (r ++ [(k, v)]) k' = objGet r k' := by
  intro r
  induction r with
  | nil =>
    rw [List.nil_append, objGet_cons, objGet_nil,
      if_neg (fun he : k = k' => h he.symm)]
  | cons p rest ih =>
    rw [List.cons_append, objGet_cons, objGet_cons]
    by_cases hpk : p.1 = k'
    · rw [if_pos hpk, if_pos hpk]
    · rw [if_neg hpk, if_neg hpk]
      exact ih

theorem objGet_objSet_ne {β : Type} {r : List (String × β)} {k k' : String}
    (v : β) (h : k' ≠ k) : objGet (objSet r k v) k' = objGet r k' := by
  unfold objSet
  split
  · exact objGet_map_objSet_ne v h r
  · exact objGet_append_ne v h r

theorem lookup2_addTransition_dfa {m : Automaton} (htype : m.type = Kind.DFA)
    {k t : St} (hmem : k ∈ m.states ∧ t ∈ m.states) (a : Sym) (k' : St)
    (a' : Sym) :
    lookup2 (addTransition m k a t) k' a' =
      if k' = k ∧ a' = a then some (Tgt.dfa t) else lookup2 m k' a' := by
  rw [addTransition_eq_dfa a htype hmem]
  rw [lookup2_eq_getD]
  dsimp only
  by_cases hk : k' = k
  · subst hk
    rw [objGet_objSet_self, Option.getD_some]
    by_cases ha : a' = a
    · subst ha
      rw [objGet_objSet_self, if_pos ⟨rfl, rfl⟩]
    · rw [objGet_objSet_ne _ ha, if_neg (fun hc => ha hc.2),
        lookup2_eq_getD]
  · rw [objGet_objSet_ne _ hk, if_neg (fun hc => hk hc.1), lookup2_eq_getD]

theorem addTransition_fields {m : Automaton} (k t : St) (a : Sym) :
    (addTransition m k a t).type = m.type ∧
    (addTransition m k a t).states = m.states ∧
    (addTransition m k a t).initialState = m.initialState ∧
    (addTransition m k a t).finalStates = m.finalStates := by
  unfold addTransition
  split
  · exact ⟨rfl, rfl, rfl, rfl⟩
  · exact ⟨rfl, rfl, rfl, rfl⟩


theorem mem_rowFold : ∀ (row : Row) (acc : List St) (x : St),
    (x ∈ row.foldl (fun acc2 e =>
        match e.2 with
        | Tgt.dfa t => acc2 ++ [t]
        | Tgt.nfa _ => acc2) acc
      ↔ x ∈ acc ∨ ∃ e ∈ row, e.2 = Tgt.dfa x) := by
  intro row
  induction row with
  | nil =>
    intro acc x
    simp
  | cons e row' ih =>
    intro acc x
    rw [List.foldl_cons]
    cases hv : e.2 with
    | dfa t =>
      rw [ih (acc ++ [t]) x]
      constructor
      · rintro (hm | hm)
        · rcases List.mem_append.mp hm with h | h
          · exact Or.inl h
          · refine Or.inr ⟨e, List.mem_cons_self e row', ?_⟩
            rw [hv, List.mem_singleton.mp h]
        · rcases hm with ⟨e2, he2, hv2⟩
          exact Or.inr ⟨e2, List.mem_cons_of_mem e he2, hv2⟩
      · rintro (hm | hm)
        · exact Or.inl (List.mem_append.mpr (Or.inl hm))
        · rcases hm with ⟨e2, he2, hv2⟩
          rcases List.mem_cons.mp he2 with he | he
          · subst he
            rw [hv] at hv2
            injection hv2 with hv3
            exact Or.inl (List.mem_append.mpr (Or.inr (by simp [hv3])))
          · exact Or.inr ⟨e2, he, hv2⟩
    | nfa ts =>
      rw [ih acc x]
      constructor
      · rintro (hm | hm)
        · exact Or.inl hm
        · rcases hm with ⟨e2, he2, hv2⟩
          exact Or.inr ⟨e2, List.mem_cons_of_mem e he2, hv2⟩
      · rintro (hm | hm)
        · exact Or.inl hm
        · rcases hm with ⟨e2, he2, hv2⟩
          rcases List.mem_cons.mp he2 with he | he
          · subst he
            rw [hv] at hv2
            cases hv2
          · exact Or.inr ⟨e2, he, hv2⟩

theorem allInner_mono : ∀ (row : Row) (acc : List St) (x : St), x ∈ acc →
    x ∈ row.foldl (fun acc2 e =>
      match e.2 with
      | Tgt.dfa q => acc2 ++ [q]
      | Tgt.nfa ts => acc2 ++ ts) acc := by
  intro row
  induction row with
  | nil => intro acc x h; exact h
  | cons e row' ih =>
    intro acc x h
    rw [List.foldl_cons]
    cases hv : e.2 with
    | dfa t => exact ih _ x (List.mem_append.mpr (Or.inl h))
    | nfa ts => exact ih _ x (List.mem_append.mpr (Or.inl h))

theorem mem_allInner_of_dfa : ∀ (row : Row) (acc : List St) (x : St),
    (∃ e ∈ row, e.2 = Tgt.dfa x) →
    x ∈ row.foldl (fun acc2 e =>
      match e.2 with
      | Tgt.dfa q => acc2 ++ [q]
      | Tgt.nfa ts => acc2 ++ ts) acc := by
  intro row
  induction row with
  | nil =>
    intro acc x h
    rcases h with ⟨e, he, -⟩
    exact absurd he (List.not_mem_nil e)
  | cons e row' ih =>
    intro acc x h
    rw [List.foldl_cons]
    rcases h with ⟨e2, he2, hv2⟩
    rcases List.mem_cons.mp he2 with he | he
    · subst he
      rw [hv2]
      exact allInner_mono row' _ x (List.mem_append.mpr (Or.inr (by simp)))
    · cases hv : e.2 with
      | dfa t => exact ih _ x ⟨e2, he, hv2⟩
      | nfa ts => exact ih _ x ⟨e2, he, hv2⟩

theorem allOuter_mono : ∀ (rows : Table) (acc : List St) (x : St), x ∈ acc →
    x ∈ rows.foldl (fun acc p =>
      acc ++ p.2.foldl (fun acc2 e =>
        match e.2 with
        | Tgt.dfa q => acc2 ++ [q]
        | Tgt.nfa ts => acc2 ++ ts) []) acc := by
  intro rows
  induction rows with
  | nil => intro acc x h; exact h
  | cons p rows' ih =>
    intro acc x h
    rw [List.foldl_cons]
    exact ih _ x (List.mem_append.mpr (Or.inl h))

theorem mem_allTargets {A : Automaton} {x : St}
    (h : ∃ p ∈ A.transitions, ∃ e ∈ p.2, e.2 = Tgt.dfa x) :
    x ∈ allTargets A := by
  unfold allTargets
  rcases h with ⟨p, hp, he⟩
  have main : ∀ (rows : Table) (acc : List St), p ∈ rows →
      x ∈ rows.foldl (fun acc p =>
        acc ++ p.2.foldl (fun acc2 e =>
          match e.2 with
          | Tgt.dfa q => acc2 ++ [q]
          | Tgt.nfa ts => acc2 ++ ts) []) acc := by
    intro rows
    induction rows with
    | nil => intro acc hmem; exact absurd hmem (List.not_mem_nil p)
    | cons r rows' ih =>
      intro acc hmem
      rw [List.foldl_cons]
      rcases List.mem_cons.mp hmem with hr | hr
      · subst hr
        exact allOuter_mono rows' _ x
          (List.mem_append.mpr (Or.inr (mem_allInner_of_dfa p.2 [] x he)))
      · exact ih _ hr
  exact main A.transitions [] hp

theorem mem_rowTargets_of_lookup2 {A : Automaton} {q : St} {a : Sym} {t : St}
    (h : lookup2 A q a = some (Tgt.dfa t)) : t ∈ rowTargets A q := by
  unfold lookup2 at h
  unfold rowTargets
  cases hg : objGet A.transitions q with
  | none =>
    rw [hg] at h
    cases h
  | some row =>
    rw [hg] at h
    rcases objGet_mem (show objGet row a = some (Tgt.dfa t) from h)
      with ⟨e, he, -, hev⟩
    exact (mem_rowFold row [] t).mpr (Or.inr ⟨e, he, hev⟩)

theorem rowTargets_sub_allTargets {A : Automaton} {q : St} {t : St}
    (h : t ∈ rowTargets A q) : t ∈ allTargets A := by
  unfold rowTargets at h
  cases hg : objGet A.transitions q with
  | none =>
    rw [hg] at h
    exact absurd h (List.not_mem_nil t)
  | some row =>
    rw [hg] at h
    rcases (mem_rowFold row [] t).mp h with hm | hm
    · exact absurd hm (List.not_mem_nil t)
    · rcases objGet_mem hg with ⟨p, hp, -, hpv⟩
      exact mem_allTargets ⟨p, hp, hpv ▸ hm⟩


theorem reachFold_spec : ∀ (ts reach queue : List St),
    ∃ fresh : List St,
      ts.foldl (fun (rs : List St × List St) t =>
          if t ∈ rs.1 then rs else (rs.1 ++ [t], rs.2 ++ [t]))
        (reach, queue) = (reach ++ fresh, queue ++ fresh) ∧
      (∀ x ∈ fresh, x ∈ ts ∧ x ∉ reach) ∧
      (∀ t ∈ ts, t ∈ reach ++ fresh) ∧
      fresh.Nodup ∧
      (reach.Nodup → (reach ++ fresh).Nodup) := by
  intro ts
  induction ts with
  | nil =>
    intro reach queue
    refine ⟨[], by simp, ?_, ?_, List.nodup_nil, ?_⟩
    · intro x hx
      exact absurd hx (List.not_mem_nil x)
    · intro t ht
      exact absurd ht (List.not_mem_nil t)
    · intro h
      simpa using h
  | cons t ts' ih =>
    intro reach queue
    rw [List.foldl_cons]
    by_cases hm : t ∈ reach
    · rw [if_pos hm]
      rcases ih reach queue with ⟨fresh, heq, hfr, hts, hnd, hrnd⟩
      refine ⟨fresh, heq, ?_, ?_, hnd, hrnd⟩
      · intro x hx
        obtain ⟨h1, h2⟩ := hfr x hx
        exact ⟨List.mem_cons_of_mem t h1, h2⟩
      · intro s hs
        rcases List.mem_cons.mp hs with hse | hse
        · subst hse
          exact List.mem_append.mpr (Or.inl hm)
        · exact hts s hse
    · rw [if_neg hm]
      rcases ih (reach ++ [t]) (queue ++ [t])
        with ⟨fresh, heq, hfr, hts, hnd, hrnd⟩
      have hL : (reach ++ [t]) ++ fresh = reach ++ (t :: fresh) := by simp
      have hQ : (queue ++ [t]) ++ fresh = queue ++ (t :: fresh) := by simp
      refine ⟨t :: fresh, ?_, ?_, ?_, ?_, ?_⟩
      · rw [heq, hL, hQ]
      · intro x hx
        rcases List.mem_cons.mp hx with hxe | hxe
        · subst hxe
          exact ⟨List.mem_cons_self x ts', hm⟩
        · obtain ⟨h1, h2⟩ := hfr x hxe
          exact ⟨List.mem_cons_of_mem t h1,
            fun hc => h2 (List.mem_append.mpr (Or.inl hc))⟩
      · intro s hs
        rcases List.mem_cons.mp hs with hse | hse
        · subst hse
          exact List.mem_append.mpr (Or.inr (List.mem_cons_self s fresh))
        · have := hts s hse
          rw [hL] at this
          exact this
      · refine List.nodup_cons.mpr ⟨?_, hnd⟩
        intro hc
        exact (hfr t hc).2 (List.mem_append.mpr (Or.inr (by simp)))
      · intro hreach
        have h1 : (reach ++ [t]).Nodup := by
          rw [List.nodup_append]
          refine ⟨hreach, List.nodup_singleton t, ?_⟩
          intro x hx hx2
          rw [List.mem_singleton.mp hx2] at hx
          exact hm hx
        have := hrnd h1
        rw [hL] at this
        exact this

theorem filter_drop_count {fresh allL reach : List St}
    (hnd : fresh.Nodup) (hsub : ∀ x ∈ fresh, x ∈ allL ∧ x ∉ reach) :
    (allL.filter (fun t => t ∉ reach ++ fresh)).length + fresh.length
      ≤ (allL.filter (fun t => t ∉ reach)).length := by
  have hsplit : (allL.filter (fun t => t ∉ reach)).length
      = ((allL.filter (fun t => t ∉ reach)).filter
          (fun t => t ∉ fresh)).length
        + ((allL.filter (fun t => t ∉ reach)).filter
            (fun t => !(decide (t ∉ fresh)))).length :=
    List.length_eq_length_filter_add _
  have heqf : (allL.filter (fun t => t ∉ reach)).filter (fun t => t ∉ fresh)
      = allL.filter (fun t => t ∉ reach ++ fresh) := by
    rw [List.filter_filter]
    refine List.filter_congr ?_
    intro t _
    by_cases h1 : t ∈ reach <;> by_cases h2 : t ∈ fresh <;> simp [h1, h2]
  have hble : fresh.length ≤ ((allL.filter (fun t => t ∉ reach)).filter
      (fun t => !(decide (t ∉ fresh)))).length := by
    have hsubf : ∀ x ∈ fresh, x ∈ (allL.filter (fun t => t ∉ reach)).filter
        (fun t => !(decide (t ∉ fresh))) := by
      intro x hx
      obtain ⟨h1, h2⟩ := hsub x hx
      refine List.mem_filter.mpr ⟨List.mem_filter.mpr ⟨h1, by simpa using h2⟩,
        by simpa using hx⟩
    have hfin : fresh.toFinset ⊆ ((allL.filter (fun t => t ∉ reach)).filter
        (fun t => !(decide (t ∉ fresh)))).toFinset := fun x hx =>
      List.mem_toFinset.mpr (hsubf x (List.mem_toFinset.mp hx))
    calc fresh.length = fresh.toFinset.card :=
          (List.toFinset_card_of_nodup hnd).symm
      _ ≤ ((allL.filter (fun t => t ∉ reach)).filter
            (fun t => !(decide (t ∉ fresh)))).toFinset.card :=
          Finset.card_le_card hfin
      _ ≤ _ := List.toFinset_card_le _
  rw [← heqf]
  omega


theorem reachLoop_spec {A : Automaton} : ∀ (fuel : Nat) (reach queue : List St),
    reach.Nodup →
    (∀ q ∈ queue, q ∈ reach) →
    (∀ q ∈ reach, q ∉ queue → ∀ t ∈ rowTargets A q, t ∈ reach) →
    ((allTargets A).filter (fun t => t ∉ reach)).length + queue.length < fuel →
    (reachLoop A fuel reach queue).Nodup ∧
    (∀ q ∈ reach, q ∈ reachLoop A fuel reach queue) ∧
    (∀ q ∈ reachLoop A fuel reach queue, ∀ t ∈ rowTargets A q,
      t ∈ reachLoop A fuel reach queue) := by
  intro fuel
  induction fuel with
  | zero =>
    intro reach queue _ _ _ hlt
    omega
  | succ f ih =>
    intro reach queue hnd hqr hclosed hfuel
    cases queue with
    | nil =>
      have hred0 : reachLoop A (f+1) reach [] = reach := rfl
      rw [hred0]
      exact ⟨hnd, fun q hq => hq,
        fun q hq t ht => hclosed q hq (List.not_mem_nil q) t ht⟩
    | cons q queue' =>
      rcases reachFold_spec (rowTargets A q) reach queue' with
        ⟨fresh, heq, hfr, hts, hfnd, hrnd⟩
      have hred : reachLoop A (f+1) reach (q :: queue')
          = reachLoop A f (reach ++ fresh) (queue' ++ fresh) := by
        show reachLoop A f
            ((rowTargets A q).foldl (fun (rs : List St × List St) t =>
              if t ∈ rs.1 then rs else (rs.1 ++ [t], rs.2 ++ [t]))
              (reach, queue')).1
            ((rowTargets A q).foldl (fun (rs : List St × List St) t =>
              if t ∈ rs.1 then rs else (rs.1 ++ [t], rs.2 ++ [t]))
              (reach, queue')).2
          = reachLoop A f (reach ++ fresh) (queue' ++ fresh)
        rw [heq]
      rw [hred]
      have hqr' : ∀ r ∈ queue' ++ fresh, r ∈ reach ++ fresh := by
        intro r hr
        rcases List.mem_append.mp hr with h | h
        · exact List.mem_append.mpr
            (Or.inl (hqr r (List.mem_cons_of_mem q h)))
        · exact List.mem_append.mpr (Or.inr h)
      have hclosed' : ∀ r ∈ reach ++ fresh, r ∉ queue' ++ fresh →
          ∀ t ∈ rowTargets A r, t ∈ reach ++ fresh := by
        intro r hr hrq t ht
        rcases List.mem_append.mp hr with h | h
        · by_cases hq : r = q
          · subst hq
            exact hts t ht
          · have hnq : r ∉ q :: queue' := by
              intro hc
              rcases List.mem_cons.mp hc with hc1 | hc1
              · exact hq hc1
              · exact hrq (List.mem_append.mpr (Or.inl hc1))
            exact List.mem_append.mpr
              (Or.inl (hclosed r h hnq t ht))
        · exact absurd (List.mem_append.mpr (Or.inr h)) hrq
      have hfuel' : ((allTargets A).filter
          (fun t => t ∉ reach ++ fresh)).length
          + (queue' ++ fresh).length < f := by
        have hdrop := filter_drop_count hfnd (fun x hx =>
          ⟨rowTargets_sub_allTargets (hfr x hx).1, (hfr x hx).2⟩)
        have hlen : (queue' ++ fresh).length
            = queue'.length + fresh.length := List.length_append queue' fresh
        have hq1 : (q :: queue').length = queue'.length + 1 := by simp
        omega
      obtain ⟨r1, r2, r3⟩ := ih (reach ++ fresh) (queue' ++ fresh)
        (hrnd hnd) hqr' hclosed' hfuel'
      exact ⟨r1, fun r hr => r2 r (List.mem_append.mpr (Or.inl hr)), r3⟩

theorem getReachableStates_spec {A : Automaton} {q0 : St}
    (hq0 : A.initialState = some q0) :
    (getReachableStates A).Nodup ∧
    q0 ∈ getReachableStates A ∧
    (∀ q ∈ getReachableStates A, ∀ t ∈ rowTargets A q,
      t ∈ getReachableStates A) := by
  unfold getReachableStates
  rw [hq0]
  dsimp only
  have hfuel : ((allTargets A).filter (fun t => t ∉ [q0])).length
      + [q0].length < [q0].length + (allTargets A).length + 1 := by
    have := List.length_filter_le (fun t => t ∉ [q0]) (allTargets A)
    simp only [List.length_singleton]
    omega
  obtain ⟨r1, r2, r3⟩ := reachLoop_spec ([q0].length + (allTargets A).length + 1)
    [q0] [q0] (List.nodup_singleton q0) (fun q hq => hq)
    (fun q hq hnq => absurd hq hnq) hfuel
  exact ⟨r1, r2 q0 (List.mem_singleton.mpr rfl), r3⟩


/-- Block disjointness for partitions. -/
def Disj (b1 b2 : List St) : Prop := ∀ x ∈ b1, x ∉ b2

theorem groupAdd_spec {gs : List (Int × List St)} {i : Int} {q : St}
    (hgood : ∀ g ∈ gs, g.2 ≠ [] ∧ g.2.Nodup)
    (hkeys : (gs.map (·.1)).Nodup)
    (hdisj : gs.Pairwise (fun g1 g2 => ∀ x ∈ g1.2, x ∉ g2.2))
    (hfresh : ∀ g ∈ gs, q ∉ g.2) :
    (∀ g ∈ groupAdd gs i q, g.2 ≠ [] ∧ g.2.Nodup) ∧
    ((groupAdd gs i q).map (·.1)).Nodup ∧
    (groupAdd gs i q).Pairwise (fun g1 g2 => ∀ x ∈ g1.2, x ∉ g2.2) ∧
    (∀ x, (∃ g ∈ groupAdd gs i q, x ∈ g.2) ↔
      (∃ g ∈ gs, x ∈ g.2) ∨ x = q) := by
  unfold groupAdd
  split
  · next g0 hfind =>
    have hg0k : (g0.1 == i) = true := by
      have h := List.find?_some hfind
      exact h
    have hg0m : g0 ∈ gs := List.mem_of_find?_eq_some hfind
    have hmapk : (gs.map (fun g =>
        if g.1 == i then (g.1, g.2 ++ [q]) else g)).map
        (·.1) = gs.map (·.1) := by
      rw [List.map_map]
      refine List.map_congr_left ?_
      intro g hg
      dsimp only [Function.comp]
      split <;> rfl
    refine ⟨?_, ?_, ?_, ?_⟩
    · intro g hg
      rcases List.mem_map.mp hg with ⟨g1, hg1, hge⟩
      by_cases hk : (g1.1 == i) = true
      · rw [if_pos hk] at hge
        subst hge
        obtain ⟨h1, h2⟩ := hgood g1 hg1
        refine ⟨by simp, ?_⟩
        rw [List.nodup_append]
        exact ⟨h2, List.nodup_singleton q, fun x hx hx2 =>
          hfresh g1 hg1 ((List.mem_singleton.mp hx2) ▸ hx)⟩
      · rw [if_neg hk] at hge
        exact hge ▸ hgood g1 hg1
    · rw [hmapk]
      exact hkeys
    · rw [List.pairwise_map]
      refine hdisj.imp_of_mem ?_
      intro g1 g2 hg1 hg2 h12
      intro x hx1 hx2
      by_cases hk1 : (g1.1 == i) = true
      · rw [if_pos hk1] at hx1
        dsimp only at hx1
        by_cases hk2 : (g2.1 == i) = true
        · have hgeq : g1 = g2 := List.inj_on_of_nodup_map hkeys hg1 hg2
            ((beq_iff_eq.mp hk1).trans (beq_iff_eq.mp hk2).symm)
          subst hgeq
          obtain ⟨hne, -⟩ := hgood g1 hg1
          rcases List.exists_mem_of_ne_nil g1.2 hne with ⟨x0, hx0⟩
          exact h12 x0 hx0 hx0
        · rw [if_neg hk2] at hx2
          rcases List.mem_append.mp hx1 with h | h
          · exact h12 x h hx2
          · rw [List.mem_singleton.mp h] at hx2
            exact hfresh g2 hg2 hx2
      · rw [if_neg hk1] at hx1
        by_cases hk2 : (g2.1 == i) = true
        · rw [if_pos hk2] at hx2
          dsimp only at hx2
          rcases List.mem_append.mp hx2 with h | h
          · exact h12 x hx1 h
          · rw [List.mem_singleton.mp h] at hx1
            exact hfresh g1 hg1 hx1
        · rw [if_neg hk2] at hx2
          exact h12 x hx1 hx2
    · intro x
      constructor
      · rintro ⟨g, hg, hxg⟩
        rcases List.mem_map.mp hg with ⟨g1, hg1, hge⟩
        by_cases hk : (g1.1 == i) = true
        · rw [if_pos hk] at hge
          subst hge
          dsimp only at hxg
          rcases List.mem_append.mp hxg with h | h
          · exact Or.inl ⟨g1, hg1, h⟩
          · exact Or.inr (List.mem_singleton.mp h)
        · rw [if_neg hk] at hge
          subst hge
          exact Or.inl ⟨g1, hg1, hxg⟩
      · rintro (⟨g, hg, hxg⟩ | hxe)
        · refine ⟨if g.1 == i then (g.1, g.2 ++ [q]) else g,
            List.mem_map_of_mem _ hg, ?_⟩
          by_cases hk : (g.1 == i) = true
          · rw [if_pos hk]
            exact List.mem_append.mpr (Or.inl hxg)
          · rw [if_neg hk]
            exact hxg
        · subst hxe
          refine ⟨(g0.1, g0.2 ++ [x]), ?_, ?_⟩
          · have hmm := List.mem_map_of_mem
              (fun g => if g.1 == i then (g.1, g.2 ++ [x]) else g) hg0m
            dsimp only at hmm
            rw [if_pos hg0k] at hmm
            exact hmm
          · exact List.mem_append.mpr (Or.inr (List.mem_singleton.mpr rfl))
  · next hfind =>
    have hnokey : ∀ g ∈ gs, ¬ (g.1 == i) = true := by
      intro g hg
      exact List.find?_eq_none.mp hfind g hg
    refine ⟨?_, ?_, ?_, ?_⟩
    · intro g hg
      rcases List.mem_append.mp hg with h | h
      · exact hgood g h
      · have hge : g = (i, [q]) := by simpa using h
        subst hge
        exact ⟨by simp, List.nodup_singleton q⟩
    · rw [List.map_append]
      rw [List.nodup_append]
      refine ⟨hkeys, by simp, ?_⟩
      intro k hk hk2
      have hki : k = i := by simpa using hk2
      rcases List.mem_map.mp hk with ⟨g, hg, hge⟩
      exact hnokey g hg (beq_iff_eq.mpr (hge.trans hki))
    · rw [List.pairwise_append]
      refine ⟨hdisj, List.pairwise_singleton _ _, ?_⟩
      intro g hg g2 hg2 x hx hx2
      have hge : g2 = (i, [q]) := by simpa using hg2
      subst hge
      rw [List.mem_singleton.mp hx2] at hx
      exact hfresh g hg hx
    · intro x
      constructor
      · rintro ⟨g, hg, hxg⟩
        rcases List.mem_append.mp hg with h | h
        · exact Or.inl ⟨g, h, hxg⟩
        · have hge : g = (i, [q]) := by simpa using h
          subst hge
          exact Or.inr (List.mem_singleton.mp hxg)
      · rintro (⟨g, hg, hxg⟩ | hxe)
        · exact ⟨g, List.mem_append.mpr (Or.inl hg), hxg⟩
        · subst hxe
          exact ⟨(i, [x]), List.mem_append.mpr (Or.inr (by simp)),
            List.mem_singleton.mpr rfl⟩


theorem groupAdd_keyed {gs : List (Int × List St)} {i : Int} {q : St}
    {f : St → Int} (hkeyed : ∀ g ∈ gs, ∀ x ∈ g.2, g.1 = f x)
    (hq : i = f q) :
    ∀ g ∈ groupAdd gs i q, ∀ x ∈ g.2, g.1 = f x := by
  unfold groupAdd
  split
  · intro g hg x hx
    rcases List.mem_map.mp hg with ⟨g1, hg1, hge⟩
    by_cases hk : (g1.1 == i) = true
    · rw [if_pos hk] at hge
      subst hge
      rcases List.mem_append.mp hx with h | h
      · exact hkeyed g1 hg1 x h
      · rw [List.mem_singleton.mp h, ← hq]
        exact beq_iff_eq.mp hk
    · rw [if_neg hk] at hge
      subst hge
      exact hkeyed g1 hg1 x hx
  · intro g hg x hx
    rcases List.mem_append.mp hg with h | h
    · exact hkeyed g h x hx
    · have hge : g = (i, [q]) := by simpa using h
      subst hge
      rw [List.mem_singleton.mp hx]
      exact hq

theorem groupFold_spec {A : Automaton} {parts : List (List St)} {a : Sym} :
    ∀ (qs : List St) (gs0 : List (Int × List St)),
    qs.Nodup →
    (∀ g ∈ gs0, g.2 ≠ [] ∧ g.2.Nodup) →
    ((gs0.map (·.1)).Nodup) →
    gs0.Pairwise (fun g1 g2 => ∀ x ∈ g1.2, x ∉ g2.2) →
    (∀ q ∈ qs, ∀ g ∈ gs0, q ∉ g.2) →
    (∀ g ∈ gs0, ∀ x ∈ g.2, g.1 = targetIdx A parts x a) →
    (∀ g ∈ qs.foldl (fun gs q => groupAdd gs (targetIdx A parts q a) q) gs0,
      g.2 ≠ [] ∧ g.2.Nodup) ∧
    (∀ x, (∃ g ∈ qs.foldl (fun gs q => groupAdd gs (targetIdx A parts q a) q)
        gs0, x ∈ g.2) ↔ (∃ g ∈ gs0, x ∈ g.2) ∨ x ∈ qs) ∧
    (qs.foldl (fun gs q => groupAdd gs (targetIdx A parts q a) q)
      gs0).Pairwise (fun g1 g2 => ∀ x ∈ g1.2, x ∉ g2.2) ∧
    (∀ g ∈ qs.foldl (fun gs q => groupAdd gs (targetIdx A parts q a) q) gs0,
      ∀ x ∈ g.2, g.1 = targetIdx A parts x a) := by
  intro qs
  induction qs with
  | nil =>
    intro gs0 _ hgood hkeys hdisj _ hkeyed
    refine ⟨hgood, ?_, hdisj, hkeyed⟩
    intro x
    constructor
    · exact Or.inl
    · rintro (h | h)
      · exact h
      · exact absurd h (List.not_mem_nil x)
  | cons q qs' ih =>
    intro gs0 hnd hgood hkeys hdisj hfresh hkeyed
    rw [List.foldl_cons]
    obtain ⟨g1, g2, g3, g4⟩ := @groupAdd_spec gs0 (targetIdx A parts q a) q
      hgood hkeys hdisj
      (fun g hg => hfresh q (List.mem_cons_self q qs') g hg)
    have hkeyed1 := @groupAdd_keyed gs0 (targetIdx A parts q a) q
      (fun x => targetIdx A parts x a) hkeyed rfl
    have hfresh1 : ∀ q2 ∈ qs', ∀ g ∈ groupAdd gs0 (targetIdx A parts q a) q,
        q2 ∉ g.2 := by
      intro q2 hq2 g hg hq2g
      rcases (g4 q2).mp ⟨g, hg, hq2g⟩ with h | h
      · rcases h with ⟨g5, hg5, hmem⟩
        exact hfresh q2 (List.mem_cons_of_mem q hq2) g5 hg5 hmem
      · exact (List.nodup_cons.mp hnd).1 (h ▸ hq2)
    obtain ⟨r1, r2, r3, r4⟩ := ih (groupAdd gs0 (targetIdx A parts q a) q)
      (List.nodup_cons.mp hnd).2 g1 g2 g3 hfresh1 hkeyed1
    refine ⟨r1, ?_, r3, r4⟩
    intro x
    rw [r2 x, g4 x]
    constructor
    · rintro ((h | h) | h)
      · exact Or.inl h
      · exact Or.inr (h ▸ List.mem_cons_self q qs')
      · exact Or.inr (List.mem_cons_of_mem q h)
    · rintro (h | h)
      · exact Or.inl (Or.inl h)
      · rcases List.mem_cons.mp h with he | he
        · exact Or.inl (Or.inr he)
        · exact Or.inr he

theorem splitOnSymbol_spec {A : Automaton} {parts : List (List St)}
    {p : List St} {a : Sym} (hnd : p.Nodup) :
    (∀ g ∈ splitOnSymbol A parts p a, g.2 ≠ [] ∧ g.2.Nodup) ∧
    (∀ x, (∃ g ∈ splitOnSymbol A parts p a, x ∈ g.2) ↔ x ∈ p) ∧
    (splitOnSymbol A parts p a).Pairwise
      (fun g1 g2 => ∀ x ∈ g1.2, x ∉ g2.2) ∧
    (∀ g ∈ splitOnSymbol A parts p a, ∀ x ∈ g.2,
      g.1 = targetIdx A parts x a) := by
  unfold splitOnSymbol
  obtain ⟨r1, r2, r3, r4⟩ := groupFold_spec p [] hnd
    (fun g hg => absurd hg (List.not_mem_nil g))
    (by simp)
    List.Pairwise.nil
    (fun q _ g hg => absurd hg (List.not_mem_nil g))
    (fun g hg => absurd hg (List.not_mem_nil g))
  refine ⟨r1, ?_, r3, r4⟩
  intro x
  rw [r2 x]
  constructor
  · rintro (⟨g, hg, -⟩ | h)
    · exact absurd hg (List.not_mem_nil g)
    · exact h
  · exact Or.inr


theorem splitPartition_spec {A : Automaton} {p : List St}
    {parts : List (List St)} (hne : p ≠ []) (hnd : p.Nodup) :
    (∀ b ∈ splitPartition A p parts, b ≠ [] ∧ b.Nodup ∧ ∀ x ∈ b, x ∈ p) ∧
    (∀ x ∈ p, ∃ b ∈ splitPartition A p parts, x ∈ b) ∧
    (splitPartition A p parts).Pairwise Disj := by
  unfold splitPartition
  split
  · refine ⟨?_, ?_, ?_⟩
    · intro b hb
      have hbe : b = p := by simpa using hb
      subst hbe
      exact ⟨hne, hnd, fun x hx => hx⟩
    · intro x hx
      exact ⟨p, by simp, hx⟩
    · exact List.pairwise_singleton _ _
  · split
    · next groups hfs =>
      rcases exists_of_findSome?_eq_some hfs with ⟨a, ha, hsome⟩
      dsimp only at hsome
      split at hsome
      · injection hsome with hge
        subst hge
        obtain ⟨r1, r2, r3, -⟩ := splitOnSymbol_spec hnd
        refine ⟨?_, ?_, ?_⟩
        · intro b hb
          rcases List.mem_map.mp hb with ⟨g, hg, hge⟩
          subst hge
          obtain ⟨h1, h2⟩ := r1 g hg
          exact ⟨h1, h2, fun x hx => (r2 x).mp ⟨g, hg, hx⟩⟩
        · intro x hx
          rcases (r2 x).mpr hx with ⟨g, hg, hxg⟩
          exact ⟨g.2, List.mem_map_of_mem _ hg, hxg⟩
        · rw [List.pairwise_map]
          exact r3
      · cases hsome
    · refine ⟨?_, ?_, ?_⟩
      · intro b hb
        have hbe : b = p := by simpa using hb
        subst hbe
        exact ⟨hne, hnd, fun x hx => hx⟩
      · intro x hx
        exact ⟨p, by simp, hx⟩
      · exact List.pairwise_singleton _ _

theorem splitPartition_of_len_le {A : Automaton} {p : List St}
    {parts : List (List St)}
    (h : (splitPartition A p parts).length ≤ 1) :
    splitPartition A p parts = [p] := by
  unfold splitPartition at h ⊢
  split
  · rfl
  · split
    · next groups hfs =>
      rcases exists_of_findSome?_eq_some hfs with ⟨a, ha, hsome⟩
      dsimp only at hsome
      split at hsome
      · next hgt =>
        injection hsome with hge
        rw [if_neg (by assumption), hfs] at h
        rw [← hge] at h
        rw [List.length_map] at h
        omega
      · cases hsome
    · rfl


theorem refineRound_parts_spec {A : Automaton} {parts : List (List St)}
    (hgood : ∀ b ∈ parts, b ≠ [] ∧ b.Nodup)
    (hpw : parts.Pairwise Disj) :
    (∀ b ∈ (refineRound A parts).1, b ≠ [] ∧ b.Nodup ∧
      ∃ b0 ∈ parts, ∀ x ∈ b, x ∈ b0) ∧
    ((refineRound A parts).1.Pairwise Disj) ∧
    (∀ p ∈ parts, ∀ x ∈ p, ∃ b ∈ (refineRound A parts).1, x ∈ b) := by
  unfold refineRound
  have main : ∀ (ps : List (List St)) (st0 : List (List St) × Bool),
      (∀ p ∈ ps, p ∈ parts) →
      ps.Pairwise Disj →
      (∀ b ∈ st0.1, b ≠ [] ∧ b.Nodup ∧ ∃ b0 ∈ parts, ∀ x ∈ b, x ∈ b0) →
      st0.1.Pairwise Disj →
      (∀ b ∈ st0.1, ∀ p ∈ ps, Disj b p) →
      (∀ b ∈ (ps.foldl (fun st p =>
          let splits := splitPartition A p parts
          if splits.length > 1 then (st.1 ++ splits, true)
          else (st.1 ++ [p], st.2)) st0).1,
        b ≠ [] ∧ b.Nodup ∧ ∃ b0 ∈ parts, ∀ x ∈ b, x ∈ b0) ∧
      ((ps.foldl (fun st p =>
          let splits := splitPartition A p parts
          if splits.length > 1 then (st.1 ++ splits, true)
          else (st.1 ++ [p], st.2)) st0).1.Pairwise Disj) ∧
      (∀ b ∈ st0.1, b ∈ (ps.foldl (fun st p =>
          let splits := splitPartition A p parts
          if splits.length > 1 then (st.1 ++ splits, true)
          else (st.1 ++ [p], st.2)) st0).1) ∧
      (∀ p ∈ ps, ∀ x ∈ p, ∃ b ∈ (ps.foldl (fun st p =>
          let splits := splitPartition A p parts
          if splits.length > 1 then (st.1 ++ splits, true)
          else (st.1 ++ [p], st.2)) st0).1, x ∈ b) := by
    intro ps
    induction ps with
    | nil =>
      intro st0 _ _ hC1 hC2 _
      exact ⟨hC1, hC2, fun b hb => hb,
        fun p hp => absurd hp (List.not_mem_nil p)⟩
    | cons p ps' ih =>
      intro st0 hsub hpspw hC1 hC2 hC3
      have hpparts : p ∈ parts := hsub p (List.mem_cons_self p ps')
      obtain ⟨hpne, hpnd⟩ := hgood p hpparts
      obtain ⟨s1, s2, s3⟩ := @splitPartition_spec A p parts hpne hpnd
      have hC1' : ∀ b ∈ st0.1 ++ splitPartition A p parts,
          b ≠ [] ∧ b.Nodup ∧ ∃ b0 ∈ parts, ∀ x ∈ b, x ∈ b0 := by
        intro b hb
        rcases List.mem_append.mp hb with h | h
        · exact hC1 b h
        · obtain ⟨h1, h2, h3⟩ := s1 b h
          exact ⟨h1, h2, p, hpparts, h3⟩
      have hC2' : (st0.1 ++ splitPartition A p parts).Pairwise Disj := by
        rw [List.pairwise_append]
        refine ⟨hC2, s3, ?_⟩
        intro b hb b2 hb2 x hx
        obtain ⟨-, -, hsub2⟩ := s1 b2 hb2
        intro hx2
        exact hC3 b hb p (List.mem_cons_self p ps') x hx (hsub2 x hx2)
      have hC3' : ∀ b ∈ st0.1 ++ splitPartition A p parts,
          ∀ p2 ∈ ps', Disj b p2 := by
        intro b hb p2 hp2 x hx hx2
        rcases List.mem_append.mp hb with h | h
        · exact hC3 b h p2 (List.mem_cons_of_mem p hp2) x hx hx2
        · obtain ⟨-, -, hsub2⟩ := s1 b h
          exact (List.pairwise_cons.mp hpspw).1 p2 hp2 x (hsub2 x hx) hx2
      have hsub' : ∀ p2 ∈ ps', p2 ∈ parts :=
        fun p2 hp2 => hsub p2 (List.mem_cons_of_mem p hp2)
      have hpspw' : ps'.Pairwise Disj := (List.pairwise_cons.mp hpspw).2
      rw [List.foldl_cons]
      dsimp only
      by_cases hlen : (splitPartition A p parts).length > 1
      · rw [if_pos hlen]
        obtain ⟨k1, k2, k3, k4⟩ := ih (st0.1 ++ splitPartition A p parts, true)
          hsub' hpspw' hC1' hC2' hC3'
        refine ⟨k1, k2, ?_, ?_⟩
        · intro b hb
          exact k3 b (List.mem_append.mpr (Or.inl hb))
        · intro p2 hp2 x hx
          rcases List.mem_cons.mp hp2 with he | he
          · subst he
            rcases s2 x hx with ⟨b, hb, hxb⟩
            exact ⟨b, k3 b (List.mem_append.mpr (Or.inr hb)), hxb⟩
          · exact k4 p2 he x hx
      · rw [if_neg hlen]
        have hsp : splitPartition A p parts = [p] :=
          splitPartition_of_len_le (by omega)
        rw [hsp] at hC1' hC2' hC3'
        obtain ⟨k1, k2, k3, k4⟩ := ih (st0.1 ++ [p], st0.2)
          hsub' hpspw' hC1' hC2' hC3'
        refine ⟨k1, k2, ?_, ?_⟩
        · intro b hb
          exact k3 b (List.mem_append.mpr (Or.inl hb))
        · intro p2 hp2 x hx
          rcases List.mem_cons.mp hp2 with he | he
          · subst he
            rcases s2 x hx with ⟨b, hb, hxb⟩
            rw [hsp] at hb
            have hbe : b = p2 := by simpa using hb
            subst hbe
            exact ⟨b, k3 b (List.mem_append.mpr (Or.inr (by simp))), hxb⟩
          · exact k4 p2 he x hx
  obtain ⟨k1, k2, k3, k4⟩ := main parts ([], false)
    (fun p hp => hp) hpw
    (fun b hb => absurd hb (List.not_mem_nil b))
    List.Pairwise.nil
    (fun b hb => absurd hb (List.not_mem_nil b))
  exact ⟨k1, k2, k4⟩


theorem headI_mem {l : List St} (h : l ≠ []) : l.headI ∈ l := by
  cases l with
  | nil => exact absurd rfl h
  | cons x xs => exact List.mem_cons_self x xs

theorem parts_length_le {parts : List (List St)} {U : List St}
    (hgood : ∀ b ∈ parts, b ≠ []) (hpw : parts.Pairwise Disj)
    (hmem : ∀ b ∈ parts, ∀ x ∈ b, x ∈ U) :
    parts.length ≤ U.length := by
  have hnd : (parts.map List.headI).Nodup := by
    show List.Pairwise (fun a b => a ≠ b) (parts.map List.headI)
    rw [List.pairwise_map]
    refine hpw.imp_of_mem ?_
    intro b1 b2 hb1 hb2 h12 heq
    refine h12 b1.headI (headI_mem (hgood b1 hb1)) ?_
    rw [heq]
    exact headI_mem (hgood b2 hb2)
  have hsubU : ∀ x ∈ parts.map List.headI, x ∈ U := by
    intro x hx
    rcases List.mem_map.mp hx with ⟨b, hb, hbe⟩
    refine hmem b hb x ?_
    rw [← hbe]
    exact headI_mem (hgood b hb)
  have h1 : parts.length = (parts.map List.headI).length := by simp
  rw [h1]
  calc (parts.map List.headI).length
      = (parts.map List.headI).toFinset.card :=
        (List.toFinset_card_of_nodup hnd).symm
    _ ≤ U.toFinset.card := Finset.card_le_card (fun x hx =>
        List.mem_toFinset.mpr (hsubU x (List.mem_toFinset.mp hx)))
    _ ≤ U.length := List.toFinset_card_le U

theorem refineFold_bool_mono {A : Automaton} {parts : List (List St)} :
    ∀ (ps : List (List St)) (st0 : List (List St) × Bool), st0.2 = true →
    (ps.foldl (fun st p =>
        let splits := splitPartition A p parts
        if splits.length > 1 then (st.1 ++ splits, true)
        else (st.1 ++ [p], st.2)) st0).2 = true := by
  intro ps
  induction ps with
  | nil => intro st0 h; exact h
  | cons p ps' ih =>
    intro st0 h
    rw [List.foldl_cons]
    dsimp only
    split
    · exact ih _ rfl
    · exact ih _ h

theorem refineRound_unchanged {A : Automaton} {parts : List (List St)}
    (h : (refineRound A parts).2 = false) :
    (refineRound A parts).1 = parts ∧
    ∀ p ∈ parts, splitPartition A p parts = [p] := by
  unfold refineRound at h ⊢
  have main : ∀ (ps : List (List St)) (st0 : List (List St) × Bool),
      (ps.foldl (fun st p =>
          let splits := splitPartition A p parts
          if splits.length > 1 then (st.1 ++ splits, true)
          else (st.1 ++ [p], st.2)) st0).2 = false →
      (ps.foldl (fun st p =>
          let splits := splitPartition A p parts
          if splits.length > 1 then (st.1 ++ splits, true)
          else (st.1 ++ [p], st.2)) st0).1 = st0.1 ++ ps ∧
      ∀ p ∈ ps, splitPartition A p parts = [p] := by
    intro ps
    induction ps with
    | nil =>
      intro st0 _
      exact ⟨by simp, fun p hp => absurd hp (List.not_mem_nil p)⟩
    | cons p ps' ih =>
      intro st0 hf
      rw [List.foldl_cons] at hf ⊢
      dsimp only at hf ⊢
      by_cases hlen : (splitPartition A p parts).length > 1
      · rw [if_pos hlen] at hf
        exact absurd (refineFold_bool_mono ps' _ rfl) (by rw [hf]; simp)
      · rw [if_neg hlen] at hf ⊢
        obtain ⟨h1, h2⟩ := ih (st0.1 ++ [p], st0.2) hf
        refine ⟨by rw [h1]; simp, ?_⟩
        intro p2 hp2
        rcases List.mem_cons.mp hp2 with he | he
        · subst he
          exact splitPartition_of_len_le (by omega)
        · exact h2 p2 he
  obtain ⟨h1, h2⟩ := main parts ([], false) h
  exact ⟨by rw [h1]; simp, h2⟩

theorem refineRound_changed {A : Automaton} {parts : List (List St)} :
    (refineRound A parts).2 = true →
    (refineRound A parts).1.length ≥ parts.length + 1 := by
  unfold refineRound
  have main : ∀ (ps : List (List St)) (st0 : List (List St) × Bool),
      ((ps.foldl (fun st p =>
          let splits := splitPartition A p parts
          if splits.length > 1 then (st.1 ++ splits, true)
          else (st.1 ++ [p], st.2)) st0).1.length
        ≥ st0.1.length + ps.length) ∧
      (st0.2 = false →
        (ps.foldl (fun st p =>
          let splits := splitPartition A p parts
          if splits.length > 1 then (st.1 ++ splits, true)
          else (st.1 ++ [p], st.2)) st0).2 = true →
        (ps.foldl (fun st p =>
          let splits := splitPartition A p parts
          if splits.length > 1 then (st.1 ++ splits, true)
          else (st.1 ++ [p], st.2)) st0).1.length
          ≥ st0.1.length + ps.length + 1) := by
    intro ps
    induction ps with
    | nil =>
      intro st0
      constructor
      · simp
      · intro h1 h2
        have h2' : st0.2 = true := h2
        rw [h1] at h2'
        cases h2' 
    | cons p ps' ih =>
      intro st0
      rw [List.foldl_cons]
      dsimp only
      by_cases hlen : (splitPartition A p parts).length > 1
      · rw [if_pos hlen]
        have hi : (ps'.foldl (fun st p =>
            if (splitPartition A p parts).length > 1
            then (st.1 ++ splitPartition A p parts, true)
            else (st.1 ++ [p], st.2))
            (st0.1 ++ splitPartition A p parts, true)).1.length
            ≥ (st0.1 ++ splitPartition A p parts).length + ps'.length :=
          (ih (st0.1 ++ splitPartition A p parts, true)).1
        have hl : (st0.1 ++ splitPartition A p parts).length
            = st0.1.length + (splitPartition A p parts).length := by simp
        constructor
        · simp only [List.length_cons]
          omega
        · intro _ _
          simp only [List.length_cons]
          omega
      · rw [if_neg hlen]
        have hi1 : (ps'.foldl (fun st p =>
            if (splitPartition A p parts).length > 1
            then (st.1 ++ splitPartition A p parts, true)
            else (st.1 ++ [p], st.2)) (st0.1 ++ [p], st0.2)).1.length
            ≥ (st0.1 ++ [p]).length + ps'.length :=
          (ih (st0.1 ++ [p], st0.2)).1
        have hi2 : st0.2 = false →
            (ps'.foldl (fun st p =>
              if (splitPartition A p parts).length > 1
              then (st.1 ++ splitPartition A p parts, true)
              else (st.1 ++ [p], st.2)) (st0.1 ++ [p], st0.2)).2 = true →
            (ps'.foldl (fun st p =>
              if (splitPartition A p parts).length > 1
              then (st.1 ++ splitPartition A p parts, true)
              else (st.1 ++ [p], st.2)) (st0.1 ++ [p], st0.2)).1.length
              ≥ (st0.1 ++ [p]).length + ps'.length + 1 :=
          (ih (st0.1 ++ [p], st0.2)).2
        have hl : (st0.1 ++ [p]).length = st0.1.length + 1 := by simp
        constructor
        · simp only [List.length_cons]
          omega
        · intro hf ht
          have hx := hi2 hf ht
          simp only [List.length_cons]
          omega
  intro h
  have := (main parts ([], false)).2 rfl h
  simpa using this


theorem refineLoop_full_spec {A : Automaton} {U : List St} :
    ∀ (fuel : Nat) (parts : List (List St)),
    (∀ b ∈ parts, b ≠ [] ∧ b.Nodup ∧ ∀ x ∈ b, x ∈ U) →
    parts.Pairwise Disj →
    U.length + 1 ≤ parts.length + fuel →
    (∀ b ∈ refineLoop A fuel parts, b ≠ [] ∧ b.Nodup ∧
      ∃ b0 ∈ parts, ∀ x ∈ b, x ∈ b0) ∧
    (refineLoop A fuel parts).Pairwise Disj ∧
    (∀ p ∈ parts, ∀ x ∈ p, ∃ b ∈ refineLoop A fuel parts, x ∈ b) ∧
    (∀ p ∈ refineLoop A fuel parts,
      splitPartition A p (refineLoop A fuel parts) = [p]) := by
  intro fuel
  induction fuel with
  | zero =>
    intro parts hgood hpw hfuel
    have := parts_length_le (fun b hb => (hgood b hb).1) hpw
      (fun b hb => (hgood b hb).2.2)
    omega
  | succ f ih =>
    intro parts hgood hpw hfuel
    have hred : refineLoop A (f+1) parts
        = if (refineRound A parts).2 then refineLoop A f (refineRound A parts).1
          else (refineRound A parts).1 := rfl
    rw [hred]
    by_cases hch : (refineRound A parts).2 = true
    · rw [if_pos hch]
      obtain ⟨r1, r2, r3⟩ := refineRound_parts_spec
        (fun b hb => ⟨(hgood b hb).1, (hgood b hb).2.1⟩) hpw
      have hlen := refineRound_changed hch
      have hgood' : ∀ b ∈ (refineRound A parts).1, b ≠ [] ∧ b.Nodup ∧
          ∀ x ∈ b, x ∈ U := by
        intro b hb
        obtain ⟨h1, h2, b0, hb0, hsub⟩ := r1 b hb
        exact ⟨h1, h2, fun x hx => (hgood b0 hb0).2.2 x (hsub x hx)⟩
      obtain ⟨k1, k2, k3, k4⟩ := ih (refineRound A parts).1 hgood' r2
        (by omega)
      refine ⟨?_, k2, ?_, k4⟩
      · intro b hb
        obtain ⟨h1, h2, b0, hb0, hsub⟩ := k1 b hb
        obtain ⟨-, -, b1, hb1, hsub1⟩ := r1 b0 hb0
        exact ⟨h1, h2, b1, hb1, fun x hx => hsub1 x (hsub x hx)⟩
      · intro p hp x hx
        rcases r3 p hp x hx with ⟨b, hb, hxb⟩
        exact k3 b hb x hxb
    · rw [if_neg hch]
      have hfa : (refineRound A parts).2 = false := by
        cases hv : (refineRound A parts).2 with
        | false => rfl
        | true => exact absurd hv hch
      obtain ⟨heq, hstab⟩ := refineRound_unchanged hfa
      rw [heq]
      refine ⟨?_, hpw, ?_, ?_⟩
      · intro b hb
        exact ⟨(hgood b hb).1, (hgood b hb).2.1, b, hb, fun x hx => hx⟩
      · intro p hp x hx
        exact ⟨p, hp, hx⟩
      · exact hstab


theorem findSome?_eq_none_all {α β : Type} {f : α → Option β} :
    ∀ {l : List α}, l.findSome? f = none → ∀ a ∈ l, f a = none := by
  intro l
  induction l with
  | nil =>
    intro _ a ha
    exact absurd ha (List.not_mem_nil a)
  | cons x xs ih =>
    intro h a ha
    rw [List.findSome?_cons] at h
    cases hf : f x with
    | some v =>
      rw [hf] at h
      cases h
    | none =>
      rw [hf] at h
      rcases List.mem_cons.mp ha with he | he
      · exact he ▸ hf
      · exact ih h a he

theorem subset_foldl_setAdd : ∀ (l acc : List String), ∀ x ∈ l,
    x ∈ l.foldl setAdd acc := by
  intro l
  induction l with
  | nil =>
    intro acc x hx
    exact absurd hx (List.not_mem_nil x)
  | cons y ys ih =>
    intro acc x hx
    rw [List.foldl_cons]
    rcases List.mem_cons.mp hx with he | he
    · subst he
      have hy : x ∈ setAdd acc x := mem_setAdd.mpr (Or.inr rfl)
      have main : ∀ (zs : List String) (acc2 : List String), x ∈ acc2 →
          x ∈ zs.foldl setAdd acc2 := by
        intro zs
        induction zs with
        | nil => intro acc2 h; exact h
        | cons z zs' ih2 =>
          intro acc2 h
          rw [List.foldl_cons]
          exact ih2 _ (mem_setAdd.mpr (Or.inl h))
      exact main ys _ hy
    · exact ih _ x he

theorem foldl_setAdd_nodup : ∀ (l acc : List String), acc.Nodup →
    (l.foldl setAdd acc).Nodup := by
  intro l
  induction l with
  | nil => intro acc h; exact h
  | cons x xs ih =>
    intro acc h
    rw [List.foldl_cons]
    exact ih _ (setAdd_nodup h)

theorem minimizePartitions_spec {A : Automaton} {q0 : St}
    (hq0 : A.initialState = some q0) :
    (∀ b ∈ minimizePartitions A, b ≠ [] ∧ b.Nodup) ∧
    (minimizePartitions A).Pairwise Disj ∧
    (∀ b ∈ minimizePartitions A,
      (∀ x ∈ b, x ∈ A.finalStates) ∨ (∀ x ∈ b, x ∉ A.finalStates)) ∧
    (∀ q ∈ getReachableStates A, ∃ b ∈ minimizePartitions A, q ∈ b) ∧
    (∀ p ∈ minimizePartitions A,
      splitPartition A p (minimizePartitions A) = [p]) := by
  obtain ⟨hrnd, -, -⟩ := getReachableStates_spec hq0
  unfold minimizePartitions
  dsimp only
  have hfs_sub : ∀ x ∈ A.finalStates.foldl setAdd [], x ∈ A.finalStates := by
    intro x hx
    rcases mem_foldl_setAdd hx with h | h
    · exact absurd h (List.not_mem_nil x)
    · exact h
  have hfs_nd : (A.finalStates.foldl setAdd []).Nodup :=
    foldl_setAdd_nodup A.finalStates [] List.nodup_nil
  have hnf_nd : ((getReachableStates A).filter
      (fun q => q ∉ A.finalStates)).Nodup := List.Nodup.filter _ hrnd
  have hgood : ∀ b ∈ (if A.finalStates.foldl setAdd [] ≠ [] then
        [A.finalStates.foldl setAdd []] else []) ++
      (if (getReachableStates A).filter (fun q => q ∉ A.finalStates) ≠ []
        then [(getReachableStates A).filter (fun q => q ∉ A.finalStates)]
        else []),
      b ≠ [] ∧ b.Nodup ∧ ∀ x ∈ b, x ∈ A.finalStates ++ getReachableStates A := by
    intro b hb
    rcases List.mem_append.mp hb with h | h
    · split at h
      · next hne =>
        have hbe : b = A.finalStates.foldl setAdd [] := by simpa using h
        subst hbe
        exact ⟨hne, hfs_nd, fun x hx =>
          List.mem_append.mpr (Or.inl (hfs_sub x hx))⟩
      · exact absurd h (List.not_mem_nil b)
    · split at h
      · next hne =>
        have hbe : b = (getReachableStates A).filter
            (fun q => q ∉ A.finalStates) := by simpa using h
        subst hbe
        exact ⟨hne, hnf_nd, fun x hx =>
          List.mem_append.mpr (Or.inr (List.mem_of_mem_filter hx))⟩
      · exact absurd h (List.not_mem_nil b)
  have hpw : ((if A.finalStates.foldl setAdd [] ≠ [] then
        [A.finalStates.foldl setAdd []] else []) ++
      (if (getReachableStates A).filter (fun q => q ∉ A.finalStates) ≠ []
        then [(getReachableStates A).filter (fun q => q ∉ A.finalStates)]
        else [])).Pairwise Disj := by
    rw [List.pairwise_append]
    refine ⟨?_, ?_, ?_⟩
    · split
      · exact List.pairwise_singleton _ _
      · exact List.Pairwise.nil
    · split
      · exact List.pairwise_singleton _ _
      · exact List.Pairwise.nil
    · intro b1 hb1 b2 hb2 x hx1 hx2
      split at hb1
      · have hbe : b1 = A.finalStates.foldl setAdd [] := by simpa using hb1
        subst hbe
        split at hb2
        · have hbe2 : b2 = (getReachableStates A).filter
              (fun q => q ∉ A.finalStates) := by simpa using hb2
          subst hbe2
          have := List.of_mem_filter hx2
          simp only [decide_eq_true_eq] at this
          exact this (hfs_sub x hx1)
        · exact absurd hb2 (List.not_mem_nil b2)
      · exact absurd hb1 (List.not_mem_nil b1)
  have hcov : ∀ q ∈ getReachableStates A, ∃ b ∈ (if
        A.finalStates.foldl setAdd [] ≠ [] then
        [A.finalStates.foldl setAdd []] else []) ++
      (if (getReachableStates A).filter (fun q => q ∉ A.finalStates) ≠ []
        then [(getReachableStates A).filter (fun q => q ∉ A.finalStates)]
        else []), q ∈ b := by
    intro q hq
    by_cases hf : q ∈ A.finalStates
    · have hqm : q ∈ A.finalStates.foldl setAdd [] :=
        subset_foldl_setAdd A.finalStates [] q hf
      refine ⟨A.finalStates.foldl setAdd [], ?_, hqm⟩
      refine List.mem_append.mpr (Or.inl ?_)
      rw [if_pos (fun he => by rw [he] at hqm; exact List.not_mem_nil q hqm)]
      exact List.mem_singleton.mpr rfl
    · have hqm : q ∈ (getReachableStates A).filter
          (fun q => q ∉ A.finalStates) :=
        List.mem_filter.mpr ⟨hq, by simpa using hf⟩
      refine ⟨(getReachableStates A).filter (fun q => q ∉ A.finalStates),
        ?_, hqm⟩
      refine List.mem_append.mpr (Or.inr ?_)
      rw [if_pos (fun he => by rw [he] at hqm; exact List.not_mem_nil q hqm)]
      exact List.mem_singleton.mpr rfl
  obtain ⟨k1, k2, k3, k4⟩ := refineLoop_full_spec
    (A.finalStates.length + (getReachableStates A).length + 1) _
    hgood hpw (by
      have := List.length_append A.finalStates (getReachableStates A)
      omega)
  refine ⟨fun b hb => ⟨(k1 b hb).1, (k1 b hb).2.1⟩, k2, ?_, ?_, k4⟩
  · intro b hb
    obtain ⟨-, -, b0, hb0, hsub⟩ := k1 b hb
    rcases List.mem_append.mp hb0 with h | h
    · split at h
      · have hbe : b0 = A.finalStates.foldl setAdd [] := by simpa using h
        subst hbe
        exact Or.inl (fun x hx => hfs_sub x (hsub x hx))
      · exact absurd h (List.not_mem_nil b0)
    · split at h
      · have hbe : b0 = (getReachableStates A).filter
            (fun q => q ∉ A.finalStates) := by simpa using h
        subst hbe
        refine Or.inr (fun x hx => ?_)
        have := List.of_mem_filter (hsub x hx)
        simpa using this
      · exact absurd h (List.not_mem_nil b0)
  · intro q hq
    rcases hcov q hq with ⟨b0, hb0, hqb⟩
    rcases k3 b0 hb0 q hqb with ⟨b, hb, hqb2⟩
    exact ⟨b, hb, hqb2⟩


theorem stable_targetIdx {A : Automaton} {parts : List (List St)} {p : List St}
    (hstab : splitPartition A p parts = [p]) (hnd : p.Nodup)
    {q1 q2 : St} (hq1 : q1 ∈ p) (hq2 : q2 ∈ p) {a : Sym}
    (ha : a ∈ A.alphabet) :
    targetIdx A parts q1 a = targetIdx A parts q2 a := by
  by_cases hlen : p.length ≤ 1
  · cases p with
    | nil => cases hq1
    | cons x xs =>
      cases xs with
      | nil =>
        rw [List.mem_singleton.mp hq1, List.mem_singleton.mp hq2]
      | cons y ys => simp at hlen
  · unfold splitPartition at hstab
    rw [if_neg hlen] at hstab
    cases hfs : A.alphabet.findSome? (fun a =>
        let gs := splitOnSymbol A parts p a
        if gs.length > 1 then some (gs.map (·.2)) else none) with
    | some groups =>
      rw [hfs] at hstab
      dsimp only at hstab
      rcases exists_of_findSome?_eq_some hfs with ⟨a2, ha2, hsome⟩
      dsimp only at hsome
      split at hsome
      · next hgt =>
        injection hsome with hge
        rw [← hge] at hstab
        have hlg := congrArg List.length hstab
        rw [List.length_map] at hlg
        simp at hlg
        omega
      · cases hsome
    | none =>
      have hnone := findSome?_eq_none_all hfs a ha
      dsimp only at hnone
      split at hnone
      · cases hnone
      · next hng =>
        obtain ⟨g1spec, g2spec, -, g4spec⟩ := @splitOnSymbol_spec A parts p a hnd
        rcases (g2spec q1).mpr hq1 with ⟨g1, hg1, hq1g⟩
        rcases (g2spec q2).mpr hq2 with ⟨g2, hg2, hq2g⟩
        have hgeq : g1 = g2 := by
          cases hgs : splitOnSymbol A parts p a with
          | nil =>
            rw [hgs] at hg1
            cases hg1
          | cons g gs' =>
            cases gs' with
            | nil =>
              rw [hgs] at hg1 hg2
              rw [List.mem_singleton.mp hg1, List.mem_singleton.mp hg2]
            | cons g2h gs'' =>
              rw [hgs] at hng
              simp at hng
        rw [← g4spec g1 hg1 q1 hq1g, ← g4spec g2 hg2 q2 hq2g, hgeq]


theorem objGet_smapFold_notmem (v : St) : ∀ (p : List St)
    (mp : List (St × St)) (q : St), q ∉ p →
    objGet (p.foldl (fun mp q2 => objSet mp q2 v) mp) q = objGet mp q := by
  intro p
  induction p with
  | nil => intro mp q _; rfl
  | cons x p' ih =>
    intro mp q hq
    rw [List.foldl_cons]
    rw [ih _ q (fun hc => hq (List.mem_cons_of_mem x hc))]
    exact objGet_objSet_ne v (fun he => hq (he ▸ List.mem_cons_self x p'))

theorem objGet_smapFold_mem (v : St) : ∀ (p : List St)
    (mp : List (St × St)) (q : St), q ∈ p →
    objGet (p.foldl (fun mp q2 => objSet mp q2 v) mp) q = some v := by
  intro p
  induction p with
  | nil =>
    intro mp q hq
    exact absurd hq (List.not_mem_nil q)
  | cons x p' ih =>
    intro mp q hq
    rw [List.foldl_cons]
    by_cases hq' : q ∈ p'
    · exact ih _ q hq'
    · have hqx : q = x := by
        rcases List.mem_cons.mp hq with h | h
        · exact h
        · exact absurd h hq'
      subst hqx
      rw [objGet_smapFold_notmem v p' _ q hq']
      exact objGet_objSet_self _ q v

theorem st1_step_proj (m0 : Automaton) (pn : St) (hI cF : Bool)
    (hfs : pn ∉ m0.states) (hff : pn ∉ m0.finalStates) :
    ((if cF then toggleFinalState (if hI then
        setInitialState (addState m0 pn) pn else addState m0 pn) pn true
      else (if hI then setInitialState (addState m0 pn) pn
        else addState m0 pn)).type = m0.type) ∧
    ((if cF then toggleFinalState (if hI then
        setInitialState (addState m0 pn) pn else addState m0 pn) pn true
      else (if hI then setInitialState (addState m0 pn) pn
        else addState m0 pn)).alphabet = m0.alphabet) ∧
    ((if cF then toggleFinalState (if hI then
        setInitialState (addState m0 pn) pn else addState m0 pn) pn true
      else (if hI then setInitialState (addState m0 pn) pn
        else addState m0 pn)).transitions = m0.transitions) ∧
    ((if cF then toggleFinalState (if hI then
        setInitialState (addState m0 pn) pn else addState m0 pn) pn true
      else (if hI then setInitialState (addState m0 pn) pn
        else addState m0 pn)).states = m0.states ++ [pn]) ∧
    ((if cF then toggleFinalState (if hI then
        setInitialState (addState m0 pn) pn else addState m0 pn) pn true
      else (if hI then setInitialState (addState m0 pn) pn
        else addState m0 pn)).initialState
        = (if hI then some pn else m0.initialState)) ∧
    ((if cF then toggleFinalState (if hI then
        setInitialState (addState m0 pn) pn else addState m0 pn) pn true
      else (if hI then setInitialState (addState m0 pn) pn
        else addState m0 pn)).finalStates
        = (if cF then m0.finalStates ++ [pn] else m0.finalStates)) := by
  have hmem : pn ∈ setAdd m0.states pn := mem_setAdd.mpr (Or.inr rfl)
  have hsa : setAdd m0.states pn = m0.states ++ [pn] := setAdd_of_not_mem hfs
  have hfa : setAdd m0.finalStates pn = m0.finalStates ++ [pn] :=
    setAdd_of_not_mem hff
  cases hI <;> cases cF <;>
    simp [addState, setInitialState, toggleFinalState, hmem, hsa, hfa]


theorem st1_spec {A : Automaton} {q0 : St} (hq0 : A.initialState = some q0) :
    ∀ (ps : List (List St)) (n : Nat) (acc : Automaton × List (St × St)),
    (∀ i, n ≤ i → "q" ++ toString i ∉ acc.1.states) →
    (∀ i, n ≤ i → "q" ++ toString i ∉ acc.1.finalStates) →
    (((List.enumFrom n ps).foldl
      (fun (st : Automaton × List (St × St)) ip =>
        let pname := "q" ++ toString ip.1
        let m := addState st.1 pname
        let smap := ip.2.foldl (fun mp q => objSet mp q pname) st.2
        let hasInit : Bool := match A.initialState with
          | some q1 => q1 ∈ ip.2
          | none => false
        let m := if hasInit then setInitialState m pname else m
        let m := if containsFinal A ip.2 then toggleFinalState m pname true
          else m
        (m, smap)) acc).1.type = acc.1.type) ∧
    (((List.enumFrom n ps).foldl
      (fun (st : Automaton × List (St × St)) ip =>
        let pname := "q" ++ toString ip.1
        let m := addState st.1 pname
        let smap := ip.2.foldl (fun mp q => objSet mp q pname) st.2
        let hasInit : Bool := match A.initialState with
          | some q1 => q1 ∈ ip.2
          | none => false
        let m := if hasInit then setInitialState m pname else m
        let m := if containsFinal A ip.2 then toggleFinalState m pname true
          else m
        (m, smap)) acc).1.alphabet = acc.1.alphabet) ∧
    (((List.enumFrom n ps).foldl
      (fun (st : Automaton × List (St × St)) ip =>
        let pname := "q" ++ toString ip.1
        let m := addState st.1 pname
        let smap := ip.2.foldl (fun mp q => objSet mp q pname) st.2
        let hasInit : Bool := match A.initialState with
          | some q1 => q1 ∈ ip.2
          | none => false
        let m := if hasInit then setInitialState m pname else m
        let m := if containsFinal A ip.2 then toggleFinalState m pname true
          else m
        (m, smap)) acc).1.transitions = acc.1.transitions) ∧
    (((List.enumFrom n ps).foldl
      (fun (st : Automaton × List (St × St)) ip =>
        let pname := "q" ++ toString ip.1
        let m := addState st.1 pname
        let smap := ip.2.foldl (fun mp q => objSet mp q pname) st.2
        let hasInit : Bool := match A.initialState with
          | some q1 => q1 ∈ ip.2
          | none => false
        let m := if hasInit then setInitialState m pname else m
        let m := if containsFinal A ip.2 then toggleFinalState m pname true
          else m
        (m, smap)) acc).1.states = acc.1.states
          ++ (List.range' n ps.length).map (fun i => "q" ++ toString i)) ∧
    (((List.enumFrom n ps).foldl
      (fun (st : Automaton × List (St × St)) ip =>
        let pname := "q" ++ toString ip.1
        let m := addState st.1 pname
        let smap := ip.2.foldl (fun mp q => objSet mp q pname) st.2
        let hasInit : Bool := match A.initialState with
          | some q1 => q1 ∈ ip.2
          | none => false
        let m := if hasInit then setInitialState m pname else m
        let m := if containsFinal A ip.2 then toggleFinalState m pname true
          else m
        (m, smap)) acc).1.finalStates = acc.1.finalStates
          ++ ((List.enumFrom n ps).filter
              (fun ip => containsFinal A ip.2)).map
            (fun ip => "q" ++ toString ip.1)) ∧
    ((∀ ip ∈ List.enumFrom n ps, q0 ∉ ip.2) →
      ((List.enumFrom n ps).foldl
        (fun (st : Automaton × List (St × St)) ip =>
          let pname := "q" ++ toString ip.1
          let m := addState st.1 pname
          let smap := ip.2.foldl (fun mp q => objSet mp q pname) st.2
          let hasInit : Bool := match A.initialState with
            | some q1 => q1 ∈ ip.2
            | none => false
          let m := if hasInit then setInitialState m pname else m
          let m := if containsFinal A ip.2 then toggleFinalState m pname true
            else m
          (m, smap)) acc).1.initialState = acc.1.initialState) ∧
    (∀ ip ∈ List.enumFrom n ps, q0 ∈ ip.2 →
      (∀ ip2 ∈ List.enumFrom n ps, ip2.1 ≠ ip.1 → q0 ∉ ip2.2) →
      ((List.enumFrom n ps).foldl
        (fun (st : Automaton × List (St × St)) ip =>
          let pname := "q" ++ toString ip.1
          let m := addState st.1 pname
          let smap := ip.2.foldl (fun mp q => objSet mp q pname) st.2
          let hasInit : Bool := match A.initialState with
            | some q1 => q1 ∈ ip.2
            | none => false
          let m := if hasInit then setInitialState m pname else m
          let m := if containsFinal A ip.2 then toggleFinalState m pname true
            else m
          (m, smap)) acc).1.initialState = some ("q" ++ toString ip.1)) ∧
    (∀ q, (∀ ip ∈ List.enumFrom n ps, q ∉ ip.2) →
      objGet ((List.enumFrom n ps).foldl
        (fun (st : Automaton × List (St × St)) ip =>
          let pname := "q" ++ toString ip.1
          let m := addState st.1 pname
          let smap := ip.2.foldl (fun mp q => objSet mp q pname) st.2
          let hasInit : Bool := match A.initialState with
            | some q1 => q1 ∈ ip.2
            | none => false
          let m := if hasInit then setInitialState m pname else m
          let m := if containsFinal A ip.2 then toggleFinalState m pname true
            else m
          (m, smap)) acc).2 q = objGet acc.2 q) ∧
    (∀ q, ∀ ip ∈ List.enumFrom n ps, q ∈ ip.2 →
      (∀ ip2 ∈ List.enumFrom n ps, ip2.1 ≠ ip.1 → q ∉ ip2.2) →
      objGet ((List.enumFrom n ps).foldl
        (fun (st : Automaton × List (St × St)) ip =>
          let pname := "q" ++ toString ip.1
          let m := addState st.1 pname
          let smap := ip.2.foldl (fun mp q => objSet mp q pname) st.2
          let hasInit : Bool := match A.initialState with
            | some q1 => q1 ∈ ip.2
            | none => false
          let m := if hasInit then setInitialState m pname else m
          let m := if containsFinal A ip.2 then toggleFinalState m pname true
            else m
          (m, smap)) acc).2 q = some ("q" ++ toString ip.1)) := by
  intro ps
  induction ps with
  | nil =>
    intro n acc _ _
    refine ⟨rfl, rfl, rfl, by simp, by simp, fun _ => rfl, ?_, fun q _ => rfl, ?_⟩
    · intro ip hip
      exact absurd hip (List.not_mem_nil ip)
    · intro q ip hip
      exact absurd hip (List.not_mem_nil ip)
  | cons p ps' ih =>
    intro n acc hfs hff
    rw [show List.enumFrom n (p :: ps') = (n, p) :: List.enumFrom (n + 1) ps'
      from rfl]
    rw [List.foldl_cons]
    dsimp only
    obtain ⟨e1, e2, e3, e4, e5, e6⟩ := st1_step_proj acc.1 ("q" ++ toString n)
      (match A.initialState with
        | some q1 => decide (q1 ∈ p)
        | none => false)
      (containsFinal A p) (hfs n (Nat.le_refl n)) (hff n (Nat.le_refl n))
    have hqne : ∀ i, n + 1 ≤ i → "q" ++ toString i ≠ "q" ++ toString n := by
      intro i hi he
      have : i = n := blockName_inj (show blockName i = blockName n from he)
      omega
    have hfs' : ∀ i, n + 1 ≤ i → "q" ++ toString i ∉
        ((if containsFinal A p then
            toggleFinalState (if (match A.initialState with
              | some q1 => decide (q1 ∈ p)
              | none => false) then
              setInitialState (addState acc.1 ("q" ++ toString n))
                ("q" ++ toString n)
              else addState acc.1 ("q" ++ toString n)) ("q" ++ toString n) true
          else (if (match A.initialState with
              | some q1 => decide (q1 ∈ p)
              | none => false) then
              setInitialState (addState acc.1 ("q" ++ toString n))
                ("q" ++ toString n)
              else addState acc.1 ("q" ++ toString n))),
          p.foldl (fun mp q => objSet mp q ("q" ++ toString n)) acc.2).1.states := by
      intro i hi
      rw [e4]
      intro hc
      rcases List.mem_append.mp hc with h | h
      · exact hfs i (by omega) h
      · exact hqne i hi (List.mem_singleton.mp h)
    have hff' : ∀ i, n + 1 ≤ i → "q" ++ toString i ∉
        ((if containsFinal A p then
            toggleFinalState (if (match A.initialState with
              | some q1 => decide (q1 ∈ p)
              | none => false) then
              setInitialState (addState acc.1 ("q" ++ toString n))
                ("q" ++ toString n)
              else addState acc.1 ("q" ++ toString n)) ("q" ++ toString n) true
          else (if (match A.initialState with
              | some q1 => decide (q1 ∈ p)
              | none => false) then
              setInitialState (addState acc.1 ("q" ++ toString n))
                ("q" ++ toString n)
              else addState acc.1 ("q" ++ toString n))),
          p.foldl (fun mp q => objSet mp q ("q" ++ toString n)) acc.2).1.finalStates := by
      intro i hi
      rw [e6]
      intro hc
      split at hc
      · rcases List.mem_append.mp hc with h | h
        · exact hff i (by omega) h
        · exact hqne i hi (List.mem_singleton.mp h)
      · exact hff i (by omega) hc
    obtain ⟨k1, k2, k3, k4, k5, k6, k7, k8, k9⟩ := ih (n + 1) _ hfs' hff'
    refine ⟨?_, ?_, ?_, ?_, ?_, ?_, ?_, ?_, ?_⟩
    · rw [k1]
      exact e1
    · rw [k2]
      exact e2
    · rw [k3]
      exact e3
    · rw [k4, e4]
      rw [show List.range' n (p :: ps').length
          = n :: List.range' (n + 1) ps'.length
          from List.range'_succ n ps'.length 1]
      simp
    · rw [k5, e6]
      rw [show ((n, p) :: List.enumFrom (n + 1) ps').filter
            (fun ip => containsFinal A ip.2)
          = (if containsFinal A (n, p).2 then
              (n, p) :: (List.enumFrom (n + 1) ps').filter
                (fun ip => containsFinal A ip.2)
            else (List.enumFrom (n + 1) ps').filter
              (fun ip => containsFinal A ip.2)) from List.filter_cons]
      by_cases hcf : containsFinal A p = true
      · rw [if_pos hcf, if_pos hcf]
        rw [List.map_cons, List.append_assoc, List.singleton_append]
      · rw [if_neg hcf, if_neg hcf]
    · intro hnone
      have hq0p : q0 ∉ p := hnone (n, p) (List.mem_cons_self _ _)
      have hImatch : (match A.initialState with
          | some q1 => decide (q1 ∈ p)
          | none => false) = false := by
        rw [hq0]
        exact decide_eq_false hq0p
      rw [k6 (fun ip hip => hnone ip (List.mem_cons_of_mem _ hip))]
      rw [e5, hImatch]
      simp
    · intro ip hip hq0ip huniq
      rcases List.mem_cons.mp hip with he | he
      · subst he
        dsimp only at hq0ip
        have hImatch : (match A.initialState with
            | some q1 => decide (q1 ∈ p)
            | none => false) = true := by
          rw [hq0]
          exact decide_eq_true hq0ip
        have hrest : ∀ ip2 ∈ List.enumFrom (n + 1) ps', q0 ∉ ip2.2 := by
          intro ip2 hip2
          refine huniq ip2 (List.mem_cons_of_mem _ hip2) ?_
          have := List.le_fst_of_mem_enumFrom hip2
          dsimp only
          omega
        rw [k6 hrest, e5, hImatch]
        simp
      · have hne : (n, p).1 ≠ ip.1 := by
          have := List.le_fst_of_mem_enumFrom he
          dsimp only
          omega
        exact k7 ip he hq0ip (fun ip2 hip2 hne2 =>
          huniq ip2 (List.mem_cons_of_mem _ hip2) hne2)
    · intro q hnone
      have hqp : q ∉ p := hnone (n, p) (List.mem_cons_self _ _)
      rw [k8 q (fun ip hip => hnone ip (List.mem_cons_of_mem _ hip))]
      exact objGet_smapFold_notmem _ p acc.2 q hqp
    · intro q ip hip hqip huniq
      rcases List.mem_cons.mp hip with he | he
      · subst he
        dsimp only at hqip
        have hrest : ∀ ip2 ∈ List.enumFrom (n + 1) ps', q ∉ ip2.2 := by
          intro ip2 hip2
          refine huniq ip2 (List.mem_cons_of_mem _ hip2) ?_
          have := List.le_fst_of_mem_enumFrom hip2
          dsimp only
          omega
        rw [k8 q hrest]
        exact objGet_smapFold_mem _ p acc.2 q hqip
      · exact k9 q ip he hqip (fun ip2 hip2 hne2 =>
          huniq ip2 (List.mem_cons_of_mem _ hip2) hne2)


/-- The transition the minimizer writes for a representative row entry: the
raw target, if truthy and mapped to a block name. -/
def repTrans (smap : List (St × St)) (row : Row) (a : Sym) : Option Tgt :=
  match objGet row a with
  | some (Tgt.dfa t) =>
    if t ≠ "" then
      match objGet smap t with
      | some tname => some (Tgt.dfa tname)
      | none => none
    else none
  | _ => none

theorem m2_inner_spec {A : Automaton} {smap : List (St × St)} {row : Row}
    {pname : St} :
    ∀ (syms : List Sym) (mm : Automaton), mm.type = Kind.DFA →
    pname ∈ mm.states →
    (∀ t tname, objGet smap t = some tname → tname ∈ mm.states) →
    ((syms.foldl (fun mm a =>
        match objGet row a with
        | some (.dfa t) =>
          if t ≠ "" then
            match objGet smap t with
            | some tname => addTransition mm pname a tname
            | none => mm
          else mm
        | _ => mm) mm).type = Kind.DFA ∧
    (syms.foldl (fun mm a =>
        match objGet row a with
        | some (.dfa t) =>
          if t ≠ "" then
            match objGet smap t with
            | some tname => addTransition mm pname a tname
            | none => mm
          else mm
        | _ => mm) mm).states = mm.states ∧
    (syms.foldl (fun mm a =>
        match objGet row a with
        | some (.dfa t) =>
          if t ≠ "" then
            match objGet smap t with
            | some tname => addTransition mm pname a tname
            | none => mm
          else mm
        | _ => mm) mm).initialState = mm.initialState ∧
    (syms.foldl (fun mm a =>
        match objGet row a with
        | some (.dfa t) =>
          if t ≠ "" then
            match objGet smap t with
            | some tname => addTransition mm pname a tname
            | none => mm
          else mm
        | _ => mm) mm).finalStates = mm.finalStates ∧
    ∀ k' a', lookup2 (syms.foldl (fun mm a =>
        match objGet row a with
        | some (.dfa t) =>
          if t ≠ "" then
            match objGet smap t with
            | some tname => addTransition mm pname a tname
            | none => mm
          else mm
        | _ => mm) mm) k' a' =
      if k' = pname ∧ a' ∈ syms ∧ (repTrans smap row a').isSome
      then repTrans smap row a' else lookup2 mm k' a') := by
  intro syms
  induction syms with
  | nil =>
    intro mm htype hpn hsmap
    refine ⟨htype, rfl, rfl, rfl, ?_⟩
    intro k' a'
    rw [if_neg (fun hc => List.not_mem_nil a' hc.2.1)]
    rfl
  | cons a syms' ih =>
    intro mm htype hpn hsmap
    rw [List.foldl_cons]
    have hstep : ∀ (mm' : Automaton), mm'.type = Kind.DFA →
        pname ∈ mm'.states →
        (∀ t tname, objGet smap t = some tname → tname ∈ mm'.states) →
        ((match objGet row a with
          | some (.dfa t) =>
            if t ≠ "" then
              match objGet smap t with
              | some tname => addTransition mm' pname a tname
              | none => mm'
            else mm'
          | _ => mm').type = Kind.DFA ∧
        (match objGet row a with
          | some (.dfa t) =>
            if t ≠ "" then
              match objGet smap t with
              | some tname => addTransition mm' pname a tname
              | none => mm'
            else mm'
          | _ => mm').states = mm'.states ∧
        (match objGet row a with
          | some (.dfa t) =>
            if t ≠ "" then
              match objGet smap t with
              | some tname => addTransition mm' pname a tname
              | none => mm'
            else mm'
          | _ => mm').initialState = mm'.initialState ∧
        (match objGet row a with
          | some (.dfa t) =>
            if t ≠ "" then
              match objGet smap t with
              | some tname => addTransition mm' pname a tname
              | none => mm'
            else mm'
          | _ => mm').finalStates = mm'.finalStates ∧
        ∀ k' a', lookup2 (match objGet row a with
          | some (.dfa t) =>
            if t ≠ "" then
              match objGet smap t with
              | some tname => addTransition mm' pname a tname
              | none => mm'
            else mm'
          | _ => mm') k' a' =
          if k' = pname ∧ a' = a ∧ (repTrans smap row a).isSome
          then repTrans smap row a else lookup2 mm' k' a') := by
      intro mm' htype' hpn' hsmap'
      unfold repTrans
      cases hrow : objGet row a with
      | none =>
        dsimp only
        refine ⟨htype', rfl, rfl, rfl, ?_⟩
        intro k' a'
        rw [if_neg (fun hc => by simpa using hc.2.2)]
      | some tg =>
        cases tg with
        | nfa ts =>
          dsimp only
          refine ⟨htype', rfl, rfl, rfl, ?_⟩
          intro k' a'
          rw [if_neg (fun hc => by simpa using hc.2.2)]
        | dfa t =>
          dsimp only
          by_cases ht : t ≠ ""
          · simp only [if_pos ht]
            cases hsm : objGet smap t with
            | none =>
              dsimp only
              refine ⟨htype', rfl, rfl, rfl, ?_⟩
              intro k' a'
              rw [if_neg (fun hc => by simpa using hc.2.2)]
            | some tname =>
              dsimp only
              obtain ⟨f1, f2, f3, f4⟩ := addTransition_fields pname tname a
              refine ⟨by rw [f1]; exact htype', f2, f3, f4, ?_⟩
              intro k' a'
              rw [lookup2_addTransition_dfa htype'
                ⟨hpn', hsmap' t tname hsm⟩ a k' a']
              by_cases hk : k' = pname ∧ a' = a
              · rw [if_pos hk, if_pos (show k' = pname ∧ a' = a ∧
                  (some (Tgt.dfa tname)).isSome = true from ⟨hk.1, hk.2, rfl⟩)]
              · rw [if_neg hk, if_neg (fun hc => hk ⟨hc.1, hc.2.1⟩)]
          · simp only [if_neg ht]
            refine ⟨htype', trivial, trivial, trivial, ?_⟩
            intro k' a'
            rw [if_neg (fun hc => by simpa using hc.2.2)]
    obtain ⟨s1, s2, s3, s4, s5⟩ := hstep mm htype hpn hsmap
    obtain ⟨r1, r2, r3, r4, r5⟩ := ih _ s1 (s2 ▸ hpn)
      (fun t tname h => s2 ▸ hsmap t tname h)
    refine ⟨r1, by rw [r2, s2], by rw [r3, s3], by rw [r4, s4], ?_⟩
    intro k' a'
    rw [r5 k' a', s5 k' a']
    by_cases hk : k' = pname
    · subst hk
      by_cases hmem : a' ∈ syms'
      · by_cases hsome : (repTrans smap row a').isSome = true
        · rw [if_pos ⟨rfl, hmem, hsome⟩,
            if_pos ⟨rfl, List.mem_cons_of_mem a hmem, hsome⟩]
        · rw [if_neg (fun hc => hsome hc.2.2)]
          by_cases ha : a' = a
          · subst ha
            rw [if_neg (fun hc => hsome hc.2.2),
              if_neg (fun hc => hsome hc.2.2)]
          · rw [if_neg (fun hc => ha hc.2.1),
              if_neg (fun hc => hsome hc.2.2)]
      · by_cases ha : a' = a
        · subst ha
          by_cases hsome : (repTrans smap row a').isSome = true
          · rw [if_neg (fun hc => hmem hc.2.1),
              if_pos ⟨rfl, rfl, hsome⟩,
              if_pos ⟨rfl, List.mem_cons_self a' syms', hsome⟩]
          · rw [if_neg (fun hc => hmem hc.2.1),
              if_neg (fun hc => hsome hc.2.2),
              if_neg (fun hc => hsome hc.2.2)]
        · rw [if_neg (fun hc => hmem hc.2.1),
            if_neg (fun hc => ha hc.2.1),
            if_neg (fun hc => by
              rcases List.mem_cons.mp hc.2.1 with h | h
              · exact ha h
              · exact hmem h)]
    · rw [if_neg (fun hc => hk hc.1), if_neg (fun hc => hk hc.1),
        if_neg (fun hc => hk hc.1)]


theorem m2_outer_fields {A : Automaton} {smap : List (St × St)} :
    ∀ (bs : List (List St)) (m : Automaton), m.type = Kind.DFA →
    (∀ t tname, objGet smap t = some tname → tname ∈ m.states) →
    (bs.foldl (fun m part =>
        match part.head? with
        | none => m
        | some rep =>
          match objGet smap rep with
          | none => m
          | some pname =>
            match objGet A.transitions rep with
            | none => m
            | some row =>
              A.alphabet.foldl (fun mm a =>
                match objGet row a with
                | some (.dfa t) =>
                  if t ≠ "" then
                    match objGet smap t with
                    | some tname => addTransition mm pname a tname
                    | none => mm
                  else mm
                | _ => mm) m) m).type = Kind.DFA ∧
    (bs.foldl (fun m part =>
        match part.head? with
        | none => m
        | some rep =>
          match objGet smap rep with
          | none => m
          | some pname =>
            match objGet A.transitions rep with
            | none => m
            | some row =>
              A.alphabet.foldl (fun mm a =>
                match objGet row a with
                | some (.dfa t) =>
                  if t ≠ "" then
                    match objGet smap t with
                    | some tname => addTransition mm pname a tname
                    | none => mm
                  else mm
                | _ => mm) m) m).states = m.states ∧
    (bs.foldl (fun m part =>
        match part.head? with
        | none => m
        | some rep =>
          match objGet smap rep with
          | none => m
          | some pname =>
            match objGet A.transitions rep with
            | none => m
            | some row =>
              A.alphabet.foldl (fun mm a =>
                match objGet row a with
                | some (.dfa t) =>
                  if t ≠ "" then
                    match objGet smap t with
                    | some tname => addTransition mm pname a tname
                    | none => mm
                  else mm
                | _ => mm) m) m).initialState = m.initialState ∧
    (bs.foldl (fun m part =>
        match part.head? with
        | none => m
        | some rep =>
          match objGet smap rep with
          | none => m
          | some pname =>
            match objGet A.transitions rep with
            | none => m
            | some row =>
              A.alphabet.foldl (fun mm a =>
                match objGet row a with
                | some (.dfa t) =>
                  if t ≠ "" then
                    match objGet smap t with
                    | some tname => addTransition mm pname a tname
                    | none => mm
                  else mm
                | _ => mm) m) m).finalStates = m.finalStates := by
  intro bs
  induction bs with
  | nil =>
    intro m htype _
    exact ⟨htype, rfl, rfl, rfl⟩
  | cons b bs' ih =>
    intro m htype hsmap
    rw [List.foldl_cons]
    cases hh : b.head? with
    | none =>
      dsimp only
      exact ih m htype hsmap
    | some rep =>
      dsimp only
      cases hsr : objGet smap rep with
      | none =>
        dsimp only
        exact ih m htype hsmap
      | some pname =>
        dsimp only
        cases htr : objGet A.transitions rep with
        | none =>
          dsimp only
          exact ih m htype hsmap
        | some row =>
          dsimp only
          have hpn : pname ∈ m.states := hsmap rep pname hsr
          obtain ⟨i1, i2, i3, i4, -⟩ := @m2_inner_spec A smap row pname
            A.alphabet m htype hpn hsmap
          obtain ⟨k1, k2, k3, k4⟩ := ih _ i1 (fun t tname h => i2 ▸ hsmap t tname h)
          exact ⟨k1, by rw [k2, i2], by rw [k3, i3], by rw [k4, i4]⟩

theorem m2_outer_untouched {A : Automaton} {smap : List (St × St)} :
    ∀ (bs : List (List St)) (m : Automaton), m.type = Kind.DFA →
    (∀ t tname, objGet smap t = some tname → tname ∈ m.states) →
    ∀ k', (∀ b ∈ bs, ∀ rep, b.head? = some rep →
      ∀ pn, objGet smap rep = some pn → pn ≠ k') →
    ∀ a', lookup2 (bs.foldl (fun m part =>
        match part.head? with
        | none => m
        | some rep =>
          match objGet smap rep with
          | none => m
          | some pname =>
            match objGet A.transitions rep with
            | none => m
            | some row =>
              A.alphabet.foldl (fun mm a =>
                match objGet row a with
                | some (.dfa t) =>
                  if t ≠ "" then
                    match objGet smap t with
                    | some tname => addTransition mm pname a tname
                    | none => mm
                  else mm
                | _ => mm) m) m) k' a' = lookup2 m k' a' := by
  intro bs
  induction bs with
  | nil =>
    intro m _ _ k' _ a'
    rfl
  | cons b bs' ih =>
    intro m htype hsmap k' huntouched a'
    rw [List.foldl_cons]
    cases hh : b.head? with
    | none =>
      dsimp only
      exact ih m htype hsmap k'
        (fun b2 hb2 => huntouched b2 (List.mem_cons_of_mem b hb2)) a'
    | some rep =>
      dsimp only
      cases hsr : objGet smap rep with
      | none =>
        dsimp only
        exact ih m htype hsmap k'
          (fun b2 hb2 => huntouched b2 (List.mem_cons_of_mem b hb2)) a'
      | some pname =>
        dsimp only
        cases htr : objGet A.transitions rep with
        | none =>
          dsimp only
          exact ih m htype hsmap k'
            (fun b2 hb2 => huntouched b2 (List.mem_cons_of_mem b hb2)) a'
        | some row =>
          dsimp only
          have hpn : pname ∈ m.states := hsmap rep pname hsr
          obtain ⟨i1, i2, i3, i4, i5⟩ := @m2_inner_spec A smap row pname
            A.alphabet m htype hpn hsmap
          rw [ih _ i1 (fun t tname h => i2 ▸ hsmap t tname h) k'
            (fun b2 hb2 => huntouched b2 (List.mem_cons_of_mem b hb2)) a']
          rw [i5 k' a']
          rw [if_neg (fun hc =>
            huntouched b (List.mem_cons_self b bs') rep hh pname hsr hc.1.symm)]

theorem m2_outer_spec {A : Automaton} {smap : List (St × St)} :
    ∀ (bs : List (List St)) (m : Automaton), m.type = Kind.DFA →
    (∀ t tname, objGet smap t = some tname → tname ∈ m.states) →
    ∀ p ∈ bs, ∀ rep pname, p.head? = some rep →
    objGet smap rep = some pname →
    (∀ b2 ∈ bs, b2 ≠ p → ∀ rep2, b2.head? = some rep2 →
      ∀ pn2, objGet smap rep2 = some pn2 → pn2 ≠ pname) →
    bs.Nodup →
    ∀ a', lookup2 (bs.foldl (fun m part =>
        match part.head? with
        | none => m
        | some rep =>
          match objGet smap rep with
          | none => m
          | some pname =>
            match objGet A.transitions rep with
            | none => m
            | some row =>
              A.alphabet.foldl (fun mm a =>
                match objGet row a with
                | some (.dfa t) =>
                  if t ≠ "" then
                    match objGet smap t with
                    | some tname => addTransition mm pname a tname
                    | none => mm
                  else mm
                | _ => mm) m) m) pname a' =
      (match objGet A.transitions rep with
       | some row =>
         if a' ∈ A.alphabet ∧ (repTrans smap row a').isSome
         then repTrans smap row a' else lookup2 m pname a'
       | none => lookup2 m pname a') := by
  intro bs
  induction bs with
  | nil =>
    intro m _ _ p hp
    exact absurd hp (List.not_mem_nil p)
  | cons b bs' ih =>
    intro m htype hsmap p hp rep pname hh hsr hothers hnd a'
    rcases List.mem_cons.mp hp with he | he
    · subst he
      rw [List.foldl_cons, hh]
      dsimp only
      rw [hsr]
      dsimp only
      cases htr : objGet A.transitions rep with
      | none =>
        dsimp only
        exact m2_outer_untouched bs' m htype hsmap pname
          (fun b2 hb2 rep2 hh2 pn2 hsr2 =>
            hothers b2 (List.mem_cons_of_mem p hb2)
              (fun hc => (List.nodup_cons.mp hnd).1 (hc ▸ hb2))
              rep2 hh2 pn2 hsr2) a'
      | some row =>
        dsimp only
        have hpn : pname ∈ m.states := hsmap rep pname hsr
        obtain ⟨i1, i2, i3, i4, i5⟩ := @m2_inner_spec A smap row pname
          A.alphabet m htype hpn hsmap
        rw [m2_outer_untouched bs' _ i1
          (fun t tname h => i2 ▸ hsmap t tname h) pname
          (fun b2 hb2 rep2 hh2 pn2 hsr2 =>
            hothers b2 (List.mem_cons_of_mem p hb2)
              (fun hc => (List.nodup_cons.mp hnd).1 (hc ▸ hb2))
              rep2 hh2 pn2 hsr2) a']
        rw [i5 pname a']
        by_cases hc : a' ∈ A.alphabet ∧ (repTrans smap row a').isSome = true
        · rw [if_pos ⟨rfl, hc.1, hc.2⟩, if_pos hc]
        · rw [if_neg (fun hc2 => hc ⟨hc2.2.1, hc2.2.2⟩), if_neg hc]
    · rw [List.foldl_cons]
      have hbne : b ≠ p := fun hc => (List.nodup_cons.mp hnd).1 (hc ▸ he)
      have hrec : ∀ (m1 : Automaton), m1.type = Kind.DFA →
          (∀ t tname, objGet smap t = some tname → tname ∈ m1.states) →
          lookup2 (bs'.foldl (fun m part =>
            match part.head? with
            | none => m
            | some rep =>
              match objGet smap rep with
              | none => m
              | some pname =>
                match objGet A.transitions rep with
                | none => m
                | some row =>
                  A.alphabet.foldl (fun mm a =>
                    match objGet row a with
                    | some (.dfa t) =>
                      if t ≠ "" then
                        match objGet smap t with
                        | some tname => addTransition mm pname a tname
                        | none => mm
                      else mm
                    | _ => mm) m) m1) pname a' =
          (match objGet A.transitions rep with
           | some row =>
             if a' ∈ A.alphabet ∧ (repTrans smap row a').isSome
             then repTrans smap row a' else lookup2 m1 pname a'
           | none => lookup2 m1 pname a') := by
        intro m1 h1 h2
        exact ih m1 h1 h2 p he rep pname hh hsr
          (fun b2 hb2 hne2 => hothers b2 (List.mem_cons_of_mem b hb2) hne2)
          (List.nodup_cons.mp hnd).2 a'
      cases hh2 : b.head? with
      | none =>
        dsimp only
        exact hrec m htype hsmap
      | some rep2 =>
        dsimp only
        cases hsr2 : objGet smap rep2 with
        | none =>
          dsimp only
          exact hrec m htype hsmap
        | some pn2 =>
          dsimp only
          cases htr2 : objGet A.transitions rep2 with
          | none =>
            dsimp only
            exact hrec m htype hsmap
          | some row2 =>
            dsimp only
            have hpn2 : pn2 ∈ m.states := hsmap rep2 pn2 hsr2
            obtain ⟨i1, i2, i3, i4, i5⟩ := @m2_inner_spec A smap row2 pn2
              A.alphabet m htype hpn2 hsmap
            rw [hrec _ i1 (fun t tname h => i2 ▸ hsmap t tname h)]
            have hne : pn2 ≠ pname :=
              hothers b (List.mem_cons_self b bs') hbne rep2 hh2 pn2 hsr2
            cases htr : objGet A.transitions rep with
            | none =>
              dsimp only
              rw [i5 pname a', if_neg (fun hc => hne hc.1.symm)]
            | some row =>
              dsimp only
              have hneg : ¬(pname = pn2 ∧ a' ∈ A.alphabet ∧
                  (repTrans smap row2 a').isSome) := fun hc => hne hc.1.symm
              rw [i5 pname a', if_neg hneg]

/-! ## Assembly of `minimizeDFA`: blocks, state map, transition table -/

/-- Every payload of an `enumFrom` entry is a member of the underlying list. -/
theorem snd_mem_of_mem_enumFrom {α : Type} :
    ∀ {l : List α} {n : Nat} {ip : Nat × α}, ip ∈ l.enumFrom n → ip.2 ∈ l := by
  intro l
  induction l with
  | nil => intro n ip h; exact absurd h (List.not_mem_nil ip)
  | cons x xs ih =>
    intro n ip h
    rcases List.mem_cons.mp h with he | he
    · rw [he]
      exact List.mem_cons_self x xs
    · exact List.mem_cons_of_mem x (ih he)

/-- A successful `findIdx?` yields an enumerated member satisfying the
predicate. -/
theorem findIdx?_some_mem_enumFrom {α : Type} {p : α → Bool} :
    ∀ (l : List α) (n j : Nat), l.findIdx? p n = some j →
    ∃ x, (j, x) ∈ l.enumFrom n ∧ p x = true := by
  intro l
  induction l with
  | nil => intro n j h; cases h
  | cons x xs ih =>
    intro n j h
    rw [List.findIdx?_cons] at h
    by_cases hp : p x
    · rw [if_pos hp] at h
      injection h with hj
      exact ⟨x, by rw [← hj]; exact List.mem_cons_self _ _, hp⟩
    · rw [if_neg hp] at h
      rcases ih (n + 1) j h with ⟨y, hy, hpy⟩
      exact ⟨y, List.mem_cons_of_mem _ hy, hpy⟩

/-- A failing `findIdx?` means no member satisfies the predicate. -/
theorem findIdx?_none_all {α : Type} {p : α → Bool} :
    ∀ (l : List α) (n : Nat), l.findIdx? p n = none → ∀ x ∈ l, p x = false := by
  intro l
  induction l with
  | nil => intro n h x hx; exact absurd hx (List.not_mem_nil x)
  | cons y ys ih =>
    intro n h x hx
    rw [List.findIdx?_cons] at h
    by_cases hp : p y
    · rw [if_pos hp] at h
      cases h
    · rw [if_neg hp] at h
      rcases List.mem_cons.mp hx with he | he
      · rw [he]
        exact Bool.of_not_eq_true hp
      · exact ih (n + 1) h x he

/-- In a pairwise-disjoint list of blocks, a state in one enumerated block is
in no block with a different index. -/
theorem disj_enumFrom {q : St} :
    ∀ (l : List (List St)) (n : Nat), l.Pairwise Disj →
    ∀ ip ∈ l.enumFrom n, q ∈ ip.2 →
    ∀ ip2 ∈ l.enumFrom n, ip2.1 ≠ ip.1 → q ∉ ip2.2 := by
  intro l
  induction l with
  | nil => intro n _ ip hip; exact absurd hip (List.not_mem_nil ip)
  | cons b l' ih =>
    intro n hpw ip hip hq ip2 hip2 hne
    obtain ⟨hhead, htail⟩ := List.pairwise_cons.mp hpw
    rcases List.mem_cons.mp hip with he | he
    · rcases List.mem_cons.mp hip2 with he2 | he2
      · rw [he2, he] at hne
        exact absurd rfl hne
      · rw [he] at hq
        exact hhead ip2.2 (snd_mem_of_mem_enumFrom he2) q hq
    · rcases List.mem_cons.mp hip2 with he2 | he2
      · rw [he2]
        intro hq2
        exact hhead ip.2 (snd_mem_of_mem_enumFrom he) q hq2 hq
      · exact ih (n + 1) htail ip he hq ip2 he2 hne

/-- Pairwise-disjoint nonempty blocks are pairwise distinct. -/
theorem nodup_of_pairwise_disj {l : List (List St)}
    (hd : l.Pairwise Disj) (hne : ∀ b ∈ l, b ≠ []) : l.Nodup :=
  List.Pairwise.imp_of_mem (fun {b1 b2} h1 _ hdisj heq => by
    cases hb1 : b1 with
    | nil => exact hne b1 h1 hb1
    | cons x xs =>
      have hx : x ∈ b1 := hb1 ▸ List.mem_cons_self x xs
      exact hdisj x hx (heq ▸ hx)) hd

/-- Step 4 of `minimize`, first fold (derived accessor for the proofs): the
skeleton automaton and the `stateMap`. -/
def mzSt1 (A : Automaton) : Automaton × List (St × St) :=
  (minimizePartitions A).enum.foldl
    (fun (st : Automaton × List (St × St)) ip =>
      let pname := "q" ++ toString ip.1
      let m := addState st.1 pname
      let smap := ip.2.foldl (fun mp q => objSet mp q pname) st.2
      let hasInit : Bool := match A.initialState with
        | some q0 => q0 ∈ ip.2
        | none => false
      let m := if hasInit then setInitialState m pname else m
      let m := if containsFinal A ip.2 then toggleFinalState m pname true else m
      (m, smap)) (Automaton.new .DFA, [])

/-- Step 4 of `minimize`, second fold (derived accessor): the transition
table build. -/
def mzM2 (A : Automaton) : Automaton :=
  (minimizePartitions A).foldl (fun m part =>
    match part.head? with
    | none => m
    | some rep =>
      match objGet (mzSt1 A).2 rep with
      | none => m
      | some pname =>
        match objGet A.transitions rep with
        | none => m
        | some row =>
          A.alphabet.foldl (fun mm a =>
            match objGet row a with
            | some (.dfa t) =>
              if t ≠ "" then
                match objGet (mzSt1 A).2 t with
                | some tname => addTransition mm pname a tname
                | none => mm
              else mm
            | _ => mm) m) (mzSt1 A).1

/-- `minimizeDFA` decomposed through the two accessors. -/
theorem minimizeDFA_eq (A : Automaton) :
    minimizeDFA A = setAlphabet (mzM2 A) A.alphabet := rfl


/-- The first `minimize` fold, instantiated: skeleton fields and the two-sided
`stateMap` characterization. -/
theorem mzSt1_facts {A : Automaton} {q0 : St} (hq0 : A.initialState = some q0) :
    (mzSt1 A).1.type = Kind.DFA ∧
    (mzSt1 A).1.alphabet = [] ∧
    (mzSt1 A).1.transitions = [] ∧
    (mzSt1 A).1.states =
      (List.range' 0 (minimizePartitions A).length).map blockName ∧
    (mzSt1 A).1.finalStates =
      ((minimizePartitions A).enum.filter
        (fun ip => containsFinal A ip.2)).map (fun ip => blockName ip.1) ∧
    (∀ ip ∈ (minimizePartitions A).enum, q0 ∈ ip.2 →
      (∀ ip2 ∈ (minimizePartitions A).enum, ip2.1 ≠ ip.1 → q0 ∉ ip2.2) →
      (mzSt1 A).1.initialState = some (blockName ip.1)) ∧
    (∀ q, (∀ ip ∈ (minimizePartitions A).enum, q ∉ ip.2) →
      objGet (mzSt1 A).2 q = none) ∧
    (∀ q, ∀ ip ∈ (minimizePartitions A).enum, q ∈ ip.2 →
      (∀ ip2 ∈ (minimizePartitions A).enum, ip2.1 ≠ ip.1 → q ∉ ip2.2) →
      objGet (mzSt1 A).2 q = some (blockName ip.1)) := by
  obtain ⟨h1, h2, h3, h4, h5, h6, h7, h8, h9⟩ :=
    st1_spec hq0 (minimizePartitions A) 0 (Automaton.new .DFA, [])
      (fun i _ => List.not_mem_nil _) (fun i _ => List.not_mem_nil _)
  exact ⟨h1, h2, h3, h4.trans (List.nil_append _),
    h5.trans (List.nil_append _), h7, h8, h9⟩


/-- Every list member appears in the enumeration, with an in-bounds index. -/
theorem mem_enumFrom_of_mem {α : Type} :
    ∀ {l : List α} {x : α} (n : Nat), x ∈ l →
    ∃ ip ∈ l.enumFrom n, ip.2 = x := by
  intro l
  induction l with
  | nil => intro x n h; exact absurd h (List.not_mem_nil x)
  | cons y ys ih =>
    intro x n h
    rcases List.mem_cons.mp h with he | he
    · exact ⟨(n, y), List.mem_cons_self _ _, he.symm⟩
    · rcases ih (n + 1) he with ⟨ip, hip, hipx⟩
      exact ⟨ip, List.mem_cons_of_mem _ hip, hipx⟩

/-- Enumeration indices are distinct: equal first components force equal
pairs. -/
theorem fst_inj_enumFrom {α : Type} :
    ∀ {l : List α} {n : Nat} {ip ip2 : Nat × α}, ip ∈ l.enumFrom n →
    ip2 ∈ l.enumFrom n → ip.1 = ip2.1 → ip = ip2 := by
  intro l
  induction l with
  | nil => intro n ip ip2 h; exact absurd h (List.not_mem_nil ip)
  | cons y ys ih =>
    intro n ip ip2 h h2 he
    rcases List.mem_cons.mp h with h1 | h1
    · rcases List.mem_cons.mp h2 with h2' | h2' 
      · rw [h1, h2']
      · have := List.le_fst_of_mem_enumFrom h2'
        rw [h1] at he
        omega
    · rcases List.mem_cons.mp h2 with h2' | h2'
      · have := List.le_fst_of_mem_enumFrom h1
        rw [h2'] at he
        omega
      · exact ih h1 h2' he

/-- The `stateMap` sends a state of an enumerated block to that block's
name. -/
theorem mzSmap_some {A : Automaton} {q0 : St} (hq0 : A.initialState = some q0)
    {t : St} {ip : Nat × List St} (hip : ip ∈ (minimizePartitions A).enum)
    (ht : t ∈ ip.2) : objGet (mzSt1 A).2 t = some (blockName ip.1) := by
  obtain ⟨-, hdisj, -, -, -⟩ := minimizePartitions_spec hq0
  exact (mzSt1_facts hq0).2.2.2.2.2.2.2 t ip hip ht
    (disj_enumFrom (minimizePartitions A) 0 hdisj ip hip ht)

/-- The `stateMap` has no entry for a state outside every block. -/
theorem mzSmap_none {A : Automaton} {q0 : St} (hq0 : A.initialState = some q0)
    {t : St} (ht : ∀ b ∈ minimizePartitions A, t ∉ b) :
    objGet (mzSt1 A).2 t = none :=
  (mzSt1_facts hq0).2.2.2.2.2.2.1 t
    (fun ip hip => ht ip.2 (snd_mem_of_mem_enumFrom hip))

/-- Every `stateMap` value is a state of the skeleton automaton. -/
theorem mzSmap_mem_states {A : Automaton} {q0 : St}
    (hq0 : A.initialState = some q0) :
    ∀ t tname, objGet (mzSt1 A).2 t = some tname →
    tname ∈ (mzSt1 A).1.states := by
  intro t tname h
  by_cases hin : ∃ b ∈ minimizePartitions A, t ∈ b
  · rcases hin with ⟨b, hb, htb⟩
    rcases mem_enumFrom_of_mem 0 hb with ⟨ip, hip, hipb⟩
    have hs := mzSmap_some hq0 hip (hipb ▸ htb)
    rw [h] at hs
    injection hs with he
    rw [he, (mzSt1_facts hq0).2.2.2.1]
    refine List.mem_map_of_mem blockName ?_
    have := List.fst_lt_add_of_mem_enumFrom hip
    exact List.mem_range'_1.mpr ⟨Nat.zero_le _, by omega⟩
  · rw [mzSmap_none hq0 (fun b hb htb => hin ⟨b, hb, htb⟩)] at h
    cases h

/-- The skeleton's transition table is empty, so raw lookups on it fail. -/
theorem mzSt1_lookup2 {A : Automaton} {q0 : St}
    (hq0 : A.initialState = some q0) (k : St) (a : Sym) :
    lookup2 (mzSt1 A).1 k a = none := by
  unfold lookup2
  rw [(mzSt1_facts hq0).2.2.1]
  rfl

/-- Fields of the minimized automaton in terms of the skeleton. -/
theorem minimizeDFA_fields {A : Automaton} {q0 : St}
    (hq0 : A.initialState = some q0) :
    (minimizeDFA A).type = Kind.DFA ∧
    (minimizeDFA A).alphabet = A.alphabet.foldl setAdd [] ∧
    (minimizeDFA A).initialState = (mzSt1 A).1.initialState ∧
    (minimizeDFA A).finalStates = (mzSt1 A).1.finalStates := by
  obtain ⟨f1, f2, f3, f4⟩ := @m2_outer_fields A (mzSt1 A).2
    (minimizePartitions A) (mzSt1 A).1 ((mzSt1_facts hq0).1)
    (mzSmap_mem_states hq0)
  exact ⟨f1, rfl, f3, f4⟩


/-- The minimized automaton's transition out of an enumerated block on `a` is
governed by the block representative's target index: index `-1` gives no
transition, index `j` a transition to block `j`'s name. -/
theorem minimizeDFA_tlookup {A : Automaton} {q0 : St}
    (hq0 : A.initialState = some q0) {ip : Nat × List St}
    (hip : ip ∈ (minimizePartitions A).enum) {rep : St}
    (hrep : ip.2.head? = some rep) (a : Sym) :
    (targetIdx A (minimizePartitions A) rep a = -1 →
      tlookup (minimizeDFA A) (blockName ip.1) a = none) ∧
    (∀ j : Nat, targetIdx A (minimizePartitions A) rep a = (j : Int) →
      a ∈ A.alphabet →
      tlookup (minimizeDFA A) (blockName ip.1) a =
        some (Tgt.dfa (blockName j))) := by
  obtain ⟨hblocks, hdisj, -, -, -⟩ := minimizePartitions_spec hq0
  have hnd : (minimizePartitions A).Nodup :=
    nodup_of_pairwise_disj hdisj (fun b hb => (hblocks b hb).1)
  have hrepmem : rep ∈ ip.2 := List.mem_of_mem_head? (Option.mem_def.mpr hrep)
  have hsm : objGet (mzSt1 A).2 rep = some (blockName ip.1) :=
    mzSmap_some hq0 hip hrepmem
  have hpmem : ip.2 ∈ minimizePartitions A := snd_mem_of_mem_enumFrom hip
  have hothers : ∀ b2 ∈ minimizePartitions A, b2 ≠ ip.2 →
      ∀ rep2, b2.head? = some rep2 →
      ∀ pn2, objGet (mzSt1 A).2 rep2 = some pn2 → pn2 ≠ blockName ip.1 := by
    intro b2 hb2 hne2 rep2 hh2 pn2 hsm2
    rcases mem_enumFrom_of_mem 0 hb2 with ⟨ip2, hip2, hip2b⟩
    have hrep2mem : rep2 ∈ ip2.2 := by
      rw [hip2b]
      exact List.mem_of_mem_head? (Option.mem_def.mpr hh2)
    have hs2 := mzSmap_some hq0 hip2 hrep2mem
    rw [hsm2] at hs2
    injection hs2 with he2
    rw [he2]
    intro hbe
    have heq : ip2 = ip := fst_inj_enumFrom hip2 hip (blockName_inj hbe)
    exact hne2 (hip2b.symm.trans (congrArg Prod.snd heq))
  have hspec := @m2_outer_spec A (mzSt1 A).2 (minimizePartitions A)
    (mzSt1 A).1 ((mzSt1_facts hq0).1) (mzSmap_mem_states hq0) ip.2 hpmem
    rep (blockName ip.1) hrep hsm hothers hnd a
  have hM : lookup2 (minimizeDFA A) (blockName ip.1) a =
      (match objGet A.transitions rep with
       | some row =>
         if a ∈ A.alphabet ∧ (repTrans (mzSt1 A).2 row a).isSome
         then repTrans (mzSt1 A).2 row a
         else lookup2 (mzSt1 A).1 (blockName ip.1) a
       | none => lookup2 (mzSt1 A).1 (blockName ip.1) a) := hspec
  rw [mzSt1_lookup2 hq0 (blockName ip.1) a] at hM
  have hdone : lookup2 (minimizeDFA A) (blockName ip.1) a = none →
      targetIdx A (minimizePartitions A) rep a = -1 →
      (targetIdx A (minimizePartitions A) rep a = -1 →
        tlookup (minimizeDFA A) (blockName ip.1) a = none) ∧
      (∀ j : Nat, targetIdx A (minimizePartitions A) rep a = (j : Int) →
        a ∈ A.alphabet →
        tlookup (minimizeDFA A) (blockName ip.1) a =
          some (Tgt.dfa (blockName j))) := by
    intro h1 h2
    constructor
    · intro h3
      unfold tlookup
      rw [h1]
    · intro j hj ha
      rw [h2] at hj
      exact absurd hj (by omega)
  cases htr : objGet A.transitions rep with
  | none =>
    rw [htr] at hM
    dsimp only at hM
    have hl2 : lookup2 A rep a = none := by
      unfold lookup2
      rw [htr]
      rfl
    have htl : tlookup A rep a = none := by
      unfold tlookup
      rw [hl2]
    have hti : targetIdx A (minimizePartitions A) rep a = -1 := by
      unfold targetIdx
      rw [htl]
    exact hdone hM hti
  | some row =>
    rw [htr] at hM
    dsimp only at hM
    have hl2 : lookup2 A rep a = objGet row a := by
      unfold lookup2
      rw [htr]
      rfl
    cases hra : objGet row a with
    | none =>
      have hrt : repTrans (mzSt1 A).2 row a = none := by
        unfold repTrans
        rw [hra]
      rw [hrt, if_neg (fun hc => by simp at hc)] at hM
      have htl : tlookup A rep a = none := by
        unfold tlookup
        rw [hl2, hra]
      have hti : targetIdx A (minimizePartitions A) rep a = -1 := by
        unfold targetIdx
        rw [htl]
      exact hdone hM hti
    | some tg =>
      cases tg with
      | nfa ts =>
        have hrt : repTrans (mzSt1 A).2 row a = none := by
          unfold repTrans
          rw [hra]
        rw [hrt, if_neg (fun hc => by simp at hc)] at hM
        have htl : tlookup A rep a = some (Tgt.nfa ts) := by
          unfold tlookup
          rw [hl2, hra]
          simp [Tgt.truthy]
        have hti : targetIdx A (minimizePartitions A) rep a = -1 := by
          unfold targetIdx
          rw [htl]
        exact hdone hM hti
      | dfa t =>
        by_cases ht : t = ""
        · subst ht
          have hrt : repTrans (mzSt1 A).2 row a = none := by
            unfold repTrans
            rw [hra]
            dsimp only
            rw [if_neg (fun hne => hne rfl)]
          rw [hrt, if_neg (fun hc => by simp at hc)] at hM
          have htl : tlookup A rep a = none := by
            unfold tlookup
            rw [hl2, hra]
            simp [Tgt.truthy]
          have hti : targetIdx A (minimizePartitions A) rep a = -1 := by
            unfold targetIdx
            rw [htl]
          exact hdone hM hti
        · have htl : tlookup A rep a = some (Tgt.dfa t) := by
            unfold tlookup
            rw [hl2, hra]
            simp [Tgt.truthy, ht]
          cases hfi : (minimizePartitions A).findIdx? (fun p => t ∈ p) with
          | none =>
            have hti0 : targetIdx A (minimizePartitions A) rep a = -1 := by
              unfold targetIdx
              rw [htl]
              dsimp only
              rw [hfi]
            have hnone : ∀ b ∈ minimizePartitions A, t ∉ b := fun b hb =>
              of_decide_eq_false (findIdx?_none_all _ 0 hfi b hb)
            have hrt : repTrans (mzSt1 A).2 row a = none := by
              unfold repTrans
              rw [hra]
              dsimp only
              rw [if_pos ht, mzSmap_none hq0 hnone]
            rw [hrt, if_neg (fun hc => by simp at hc)] at hM
            exact hdone hM hti0
          | some i =>
            have hti0 : targetIdx A (minimizePartitions A) rep a =
                (i : Int) := by
              unfold targetIdx
              rw [htl]
              dsimp only
              rw [hfi]
            rcases findIdx?_some_mem_enumFrom (minimizePartitions A) 0 i hfi
              with ⟨x, hx, hpx⟩
            have hsmt : objGet (mzSt1 A).2 t = some (blockName i) :=
              mzSmap_some hq0 hx (of_decide_eq_true hpx)
            have hrt : repTrans (mzSt1 A).2 row a =
                some (Tgt.dfa (blockName i)) := by
              unfold repTrans
              rw [hra]
              dsimp only
              rw [if_pos ht, hsmt]
            rw [hrt] at hM
            constructor
            · intro h1
              rw [hti0] at h1
              exfalso
              omega
            · intro j hj ha
              rw [hti0] at hj
              have hij : i = j := by omega
              subst hij
              rw [if_pos ⟨ha, rfl⟩] at hM
              unfold tlookup
              rw [hM]
              simp [Tgt.truthy, blockName_ne_empty i]


/-- A truthy lookup is a raw lookup of a truthy value. -/
theorem tlookup_some {A : Automaton} {q : St} {a : Sym} {tg : Tgt}
    (h : tlookup A q a = some tg) :
    lookup2 A q a = some tg ∧ tg.truthy = true := by
  unfold tlookup at h
  cases hl : lookup2 A q a with
  | none =>
    rw [hl] at h
    cases h
  | some tg2 =>
    rw [hl] at h
    have h' : (if tg2.truthy = true then some tg2 else none) = some tg := h
    by_cases htr : tg2.truthy = true
    · rw [if_pos htr] at h'
      injection h' with he
      rw [← he]
      exact ⟨rfl, htr⟩
    · rw [if_neg htr] at h'
      cases h'

/-- A block's name is final in the minimized automaton exactly when the
block's states are final in the original. -/
theorem minimizeDFA_accept {A : Automaton} {q0 : St}
    (hq0 : A.initialState = some q0) {q : St} {ip : Nat × List St}
    (hip : ip ∈ (minimizePartitions A).enum) (hq : q ∈ ip.2) :
    (blockName ip.1 ∈ (minimizeDFA A).finalStates ↔ q ∈ A.finalStates) := by
  obtain ⟨-, -, hpure, -, -⟩ := minimizePartitions_spec hq0
  rw [(minimizeDFA_fields hq0).2.2.2, (mzSt1_facts hq0).2.2.2.2.1]
  constructor
  · intro hmem
    rcases List.mem_map.mp hmem with ⟨ip2, hip2, hbe⟩
    have hfil := List.mem_filter.mp hip2
    have heq : ip2 = ip := fst_inj_enumFrom hfil.1 hip (blockName_inj hbe)
    have hcf : containsFinal A ip.2 = true := heq ▸ hfil.2
    rcases List.any_eq_true.mp hcf with ⟨x, hx, hxf⟩
    rcases hpure ip.2 (snd_mem_of_mem_enumFrom hip) with hall | hnot
    · exact hall q hq
    · exact absurd (of_decide_eq_true hxf) (hnot x hx)
  · intro hqf
    refine List.mem_map_of_mem _ (List.mem_filter.mpr ⟨hip, ?_⟩)
    exact List.any_eq_true.mpr ⟨q, hq, decide_eq_true hqf⟩

/-- The simulation correspondence: from any reachable state of the original
DFA and its block's name in the minimized DFA, the two runs accept alike. -/
theorem simDFAGo_minimize {A : Automaton} {q0 : St}
    (hq0 : A.initialState = some q0) :
    ∀ (s : List Sym), (∀ a ∈ s, a ∈ A.alphabet) →
    ∀ (q : St) (ip : Nat × List St), q ∈ getReachableStates A →
    ip ∈ (minimizePartitions A).enum → q ∈ ip.2 →
    ∀ (path path' : List PathEntry),
    (simDFAGo (minimizeDFA A) (blockName ip.1) s path').accepted =
      (simDFAGo A q s path).accepted := by
  intro s
  induction s with
  | nil =>
    intro hs q ip hreach hip hq path path'
    show decide (blockName ip.1 ∈ (minimizeDFA A).finalStates) =
      decide (q ∈ A.finalStates)
    exact decide_eq_decide.mpr (minimizeDFA_accept hq0 hip hq)
  | cons a s' ih =>
    intro hs q ip hreach hip hq path path'
    obtain ⟨hblocks, hdisj, hpure, hcover, hstable⟩ :=
      minimizePartitions_spec hq0
    have ha : a ∈ A.alphabet := hs a (List.mem_cons_self _ _)
    have haM : a ∈ (minimizeDFA A).alphabet := by
      rw [(minimizeDFA_fields hq0).2.1]
      exact subset_foldl_setAdd A.alphabet [] a ha
    have hpmem : ip.2 ∈ minimizePartitions A := snd_mem_of_mem_enumFrom hip
    have hbne : ip.2 ≠ [] := (hblocks ip.2 hpmem).1
    have hrep : ip.2.head? = some (ip.2.head hbne) := List.head?_eq_head hbne
    have hrepm : ip.2.head hbne ∈ ip.2 := List.head_mem hbne
    obtain ⟨hT1, hT2⟩ := minimizeDFA_tlookup hq0 hip hrep a
    have hstb := stable_targetIdx (hstable ip.2 hpmem) (hblocks ip.2 hpmem).2
      hq hrepm ha
    rw [simDFAGo_cons, simDFAGo_cons, if_neg (not_not_intro haM),
      if_neg (not_not_intro ha)]
    cases htlq : tlookup A q a with
    | none =>
      have htiq : targetIdx A (minimizePartitions A) q a = -1 := by
        unfold targetIdx
        rw [htlq]
      rw [hT1 (hstb.symm.trans htiq)]
    | some tg =>
      cases tg with
      | nfa ts =>
        have htiq : targetIdx A (minimizePartitions A) q a = -1 := by
          unfold targetIdx
          rw [htlq]
        rw [hT1 (hstb.symm.trans htiq)]
      | dfa t =>
        obtain ⟨hl2q, htr⟩ := tlookup_some htlq
        have htreach : t ∈ getReachableStates A :=
          (getReachableStates_spec hq0).2.2 q hreach t
            (mem_rowTargets_of_lookup2 hl2q)
        rcases hcover t htreach with ⟨b, hb, htb⟩
        cases hfi : (minimizePartitions A).findIdx? (fun p => t ∈ p) with
        | none =>
          exact absurd htb (of_decide_eq_false (findIdx?_none_all _ 0 hfi b hb))
        | some j =>
          have htiq : targetIdx A (minimizePartitions A) q a = (j : Int) := by
            unfold targetIdx
            rw [htlq]
            dsimp only
            rw [hfi]
          rcases findIdx?_some_mem_enumFrom (minimizePartitions A) 0 j hfi
            with ⟨x, hx, hpx⟩
          rw [hT2 j (hstb.symm.trans htiq) ha]
          exact ih (fun a2 ha2 => hs a2 (List.mem_cons_of_mem a ha2)) t (j, x)
            htreach hx (of_decide_eq_true hpx) _ _


/-- **C2.** For every DFA-kind automaton with a (truthy) initial state and
every input string over its alphabet, `minimize` needs no conversion fuel and
returns the partition-refinement DFA, and the minimized DFA's `simulate`
accepts exactly when the original's does. -/
theorem c2_minimize_preserves_acceptance (A : Automaton) (q0 : St)
    (htype : A.type = Kind.DFA) (hq0 : A.initialState = some q0)
    (hq0ne : q0 ≠ "") (s : List Sym) (hs : ∀ a ∈ s, a ∈ A.alphabet)
    (fuel : Nat) :
    minimize A fuel = some (minimizeDFA A) ∧
    (simulate (minimizeDFA A) s).accepted = (simulate A s).accepted := by
  constructor
  · unfold minimize
    rw [htype]
  · obtain ⟨-, hdisj, -, hcover, -⟩ := minimizePartitions_spec hq0
    have hq0reach : q0 ∈ getReachableStates A :=
      (getReachableStates_spec hq0).2.1
    rcases hcover q0 hq0reach with ⟨b, hb, hq0b⟩
    rcases mem_enumFrom_of_mem 0 hb with ⟨ip0, hip0, hip0b⟩
    have hq0ip : q0 ∈ ip0.2 := by
      rw [hip0b]
      exact hq0b
    have hMinit : (minimizeDFA A).initialState = some (blockName ip0.1) := by
      rw [(minimizeDFA_fields hq0).2.2.1]
      exact (mzSt1_facts hq0).2.2.2.2.2.1 ip0 hip0 hq0ip
        (disj_enumFrom (minimizePartitions A) 0 hdisj ip0 hip0 hq0ip)
    unfold simulate
    rw [htype, (minimizeDFA_fields hq0).1]
    dsimp only
    unfold simulateDFA
    rw [hq0, hMinit]
    dsimp only
    rw [if_neg (blockName_ne_empty ip0.1), if_neg hq0ne]
    exact simDFAGo_minimize hq0 s hs q0 ip0 hq0reach hip0 hq0ip _ _

/-- A three-state DFA exercising the witness: `s1` and `s2` are equivalent
final states merged by minimization. -/
def c2W : Automaton :=
  { type := .DFA
    states := ["s0", "s1", "s2"]
    alphabet := ["x"]
    transitions := [("s0", [("x", .dfa "s1")]), ("s1", [("x", .dfa "s2")]),
      ("s2", [("x", .dfa "s1")])]
    initialState := some "s0"
    finalStates := ["s1", "s2"] }

theorem c2_minimize_preserves_acceptance_witness :
    c2W.type = Kind.DFA ∧ c2W.initialState = some "s0" ∧ "s0" ≠ "" ∧
    (∀ a ∈ ["x", "x"], a ∈ c2W.alphabet) ∧
    (minimize c2W 5 = some (minimizeDFA c2W) ∧
      (simulate (minimizeDFA c2W) ["x", "x"]).accepted =
        (simulate c2W ["x", "x"]).accepted) :=
  ⟨rfl, rfl, by decide, by decide,
    c2_minimize_preserves_acceptance c2W "s0" rfl rfl (by decide)
      ["x", "x"] (by decide) 5⟩


end Automata
